import Mathlib

/-!
# recall: the reminder entity and the JSONL store

A shallow embedding of `internal/protocol` (the `Reminder` entity with its constructor and
mutators, the identifier generator, `ListFilter`), of `internal/adapters/jsonl/store.go`
(the log-structured local store), of the filter that `runList` builds in
`cmd/rc/cmd/list.go`, and of `matchesFilter` of `internal/adapters/todoist/store.go`.

Modelling decisions, all visible in the definitions below:

* Text (Go `string` / `[]byte`) is a sequence of characters; file contents and encoded
  lines are `List Char`, record fields are `String`. Sizes that Go measures in bytes are
  measured in UTF-8 bytes (`byteLen`).
* `time.Time` is an instant on the time line, an `Int` (seconds since the Unix epoch in the
  concrete codec). `Before`/`After` are `<`/`>`.
* The file system is the pair of files the store touches: the log at `s.path` and the
  temporary file at `s.path + ".tmp"`. Every operation takes a `Fault` naming the I/O step
  (if any) that fails during the call, and the disk it runs on; it returns its result and the
  disk it leaves.
* Go's standard library is not part of the repository. `encoding/json`, `strings.EqualFold`
  and `strings.ToLower` are parameters (`Lib`); general theorems hold for every `Lib`.
  `bufio.Scanner`, `strings.TrimSpace` and `strings.Contains` are modelled directly.
* The iteration order of a Go map is unspecified: `readAll` takes a `MapOrder`, an arbitrary
  permutation of the map's values.
* Clock readings (`time.Now()`, `time.Now().UnixMilli()`) and the bytes of `rand.Read` are
  parameters of the functions that take them.
* The mutex is not modelled: operations are run one at a time.
-/

namespace Recall

/-! ## The entity (`internal/protocol/reminder.go`) -/

/-- An instant (`time.Time`). -/
abbrev Time := Int

/-- The zero `time.Time`: January 1, year 1, 00:00:00 UTC, in seconds since the Unix epoch. -/
def zeroTime : Time := -62135596800

/-- Reminder represents a reminder with rich context. Pointer fields are `Option`. -/
structure Reminder where
  ID : String
  Title : String
  Due : Option Time
  Notes : String
  Links : List String
  Tags : List String
  Priority : Int
  Completed : Bool
  CompletedAt : Option Time
  CreatedAt : Time
  UpdatedAt : Time
deriving DecidableEq, Repr

/-- The zero value of the struct (`var r protocol.Reminder`). -/
def Reminder.zero : Reminder :=
  { ID := "", Title := "", Due := none, Notes := "", Links := [], Tags := [], Priority := 0,
    Completed := false, CompletedAt := none, CreatedAt := zeroTime, UpdatedAt := zeroTime }

/-- Complete marks the reminder as completed; `now` is the reading of `time.Now()`. -/
def Reminder.Complete (r : Reminder) (now : Time) : Reminder :=
  { r with Completed := true, CompletedAt := some now, UpdatedAt := now }

/-! ## The filter descriptor (`internal/protocol/store.go`) -/

/-- ListFilter specifies criteria for listing reminders. -/
structure ListFilter where
  IncludeCompleted : Bool
  Tags : List String
  DueBefore : Option Time
  DueAfter : Option Time
  Search : String
deriving DecidableEq, Repr

/-! ## Library functions -/

/-- The functions of Go's standard library the store calls and that are left abstract:
`json.Marshal` and `json.Unmarshal` at type `Reminder` (`none` is a returned error),
`strings.EqualFold` and `strings.ToLower`. -/
structure Lib where
  marshal : Reminder → Option (List Char)
  unmarshal : List Char → Option Reminder
  equalFold : String → String → Bool
  toLower : String → String

/-- Whether `sub` occurs in `s` as a contiguous run (`strings.Contains` on characters). -/
def containsChars : List Char → List Char → Bool
  | [], sub => sub.isEmpty
  | c :: cs, sub => sub.isPrefixOf (c :: cs) || containsChars cs sub

/-- Model of `strings.Contains`. -/
def Contains (s sub : String) : Bool := containsChars s.toList sub.toList

/-- Model of `unicode.IsSpace`: the code points with the White_Space property. -/
def isSpace (c : Char) : Bool :=
  let n := c.toNat
  (0x09 ≤ n && n ≤ 0x0D) || n == 0x20 || n == 0x85 || n == 0xA0 || n == 0x1680 ||
    (0x2000 ≤ n && n ≤ 0x200A) || n == 0x2028 || n == 0x2029 || n == 0x202F ||
    n == 0x205F || n == 0x3000

/-- Model of `strings.TrimSpace`: leading and trailing white space removed. -/
def TrimSpace (s : List Char) : List Char :=
  ((s.dropWhile isSpace).reverse.dropWhile isSpace).reverse

/-! ## `bufio.Scanner` with the default split function and buffer -/

/-- The constant `bufio.MaxScanTokenSize`. -/
def MaxScanTokenSize : Nat := 64 * 1024

/-- Length of a text in UTF-8 bytes. -/
def byteLen (s : List Char) : Nat := (s.map Char.utf8Size).sum

/-- The input cut at each `'\n'`; a last line without `'\n'` is kept when it is not empty
(`bufio.ScanLines`, before `dropCR`). -/
def rawLines : List Char → List (List Char)
  | [] => []
  | c :: cs =>
    if c = '\n' then [] :: rawLines cs
    else
      match rawLines cs with
      | [] => [[c]]
      | l :: ls => (c :: l) :: ls

/-- The helper `dropCR` of `bufio`: one trailing carriage return is dropped. -/
def dropCR (l : List Char) : List Char :=
  if l.getLast? = some '\r' then l.dropLast else l

/-- The tokens the scanner delivers for the given raw lines, and whether it stopped with
`bufio.ErrTooLong`: a line that does not fit the buffer together with its newline (that is,
of `MaxScanTokenSize` bytes or more) ends the scan with that error. -/
def scanTokens : List (List Char) → List (List Char) × Bool
  | [] => ([], false)
  | l :: ls =>
    if MaxScanTokenSize ≤ byteLen l then ([], true)
    else ((dropCR l) :: (scanTokens ls).1, (scanTokens ls).2)

/-- A scanner run over a whole file: the tokens of `scanner.Scan()`/`scanner.Text()` and
whether `scanner.Err()` is non-nil afterwards. -/
def scan (data : List Char) : List (List Char) × Bool := scanTokens (rawLines data)

/-! ## The store (`internal/adapters/jsonl/store.go`) -/

/-- Errors returned by the store: the sentinel `ErrNotFound`, or a wrapped I/O or encoding
error carrying the prefix the source gives it. -/
inductive StoreErr where
  | ErrNotFound
  | wrapped (context : String)
deriving DecidableEq, Repr

/-- The two files the store reads and writes; `none` is a file that does not exist. -/
structure Disk where
  file : Option (List Char)
  tmp : Option (List Char)
deriving DecidableEq, Repr

/-- The I/O step that fails during one call of a store operation, if any. `writeFails k n`:
the `k`-th `Write` of the call (counting from 0) fails after `n` bytes reached the file. -/
inductive Fault where
  | noFault
  | openFails
  | readFails
  | createFails
  | writeFails (k n : Nat)
  | closeFails
  | renameFails
deriving DecidableEq, Repr

/-- The working map `seen` of `readAll`, as an association list with unique keys. -/
abbrev SeenMap := List (String × Reminder)

/-- The assignment `seen[k] = v`. -/
def SeenMap.set : SeenMap → String → Reminder → SeenMap
  | [], k, v => [(k, v)]
  | (k', v') :: rest, k, v =>
    if k' = k then (k, v) :: rest else (k', v') :: SeenMap.set rest k v

/-- An order in which `range` visits the values of a map: any permutation. -/
structure MapOrder where
  range : List Reminder → List Reminder
  perm : ∀ l, (range l).Perm l

/-- The order that visits the values as they were first inserted. -/
def MapOrder.insertion : MapOrder := ⟨id, fun l => List.Perm.refl l⟩

/-- The order that visits the values in reverse. -/
def MapOrder.reversed : MapOrder := ⟨List.reverse, fun l => List.reverse_perm l⟩

/-- One iteration of the scan loop of `readAll` on the token `text`. -/
def readStep (lib : Lib) (seen : SeenMap) (text : List Char) : SeenMap :=
  let line := TrimSpace text
  if line = [] then seen
  else
    match lib.unmarshal line with
    | none => seen
    | some r => seen.set r.ID r

/-- The method `readAll`. -/
def readAll (lib : Lib) (ord : MapOrder) (fault : Fault) (d : Disk) :
    Except StoreErr (List Reminder) :=
  match d.file with
  | none => .ok []
  | some data =>
    if fault = .openFails then .error (.wrapped "opening file")
    else
      let seen := (scan data).1.foldl (readStep lib) []
      if (scan data).2 || fault = .readFails then .error (.wrapped "reading file")
      else .ok (ord.range (seen.map Prod.snd))

/-- The method `appendReminder`. -/
def appendReminder (lib : Lib) (fault : Fault) (d : Disk) (reminder : Reminder) :
    Except StoreErr Unit × Disk :=
  if fault = .openFails then (.error (.wrapped "opening file"), d)
  else
    let cur := d.file.getD []
    match lib.marshal reminder with
    | none => (.error (.wrapped "marshaling reminder"), { d with file := some cur })
    | some data =>
      match fault with
      | .writeFails 0 n =>
        (.error (.wrapped "writing reminder"),
          { d with file := some (cur ++ (data ++ ['\n']).take n) })
      | _ => (.ok (), { d with file := some (cur ++ (data ++ ['\n'])) })

/-- The loop of `writeAll`: the content written to the temporary file, or the error of the
first `Marshal` or `Write` that fails. `i` counts the writes and `acc` is what is written. -/
def writeLoop (lib : Lib) (fault : Fault) : List Reminder → Nat → List Char →
    Except StoreErr (List Char)
  | [], _, acc => .ok acc
  | r :: rs, i, acc =>
    match lib.marshal r with
    | none => .error (.wrapped "marshaling reminder")
    | some data =>
      if (match fault with
          | .writeFails k _ => decide (k = i)
          | _ => false) then .error (.wrapped "writing reminder")
      else writeLoop lib fault rs (i + 1) (acc ++ (data ++ ['\n']))

/-- The method `writeAll`. On every failure after `os.Create` the temporary file is
removed (`os.Remove` is taken to succeed). -/
def writeAll (lib : Lib) (fault : Fault) (d : Disk) (reminders : List Reminder) :
    Except StoreErr Unit × Disk :=
  if fault = .createFails then (.error (.wrapped "creating temp file"), d)
  else
    match writeLoop lib fault reminders 0 [] with
    | .error e => (.error e, { d with tmp := none })
    | .ok content =>
      if fault = .closeFails then (.error (.wrapped "closing temp file"), { d with tmp := none })
      else if fault = .renameFails then
        (.error (.wrapped "renaming temp file"), { d with tmp := none })
      else (.ok (), { file := some content, tmp := none })

/-- The method `matchesFilter`. -/
def matchesFilter (lib : Lib) (r : Reminder) (filter : ListFilter) : Bool :=
  if !filter.IncludeCompleted && r.Completed then false
  else if decide (filter.Tags.length > 0) &&
      !(filter.Tags.any fun filterTag =>
          r.Tags.any fun reminderTag => lib.equalFold reminderTag filterTag) then false
  else if (match filter.DueBefore, r.Due with
      | some before, some due => decide (due > before)
      | _, _ => false) then false
  else if (match filter.DueAfter, r.Due with
      | some after, some due => decide (due < after)
      | _, _ => false) then false
  else if decide (filter.Search ≠ "") &&
      (!Contains (lib.toLower r.Title) (lib.toLower filter.Search) &&
        !Contains (lib.toLower r.Notes) (lib.toLower filter.Search)) then false
  else true

/-- Add creates a new reminder. -/
def Store.Add (lib : Lib) (fault : Fault) (d : Disk) (reminder : Reminder) :
    Except StoreErr Unit × Disk :=
  appendReminder lib fault d reminder

/-- The search loop of `Get`: the first reminder with the given id. -/
def findByID (id : String) : List Reminder → Option Reminder
  | [] => none
  | r :: rs => if r.ID = id then some r else findByID id rs

/-- Get retrieves a reminder by ID. -/
def Store.Get (lib : Lib) (ord : MapOrder) (fault : Fault) (d : Disk) (id : String) :
    Except StoreErr Reminder :=
  match readAll lib ord fault d with
  | .error e => .error e
  | .ok reminders =>
    match findByID id reminders with
    | some r => .ok r
    | none => .error .ErrNotFound

/-- List returns all reminders matching the filter; `none` is the nil filter. -/
def Store.List (lib : Lib) (ord : MapOrder) (fault : Fault) (d : Disk) (filter : Option ListFilter) :
    Except StoreErr (List Reminder) :=
  match readAll lib ord fault d with
  | .error e => .error e
  | .ok reminders =>
    match filter with
    | none => .ok reminders
    | some f => .ok (reminders.filter fun r => matchesFilter lib r f)

/-- The loop of `Update`: the first reminder with the id of `reminder` is replaced by it;
the flag is `found`. -/
def updateLoop (reminder : Reminder) : List Reminder → List Reminder × Bool
  | [] => ([], false)
  | r :: rs =>
    if r.ID = reminder.ID then (reminder :: rs, true)
    else (r :: (updateLoop reminder rs).1, (updateLoop reminder rs).2)

/-- Update modifies an existing reminder. -/
def Store.Update (lib : Lib) (ord : MapOrder) (fault : Fault) (d : Disk) (reminder : Reminder) :
    Except StoreErr Unit × Disk :=
  match readAll lib ord fault d with
  | .error e => (.error e, d)
  | .ok reminders =>
    if (updateLoop reminder reminders).2 then writeAll lib fault d (updateLoop reminder reminders).1
    else (.error .ErrNotFound, d)

/-- The loop of `Delete`: the reminders whose id differs from `id`, and the flag `found`. -/
def deleteLoop (id : String) : List Reminder → List Reminder × Bool
  | [] => ([], false)
  | r :: rs =>
    if r.ID = id then ((deleteLoop id rs).1, true)
    else (r :: (deleteLoop id rs).1, (deleteLoop id rs).2)

/-- Delete removes a reminder by ID. -/
def Store.Delete (lib : Lib) (ord : MapOrder) (fault : Fault) (d : Disk) (id : String) :
    Except StoreErr Unit × Disk :=
  match readAll lib ord fault d with
  | .error e => (.error e, d)
  | .ok reminders =>
    if (deleteLoop id reminders).2 then writeAll lib fault d (deleteLoop id reminders).1
    else (.error .ErrNotFound, d)

/-- The loop of `Complete`: the first reminder with the given id is completed in place;
`none` when the loop ends without finding one. -/
def completeLoop (id : String) (now : Time) : List Reminder → Option (List Reminder)
  | [] => none
  | r :: rs =>
    if r.ID = id then some (r.Complete now :: rs)
    else (completeLoop id now rs).map fun rs' => r :: rs'

/-- Complete marks a reminder as completed; `now` is the reading of `time.Now()`. -/
def Store.Complete (lib : Lib) (ord : MapOrder) (fault : Fault) (now : Time) (d : Disk) (id : String) :
    Except StoreErr Unit × Disk :=
  match readAll lib ord fault d with
  | .error e => (.error e, d)
  | .ok reminders =>
    match completeLoop id now reminders with
    | some reminders' => writeAll lib fault d reminders'
    | none => (.error .ErrNotFound, d)

/-! ## A concrete library for closed evaluations

`goLib` is an executable model of the library functions on a fragment of their inputs. It is
used only to evaluate the store on concrete files. `GoJSON.marshal` follows the encoder of
`encoding/json` for the struct tags of `Reminder` (field order, `omitempty`, string escaping
with HTML escaping on, RFC 3339 times in UTC at whole seconds). `GoJSON.unmarshal` decodes
the objects whose keys are the tags of `Reminder`, in any order, without insignificant white
space; `encoding/json` accepts more texts (white space, unknown keys, other spellings of
numbers and times), on which this model returns an error. -/

namespace GoJSON

/-- The hexadecimal digit of `n < 16`, lower case. -/
def hexDigit (n : Nat) : Char :=
  if n < 10 then Char.ofNat (48 + n) else Char.ofNat (87 + n)

/-- One character of a string as the encoder writes it. -/
def encodeChar (c : Char) : List Char :=
  if c = '"' then ['\\', '"']
  else if c = '\\' then ['\\', '\\']
  else if c = '\n' then ['\\', 'n']
  else if c = '\r' then ['\\', 'r']
  else if c = '\t' then ['\\', 't']
  else if c.toNat < 0x20 || c = '<' || c = '>' || c = '&' || c.toNat = 0x2028 ||
      c.toNat = 0x2029 then
    ['\\', 'u', hexDigit (c.toNat / 4096 % 16), hexDigit (c.toNat / 256 % 16),
      hexDigit (c.toNat / 16 % 16), hexDigit (c.toNat % 16)]
  else [c]

/-- A string as a JSON string literal. -/
def encodeString (s : String) : List Char :=
  '"' :: ((s.toList.map encodeChar).flatten ++ ['"'])

/-- A list of strings as a JSON array. -/
def encodeStrings (l : List String) : List Char :=
  '[' :: (((l.map encodeString).intersperse [',']).flatten ++ [']'])

/-- Year, month and day of the given day number (days since 1970-01-01), proleptic
Gregorian calendar. -/
def civilFromDays (z0 : Int) : Int × Int × Int :=
  let z := z0 + 719468
  let era := z / 146097
  let doe := z - era * 146097
  let yoe := (doe - doe / 1460 + doe / 36524 - doe / 146096) / 365
  let doy := doe - (365 * yoe + yoe / 4 - yoe / 100)
  let mp := (5 * doy + 2) / 153
  let d := doy - (153 * mp + 2) / 5 + 1
  let m := if mp < 10 then mp + 3 else mp - 9
  (if m ≤ 2 then yoe + era * 400 + 1 else yoe + era * 400, m, d)

/-- Day number of a calendar date. -/
def daysFromCivil (y m d : Int) : Int :=
  let y' := if m ≤ 2 then y - 1 else y
  let era := y' / 400
  let yoe := y' - era * 400
  let doy := (153 * (if m > 2 then m - 3 else m + 9) + 2) / 5 + d - 1
  let doe := yoe * 365 + yoe / 4 - yoe / 100 + doy
  era * 146097 + doe - 719468

/-- Two decimal digits. -/
def twoDigits (n : Nat) : List Char := [Char.ofNat (48 + n / 10 % 10), Char.ofNat (48 + n % 10)]

/-- Four decimal digits. -/
def fourDigits (n : Nat) : List Char := twoDigits (n / 100) ++ twoDigits (n % 100)

/-- An instant as the JSON string `time.Time.MarshalJSON` writes for it in UTC; an error
when the year is outside `[0, 9999]`. -/
def encodeTime (t : Time) : Option (List Char) :=
  let secs := (t % 86400).toNat
  let ymd := civilFromDays (t / 86400)
  if ymd.1 < 0 ∨ ymd.1 > 9999 then none
  else
    some ('"' :: (fourDigits ymd.1.toNat ++ '-' :: (twoDigits ymd.2.1.toNat ++ '-' ::
      (twoDigits ymd.2.2.toNat ++ 'T' :: (twoDigits (secs / 3600) ++ ':' ::
      (twoDigits (secs / 60 % 60) ++ ':' :: (twoDigits (secs % 60) ++ ['Z', '"'])))))))

/-- An optional field: nothing when absent, else a comma, the key and the value. -/
def field (key : String) (value : List Char) : List Char :=
  ',' :: (encodeString key ++ ':' :: value)

/-- Model of `json.Marshal` on a `Reminder`. -/
def marshal (r : Reminder) : Option (List Char) :=
  match r.Due.mapM encodeTime, r.CompletedAt.mapM encodeTime, encodeTime r.CreatedAt,
      encodeTime r.UpdatedAt with
  | some due, some completedAt, some createdAt, some updatedAt =>
    some ('\x7b' :: (encodeString "id" ++ ':' :: (encodeString r.ID ++
      (field "title" (encodeString r.Title) ++
      ((match due with
        | some t => field "due" t
        | none => []) ++
      ((if r.Notes = "" then [] else field "notes" (encodeString r.Notes)) ++
      ((if r.Links = [] then [] else field "links" (encodeStrings r.Links)) ++
      ((if r.Tags = [] then [] else field "tags" (encodeStrings r.Tags)) ++
      ((if r.Priority = 0 then [] else field "priority" (toString r.Priority).toList) ++
      (field "completed" (toString r.Completed).toList ++
      ((match completedAt with
        | some t => field "completed_at" t
        | none => []) ++
      (field "created_at" createdAt ++ (field "updated_at" updatedAt ++ ['\x7d'])))))))))))))
  | _, _, _, _ => none

/-- The value of a hexadecimal digit. -/
def hexValue (c : Char) : Option Nat :=
  if '0' ≤ c ∧ c ≤ '9' then some (c.toNat - 48)
  else if 'a' ≤ c ∧ c ≤ 'f' then some (c.toNat - 87)
  else if 'A' ≤ c ∧ c ≤ 'F' then some (c.toNat - 55)
  else none

/-- The rest of a string literal after its opening quote: the decoded characters and the
text after the closing quote. -/
def parseStringBody : List Char → Option (List Char × List Char)
  | [] => none
  | '"' :: rest => some ([], rest)
  | '\\' :: 'u' :: a :: b :: c :: d :: rest =>
    match hexValue a, hexValue b, hexValue c, hexValue d, parseStringBody rest with
    | some a, some b, some c, some d, some (s, rest') =>
      let n := a * 4096 + b * 256 + c * 16 + d
      if 0xD800 ≤ n ∧ n ≤ 0xDFFF then none else some (Char.ofNat n :: s, rest')
    | _, _, _, _, _ => none
  | '\\' :: e :: rest =>
    match (if e = '"' then some '"' else if e = '\\' then some '\\'
        else if e = '/' then some '/' else if e = 'n' then some '\n'
        else if e = 'r' then some '\r' else if e = 't' then some '\t'
        else if e = 'b' then some (Char.ofNat 8) else if e = 'f' then some (Char.ofNat 12)
        else none), parseStringBody rest with
    | some ch, some (s, rest') => some (ch :: s, rest')
    | _, _ => none
  | c :: rest =>
    if c.toNat < 0x20 ∨ c = '\\' then none
    else
      match parseStringBody rest with
      | some (s, rest') => some (c :: s, rest')
      | none => none

/-- A string literal at the head of the text. -/
def parseString : List Char → Option (String × List Char)
  | '"' :: rest => (parseStringBody rest).map fun p => (String.mk p.1, p.2)
  | _ => none

/-- The number written by decimal digits, `none` when a character is not a digit. -/
def digitsValue (l : List Char) : Option Nat :=
  l.foldl (fun acc c =>
    match acc with
    | some n => if '0' ≤ c ∧ c ≤ '9' then some (n * 10 + (c.toNat - 48)) else none
    | none => none) (some 0)

/-- Number of days of a month. -/
def daysIn (y m : Nat) : Nat :=
  if m = 2 then (if y % 4 = 0 ∧ (y % 100 ≠ 0 ∨ y % 400 = 0) then 29 else 28)
  else if m = 4 ∨ m = 6 ∨ m = 9 ∨ m = 11 then 30 else 31

/-- An RFC 3339 time in UTC at whole seconds, `YYYY-MM-DDTHH:MM:SSZ`. -/
def decodeTime (s : List Char) : Option Time :=
  match s with
  | [y1, y2, y3, y4, '-', m1, m2, '-', d1, d2, 'T', h1, h2, ':', n1, n2, ':', s1, s2, 'Z'] =>
    match digitsValue [y1, y2, y3, y4], digitsValue [m1, m2], digitsValue [d1, d2],
        digitsValue [h1, h2], digitsValue [n1, n2], digitsValue [s1, s2] with
    | some y, some m, some d, some h, some n, some sec =>
      if 1 ≤ m ∧ m ≤ 12 ∧ 1 ≤ d ∧ d ≤ daysIn y m ∧ h < 24 ∧ n < 60 ∧ sec < 60 then
        some (daysFromCivil y m d * 86400 + (h * 3600 + n * 60 + sec : Nat))
      else none
    | _, _, _, _, _, _ => none
  | _ => none

/-- A time value at the head of the text. -/
def parseTime (s : List Char) : Option (Time × List Char) :=
  match parseString s with
  | some (v, rest) => (decodeTime v.toList).map fun t => (t, rest)
  | none => none

/-- An integer at the head of the text: an optional minus sign and decimal digits without a
leading zero. -/
def parseInt (s : List Char) : Option (Int × List Char) :=
  let neg := s.head? = some '-'
  let body := if neg then s.drop 1 else s
  let ds := body.takeWhile fun c => decide ('0' ≤ c ∧ c ≤ '9')
  let rest := body.dropWhile fun c => decide ('0' ≤ c ∧ c ≤ '9')
  if ds = [] ∨ (ds.head? = some '0' ∧ ds.length > 1) then none
  else
    match digitsValue ds with
    | some n => some (if neg then -(n : Int) else (n : Int), rest)
    | none => none

/-- The elements of a string array after its opening bracket; `fuel` bounds their number. -/
def parseStringsTail : Nat → List Char → Option (List String × List Char)
  | 0, _ => none
  | fuel + 1, s =>
    match parseString s with
    | some (v, ',' :: rest) =>
      (parseStringsTail fuel rest).map fun p => (v :: p.1, p.2)
    | some (v, ']' :: rest) => some ([v], rest)
    | _ => none

/-- An array of strings at the head of the text. -/
def parseStrings : List Char → Option (List String × List Char)
  | '[' :: ']' :: rest => some ([], rest)
  | '[' :: rest => parseStringsTail rest.length rest
  | _ => none

/-- One `key:value` member at the head of the text, stored into `acc`. -/
def parseMember (acc : Reminder) (s : List Char) : Option (Reminder × List Char) :=
  match parseString s with
  | some (key, ':' :: rest) =>
    if key = "id" then (parseString rest).map fun p => ({ acc with ID := p.1 }, p.2)
    else if key = "title" then (parseString rest).map fun p => ({ acc with Title := p.1 }, p.2)
    else if key = "due" then (parseTime rest).map fun p => ({ acc with Due := some p.1 }, p.2)
    else if key = "notes" then (parseString rest).map fun p => ({ acc with Notes := p.1 }, p.2)
    else if key = "links" then (parseStrings rest).map fun p => ({ acc with Links := p.1 }, p.2)
    else if key = "tags" then (parseStrings rest).map fun p => ({ acc with Tags := p.1 }, p.2)
    else if key = "priority" then
      (parseInt rest).map fun p => ({ acc with Priority := p.1 }, p.2)
    else if key = "completed" then
      (if "true".toList.isPrefixOf rest then some ({ acc with Completed := true }, rest.drop 4)
      else if "false".toList.isPrefixOf rest then
        some ({ acc with Completed := false }, rest.drop 5)
      else none)
    else if key = "completed_at" then
      (parseTime rest).map fun p => ({ acc with CompletedAt := some p.1 }, p.2)
    else if key = "created_at" then
      (parseTime rest).map fun p => ({ acc with CreatedAt := p.1 }, p.2)
    else if key = "updated_at" then
      (parseTime rest).map fun p => ({ acc with UpdatedAt := p.1 }, p.2)
    else none
  | _ => none

/-- The members of an object after its opening brace, up to the closing brace that must end
the text; `fuel` bounds their number. -/
def parseMembers : Nat → Reminder → List Char → Option Reminder
  | 0, _, _ => none
  | fuel + 1, acc, s =>
    match parseMember acc s with
    | some (acc', ',' :: rest) => parseMembers fuel acc' rest
    | some (acc', ['\x7d']) => some acc'
    | _ => none

/-- Model of `json.Unmarshal` into a zero `Reminder`. -/
def unmarshal (line : List Char) : Option Reminder :=
  match line with
  | ['n', 'u', 'l', 'l'] => some Reminder.zero
  | ['\x7b', '\x7d'] => some Reminder.zero
  | '\x7b' :: rest => parseMembers rest.length Reminder.zero rest
  | _ => none

end GoJSON

/-- The concrete library: the JSON model above, and `strings.EqualFold` / `strings.ToLower`
on ASCII letters. -/
def goLib : Lib where
  marshal := GoJSON.marshal
  unmarshal := GoJSON.unmarshal
  equalFold a b := a.toList.map Char.toLower == b.toList.map Char.toLower
  toLower s := String.mk (s.toList.map Char.toLower)

/-! ## Specification vocabulary

The definitions below are not translations of source functions: they name the notions the
properties of the store are stated with. -/

deriving instance DecidableEq for Except

/-- The record a token of the scanner yields in `readAll`, if any: the token is trimmed,
an empty line and a line that `json.Unmarshal` rejects yield none. -/
def decodeLine (lib : Lib) (text : List Char) : Option Reminder :=
  if TrimSpace text = [] then none else lib.unmarshal (TrimSpace text)

/-- The records of the well-formed lines among the tokens, in file order. -/
def decoded (lib : Lib) (tokens : List (List Char)) : List Reminder :=
  tokens.filterMap (decodeLine lib)

/-- The last record of the list that carries the given id. -/
def lastWithID (id : String) : List Reminder → Option Reminder
  | [] => none
  | r :: rs =>
    match lastWithID id rs with
    | some x => some x
    | none => if r.ID = id then some r else none

/-- The value stored under a key of the working map. -/
def SeenMap.find : SeenMap → String → Option Reminder
  | [], _ => none
  | (k', v') :: rest, k => if k' = k then some v' else SeenMap.find rest k

/-- The working map after the records have been stored into it one after the other. -/
def reconcile (rs : List Reminder) : SeenMap :=
  rs.foldl (fun seen r => seen.set r.ID r) []

/-- The live set of a disk, in order of first appearance of each id: the values of the
working map after a scan of the whole log; empty when the log does not exist. -/
def liveSet (lib : Lib) (d : Disk) : List Reminder :=
  match d.file with
  | none => []
  | some data => (reconcile (decoded lib (scan data).1)).map Prod.snd

/-- A record survives one line of the log: `json.Marshal` succeeds on it, the text has no
line feed and fits a scanner token, and the line decodes back to the same record. -/
def storable (lib : Lib) (r : Reminder) : Bool :=
  match lib.marshal r with
  | none => false
  | some data =>
    !data.contains '\n' && decide (byteLen data < MaxScanTokenSize) &&
      decide (decodeLine lib (dropCR data) = some r)

/-- The log is empty or its last line is terminated. -/
def terminated (data : List Char) : Bool :=
  data.isEmpty || data.getLast? == some '\n'

/-! ## Sample data -/

/-- A reminder as `NewReminder("Pay rent")` followed by `SetDue` and `SetPriority(3)` makes it. -/
def payRent : Reminder :=
  { Reminder.zero with
    ID := "1700000000000-0a1b2c3d", Title := "Pay rent", Due := some 1705276800,
    Priority := 3, CreatedAt := 1700000000, UpdatedAt := 1700000000 }

/-- A second reminder, tagged `work`. -/
def callBank : Reminder :=
  { Reminder.zero with
    ID := "1700000000001-00ff00ff", Title := "Call bank", Tags := ["work"],
    CreatedAt := 1700000001, UpdatedAt := 1700000001 }

/-- A later version of `payRent`: same id, other title and notes. -/
def payRentV2 : Reminder :=
  { payRent with Title := "Pay rent now", Notes := "overdue", UpdatedAt := 1700000500 }

/-- A disk on which the log does not exist. -/
def noDisk : Disk := { file := none, tmp := none }

/-- A log that ends in the first bytes of a line whose write was cut short. -/
def tornLog : List Char := "\x7b\"id\":\"1699999999999-aaaaaaaa\",\"title\":\"Wat".toList

/-- The working map is well formed: its keys are distinct and each value is stored under
its own id. -/
def SeenMap.WF (m : SeenMap) : Prop :=
  (m.map Prod.fst).Nodup ∧ ∀ p ∈ m, p.2.ID = p.1

/-- The line `writeAll` and `appendReminder` write for a record that `json.Marshal` accepts. -/
def lineOf (lib : Lib) (r : Reminder) : List Char :=
  (lib.marshal r).getD [] ++ ['\n']

/-- The content of a compacted log: one line per record, in order. -/
def compacted (lib : Lib) (rs : List Reminder) : List Char :=
  (rs.map (lineOf lib)).flatten

/-- The scanner reports no error on the log (`scanner.Err()` is nil after the loop of
`readAll`); a log that does not exist counts as readable. -/
def readable (d : Disk) : Bool :=
  match d.file with
  | none => true
  | some data => !(scan data).2

/-- The library encodes the record faithfully: `json.Marshal` succeeds on it, the text has
no line feed, and the line decodes back to the same record. -/
def faithful (lib : Lib) (r : Reminder) : Bool :=
  match lib.marshal r with
  | none => false
  | some data => !data.contains '\n' && decide (decodeLine lib (dropCR data) = some r)

/-- The records of the well-formed lines of the log, in file order, as far as the scanner
delivers them. -/
def decodedLog (lib : Lib) (d : Disk) : List Reminder :=
  match d.file with
  | none => []
  | some data => decoded lib (scan data).1

/-- A log with a superseded version, a malformed line and a blank line. -/
def replayedLog : List Char :=
  lineOf goLib payRent ++ ("not a record\n".toList ++
    (lineOf goLib callBank ++ ("\n".toList ++ lineOf goLib payRentV2)))

/-- A line of `MaxScanTokenSize` bytes. -/
def longLine : List Char := List.replicate MaxScanTokenSize 'x'

/-- A log in which a line of `MaxScanTokenSize` bytes stands between two well-formed lines. -/
def blockedLog : List Char :=
  lineOf goLib payRent ++ (longLine ++ '\n' :: lineOf goLib callBank)

/-- A later version of `callBank`: same id, completed, with a link, other tags. -/
def callBankV2 : Reminder :=
  { callBank with
    Title := "Call the bank", Tags := ["home"], Links := ["https://bank.example/help"],
    Completed := true, CompletedAt := some 1700000900, UpdatedAt := 1700000900 }

/-- The reminder `callBank` after the entity's `Complete` at instant `1700001000`. -/
def callBankDone : Reminder := callBank.Complete 1700001000

/-- The filter `{Tags: ["WORK", "home"]}`: completed reminders excluded, no other constraint. -/
def workOrHome : ListFilter :=
  { IncludeCompleted := false, Tags := ["WORK", "home"], DueBefore := none, DueAfter := none,
    Search := "" }

/-! ## Filters with one constraint -/

/-- The filter whose only constraint is the completed flag. -/
def completedOnly (includeCompleted : Bool) : ListFilter :=
  { IncludeCompleted := includeCompleted, Tags := [], DueBefore := none, DueAfter := none,
    Search := "" }

/-- The filter whose only constraint is the tag list (completed reminders included). -/
def tagsOnly (tags : List String) : ListFilter :=
  { IncludeCompleted := true, Tags := tags, DueBefore := none, DueAfter := none, Search := "" }

/-- The filter whose only constraint is `DueBefore` (completed reminders included). -/
def dueBeforeOnly (before : Option Time) : ListFilter :=
  { IncludeCompleted := true, Tags := [], DueBefore := before, DueAfter := none, Search := "" }

/-- The filter whose only constraint is `DueAfter` (completed reminders included). -/
def dueAfterOnly (after : Option Time) : ListFilter :=
  { IncludeCompleted := true, Tags := [], DueBefore := none, DueAfter := after, Search := "" }

/-- The filter whose only constraint is the search text (completed reminders included). -/
def searchOnly (search : String) : ListFilter :=
  { IncludeCompleted := true, Tags := [], DueBefore := none, DueAfter := none, Search := search }

/-! ## The identifier generator (`internal/protocol/id.go`)

`time.Now().UnixMilli()` and the four bytes filled by `rand.Read` are parameters. -/

/-- The decimal digit `n < 10` as a character. -/
def digitChar (n : Nat) : Char := Char.ofNat (48 + n)

/-- Decimal digits of `n`, most significant first; `fuel` bounds their number. -/
def decimalFuel : Nat → Nat → List Char
  | 0, _ => []
  | fuel + 1, n =>
    if n < 10 then [digitChar n] else decimalFuel fuel (n / 10) ++ [digitChar (n % 10)]

/-- Decimal digits of a natural number, most significant first, without leading zero. -/
def decimal (n : Nat) : List Char := decimalFuel (n + 1) n

/-- The verb `%d` of `fmt.Sprintf` on an integer. -/
def formatInt (m : Int) : List Char :=
  if m < 0 then '-' :: decimal m.natAbs else decimal m.toNat

/-- The digit of `n < 16` in the table `"0123456789abcdef"` of `encoding/hex`. -/
def hexChar (n : Nat) : Char := "0123456789abcdef".toList.getD n '0'

/-- The two characters `hex.EncodeToString` writes for one byte. -/
def hexByte (b : Fin 256) : List Char := [hexChar (b.val / 16), hexChar (b.val % 16)]

/-- Model of `hex.EncodeToString`. -/
def EncodeToString (src : List (Fin 256)) : List Char := (src.map hexByte).flatten

/-- The slice `randomBytes` of `generateID` after `rand.Read`: four bytes. -/
structure RandomBytes where
  b0 : Fin 256
  b1 : Fin 256
  b2 : Fin 256
  b3 : Fin 256
deriving DecidableEq, Repr

/-- The four bytes in order. -/
def RandomBytes.toList (b : RandomBytes) : List (Fin 256) := [b.b0, b.b1, b.b2, b.b3]

/-- The function `generateID`: `fmt.Sprintf("%d-%s", timestamp, hex.EncodeToString(randomBytes))`. -/
def generateID (timestamp : Int) (randomBytes : RandomBytes) : String :=
  String.mk (formatInt timestamp ++ '-' :: EncodeToString randomBytes.toList)

/-- Model of `strings.Split` with a separator of one character. -/
def Split (sep : Char) : List Char → List (List Char)
  | [] => [[]]
  | c :: cs =>
    if c = sep then [] :: Split sep cs
    else
      match Split sep cs with
      | [] => [[c]]
      | p :: ps => (c :: p) :: ps

/-- The number written by a text of decimal digits. -/
def decimalValue (l : List Char) : Nat :=
  l.foldl (fun acc c => 10 * acc + (c.toNat - 48)) 0

/-! ## The constructor and the mutators (`internal/protocol/reminder.go`)

Each takes the reading `now` of its call of `time.Now()`. -/

/-- NewReminder creates a new reminder with the given title; `timestamp` and `randomBytes`
are the clock reading and the random bytes of its call of `generateID`. -/
def NewReminder (title : String) (now : Time) (timestamp : Int) (randomBytes : RandomBytes) :
    Reminder :=
  { ID := generateID timestamp randomBytes, Title := title, Due := none, Notes := "",
    Links := [], Tags := [], Priority := 0, Completed := false, CompletedAt := none,
    CreatedAt := now, UpdatedAt := now }

/-- AddLink adds a link to the reminder. -/
def Reminder.AddLink (r : Reminder) (link : String) (now : Time) : Reminder :=
  { r with Links := r.Links ++ [link], UpdatedAt := now }

/-- AddTag adds a tag to the reminder. -/
def Reminder.AddTag (r : Reminder) (tag : String) (now : Time) : Reminder :=
  { r with Tags := r.Tags ++ [tag], UpdatedAt := now }

/-- SetDue sets the due date for the reminder. -/
def Reminder.SetDue (r : Reminder) (due : Time) (now : Time) : Reminder :=
  { r with Due := some due, UpdatedAt := now }

/-- SetNotes sets the notes for the reminder. -/
def Reminder.SetNotes (r : Reminder) (notes : String) (now : Time) : Reminder :=
  { r with Notes := notes, UpdatedAt := now }

/-- SetPriority sets the priority for the reminder. -/
def Reminder.SetPriority (r : Reminder) (priority : Int) (now : Time) : Reminder :=
  { r with Priority := priority, UpdatedAt := now }

/-- A call of one of the entity's mutators, with its argument. -/
inductive Mutation where
  | Complete
  | AddLink (link : String)
  | AddTag (tag : String)
  | SetDue (due : Time)
  | SetNotes (notes : String)
  | SetPriority (priority : Int)
deriving DecidableEq, Repr

/-- The reminder after the call, made at clock reading `now`. -/
def Mutation.apply (m : Mutation) (now : Time) (r : Reminder) : Reminder :=
  match m with
  | .Complete => r.Complete now
  | .AddLink link => r.AddLink link now
  | .AddTag tag => r.AddTag tag now
  | .SetDue due => r.SetDue due now
  | .SetNotes notes => r.SetNotes notes now
  | .SetPriority priority => r.SetPriority priority now

/-- The reminder after a sequence of calls, each with its clock reading. -/
def runMutations (r : Reminder) (calls : List (Mutation × Time)) : Reminder :=
  calls.foldl (fun acc c => c.1.apply c.2 acc) r

/-- The four zero bytes. -/
def zeroBytes : RandomBytes := { b0 := 0, b1 := 0, b2 := 0, b3 := 0 }

/-- The random bytes `0a 1b 2c 3d`. -/
def sampleBytes : RandomBytes := { b0 := 0x0a, b1 := 0x1b, b2 := 0x2c, b3 := 0x3d }

/-- The order of Go on strings, on their characters: lexicographic by code point (which is
the order of the UTF-8 bytes). -/
def lexLess : List Char → List Char → Bool
  | [], [] => false
  | [], _ :: _ => true
  | _ :: _, [] => false
  | a :: as, b :: bs =>
    if a.toNat < b.toNat then true else if b.toNat < a.toNat then false else lexLess as bs

/-- A log of one line, the empty JSON object. -/
def emptyObjectLog : List Char := "\x7b\x7d\n".toList

/-- A reminder made by the constructor and then changed by four mutators, at clock readings
that do not decrease. -/
def busyReminder : Reminder :=
  runMutations (NewReminder "Water plants" 1700000000 1700000000000 sampleBytes)
    [(.AddTag "home", 1700000005), (.SetDue 1700086400, 1700000005),
      (.Complete, 1700000060), (.SetNotes "done early", 1700000090)]

/-! ## The filter of `rc list` (`cmd/rc/cmd/list.go`) -/

/-- The flags of `rc list` that `runList` reads when it builds the filter. -/
structure ListFlags where
  listToday : Bool
  listTomorrow : Bool
  listWeek : Bool
  listTags : List String
  listAll : Bool
  listCompleted : Bool
deriving DecidableEq, Repr

/-- The filter `runList` passes to `List`. `today` is the local midnight that `time.Date`
computes from `time.Now()`, and `addDate t n` stands for `t.AddDate(0, 0, n)`. -/
def runListFilter (flags : ListFlags) (today : Time) (addDate : Time → Int → Time) :
    ListFilter :=
  let filter : ListFilter :=
    { IncludeCompleted := flags.listAll || flags.listCompleted, Tags := flags.listTags,
      DueBefore := none, DueAfter := none, Search := "" }
  let endOfDay := addDate today 1
  if flags.listToday then { filter with DueAfter := some today, DueBefore := some endOfDay }
  else if flags.listTomorrow then
    { filter with
      DueAfter := some (addDate today 1), DueBefore := some (addDate (addDate today 1) 1) }
  else if flags.listWeek then
    { filter with DueAfter := some today, DueBefore := some (addDate today 7) }
  else filter

/-- `AddDate(0, 0, n)` on instants in UTC, in seconds: whole days of 86400 seconds. -/
def utcAddDate (t : Time) (days : Int) : Time := t + 86400 * days

/-- The flags of `rc list --today`. -/
def todayFlags : ListFlags :=
  { listToday := true, listTomorrow := false, listWeek := false, listTags := [],
    listAll := false, listCompleted := false }

/-- A reminder due at `2024-01-16T00:00:00Z`, the midnight that ends January 15. -/
def dueNextMidnight : Reminder :=
  { Reminder.zero with
    ID := "1700000000003-0badcafe", Title := "Renew pass", Due := some 1705363200,
    CreatedAt := 1700000003, UpdatedAt := 1700000003 }

/-! ## The filter of the Todoist store (`internal/adapters/todoist/store.go`) -/

/-- The method `matchesFilter` of the Todoist store; `none` is the nil filter. The loop over
the filter tags has no `break` of its own: `hasTag` is carried through all of them. -/
def Todoist.matchesFilter (lib : Lib) (r : Reminder) (filter : Option ListFilter) : Bool :=
  match filter with
  | none => true
  | some filter =>
    if !filter.IncludeCompleted && r.Completed then false
    else if decide (filter.Tags.length > 0) &&
        !(filter.Tags.foldl (fun hasTag ft =>
            if r.Tags.any (fun rt => lib.equalFold ft rt) then true else hasTag) false) then
      false
    else if decide (filter.Search ≠ "") &&
        (!Contains (lib.toLower r.Title) (lib.toLower filter.Search) &&
          !Contains (lib.toLower r.Notes) (lib.toLower filter.Search)) then false
    else true

/-! ## Records with long notes

Sample records whose line is close to or beyond the size of a scanner token. -/

/-- The reminder `callBank` carrying the given text as notes. -/
def noted (notes : List Char) : Reminder := { callBank with Notes := String.mk notes }

/-- The text of the line of `noted notes` up to the notes. -/
def notedHead : List Char :=
  "\x7b\"id\":\"1700000000001-00ff00ff\",\"title\":\"Call bank\",\"notes\":\"".toList

/-- The text of the line of `noted notes` after the notes. -/
def notedTail : List Char :=
  "\",\"tags\":[\"work\"],\"completed\":false,\"created_at\":\"2023-11-14T22:13:21Z\",\"updated_at\":\"2023-11-14T22:13:21Z\"\x7d".toList

/-- A line that holds `noted notes` with the notes written as they are. -/
def notedLine (notes : List Char) : List Char := notedHead ++ (notes ++ notedTail)

/-- The text of the line of `noted notes` after the notes, once completed at `1700001000`. -/
def notedDoneTail : List Char :=
  "\",\"tags\":[\"work\"],\"completed\":true,\"completed_at\":\"2023-11-14T22:30:00Z\",\"created_at\":\"2023-11-14T22:13:21Z\",\"updated_at\":\"2023-11-14T22:30:00Z\"\x7d".toList

/-- The text `GoJSON.marshal` writes before the notes of a record that has notes; `due` is
the encoded due date. -/
def beforeNotes (r : Reminder) (due : Option (List Char)) : List Char :=
  '\x7b' :: (GoJSON.encodeString "id" ++ ':' :: (GoJSON.encodeString r.ID ++
    (GoJSON.field "title" (GoJSON.encodeString r.Title) ++
    ((match due with
      | some t => GoJSON.field "due" t
      | none => []) ++ ",\"notes\":\"".toList))))

/-- The text `GoJSON.marshal` writes after the notes of a record that has notes, given the
encoded times. -/
def afterNotes (r : Reminder) (completedAt : Option (List Char)) (createdAt updatedAt : List Char) :
    List Char :=
  '"' :: ((if r.Links = [] then [] else GoJSON.field "links" (GoJSON.encodeStrings r.Links)) ++
    ((if r.Tags = [] then [] else GoJSON.field "tags" (GoJSON.encodeStrings r.Tags)) ++
    ((if r.Priority = 0 then [] else GoJSON.field "priority" (toString r.Priority).toList) ++
    (GoJSON.field "completed" (toString r.Completed).toList ++
    ((match completedAt with
      | some t => GoJSON.field "completed_at" t
      | none => []) ++
    (GoJSON.field "created_at" createdAt ++ (GoJSON.field "updated_at" updatedAt ++ ['\x7d'])))))))

/-- A line that holds `noted notes` completed at `1700001000`, the notes written as they are. -/
def notedDoneLine (notes : List Char) : List Char := notedHead ++ (notes ++ notedDoneTail)

/-- A reminder with the id of `callBank` whose notes are `MaxScanTokenSize` letters. -/
def longNoted : Reminder := noted (List.replicate MaxScanTokenSize 'x')

/-- A number of characters `<` whose escaped form exceeds `MaxScanTokenSize` bytes. -/
def angleCount : Nat := 11000

/-- A reminder with the id of `callBank` whose notes are 11000 characters `<`. -/
def angleNoted : Reminder := noted (List.replicate angleCount '<')

/-- A log of two lines: `angleNoted` with its notes written as they are, the way a program that
does not escape `<` writes them, and `payRent`. -/
def angleLog : List Char := notedLine (List.replicate angleCount '<') ++ '\n' :: lineOf goLib payRent

/-- A number of letters with which the line of `noted` is 8 bytes short of `MaxScanTokenSize`. -/
def nearCount : Nat := 65360

/-- A reminder with the id of `callBank` whose line is 65528 bytes long. -/
def nearNoted : Reminder := noted (List.replicate nearCount 'x')

/-! ## Vocabulary for the compacting rewrite -/

/-- The disk holds no temporary file and its log is the compaction of `rs`: the text is
exactly its lines, each followed by one line feed; there are as many lines as records in
`rs`; the i-th line parses as the i-th record of `rs`; no two records of `rs` carry the same
id; and reconciling the records of the lines gives `rs` back. -/
def isCompactionOf (lib : Lib) (rs : List Reminder) (d : Disk) : Prop :=
  ∃ content, d.file = some content ∧ d.tmp = none ∧
    content = ((rawLines content).map fun l => l ++ ['\n']).flatten ∧
    (rawLines content).length = rs.length ∧
    (rawLines content).map (fun l => decodeLine lib (dropCR l)) = rs.map some ∧
    (rs.map Reminder.ID).Nodup ∧
    (reconcile (decoded lib ((rawLines content).map dropCR))).map Prod.snd = rs

/-! # Theorems -/

set_option maxRecDepth 100000

/-! ## Lines and the scanner -/

theorem rawLines_ne_nil (l : List Char) (h : l ≠ []) : rawLines l ≠ [] := by
  cases l with
  | nil => exact absurd rfl h
  | cons c cs =>
    by_cases hc : c = '\n'
    · simp [rawLines, hc]
    · cases hr : rawLines cs <;> simp [rawLines, hc, hr]

theorem rawLines_line (a rest : List Char) (h : '\n' ∉ a) :
    rawLines (a ++ '\n' :: rest) = a :: rawLines rest := by
  induction a with
  | nil => simp [rawLines]
  | cons c a ih =>
    have hc : c ≠ '\n' := fun e => h (by simp [e])
    have ha : '\n' ∉ a := fun e => h (by simp [e])
    simp [rawLines, hc, ih ha]

theorem rawLines_append_terminated (p q : List Char) :
    rawLines (p ++ '\n' :: q) = rawLines (p ++ ['\n']) ++ rawLines q := by
  induction p with
  | nil => simp [rawLines]
  | cons c p ih =>
    by_cases hc : c = '\n'
    · simp [rawLines, hc, ih]
    · have hne : rawLines (p ++ ['\n']) ≠ [] := rawLines_ne_nil _ (by simp)
      cases hr : rawLines (p ++ ['\n']) with
      | nil => exact absurd hr hne
      | cons l ls => simp [rawLines, hc, ih, hr]

theorem terminated_cases (p : List Char) (h : terminated p = true) :
    p = [] ∨ ∃ p', p = p' ++ ['\n'] := by
  rcases List.eq_nil_or_concat p with hp | ⟨p', c, hp⟩
  · exact Or.inl hp
  · right
    subst hp
    simp [terminated] at h
    exact ⟨p', by simp [h]⟩

theorem rawLines_append (p q : List Char) (h : terminated p = true) :
    rawLines (p ++ q) = rawLines p ++ rawLines q := by
  rcases terminated_cases p h with hp | ⟨p', hp⟩
  · simp [hp, rawLines]
  · subst hp
    cases q with
    | nil => simp [rawLines]
    | cons c q =>
      rw [List.append_assoc, List.singleton_append]
      rw [rawLines_append_terminated p' (c :: q)]

theorem rawLines_lines (ds : List (List Char)) (h : ∀ d ∈ ds, '\n' ∉ d) :
    rawLines ((ds.map fun d => d ++ ['\n']).flatten) = ds := by
  induction ds with
  | nil => simp [rawLines]
  | cons d ds ih =>
    have hd : '\n' ∉ d := h d (by simp)
    have hds : ∀ x ∈ ds, '\n' ∉ x := fun x hx => h x (by simp [hx])
    simp only [List.map_cons, List.flatten_cons, List.append_assoc, List.singleton_append]
    rw [rawLines_line d _ hd, ih hds]

theorem scanTokens_append (xs ys : List (List Char)) (h : (scanTokens xs).2 = false) :
    scanTokens (xs ++ ys) = ((scanTokens xs).1 ++ (scanTokens ys).1, (scanTokens ys).2) := by
  induction xs with
  | nil => simp [scanTokens]
  | cons x xs ih =>
    by_cases hx : MaxScanTokenSize ≤ byteLen x
    · simp [scanTokens, hx] at h
    · simp only [scanTokens, if_neg hx] at h
      simp [scanTokens, hx, ih h]

theorem scanTokens_short (ls : List (List Char)) (h : ∀ l ∈ ls, byteLen l < MaxScanTokenSize) :
    scanTokens ls = (ls.map dropCR, false) := by
  induction ls with
  | nil => simp [scanTokens]
  | cons l ls ih =>
    have hl : ¬ MaxScanTokenSize ≤ byteLen l := Nat.not_le.mpr (h l (by simp))
    have hls : ∀ x ∈ ls, byteLen x < MaxScanTokenSize := fun x hx => h x (by simp [hx])
    simp [scanTokens, hl, ih hls]

theorem scanTokens_long (xs ys : List (List Char)) (l : List Char)
    (h : MaxScanTokenSize ≤ byteLen l) : (scanTokens (xs ++ l :: ys)).2 = true := by
  induction xs with
  | nil => simp [scanTokens, h]
  | cons x xs ih =>
    by_cases hx : MaxScanTokenSize ≤ byteLen x
    · simp [scanTokens, hx]
    · simp [scanTokens, hx, ih]

theorem byteLen_replicate_ascii (n : Nat) (c : Char) (hc : c.utf8Size = 1) :
    byteLen (List.replicate n c) = n := by
  simp [byteLen, hc]

/-! ## The working map and reconciliation -/

theorem SeenMap.find_set (m : SeenMap) (k k' : String) (v : Reminder) :
    (m.set k v).find k' = if k = k' then some v else m.find k' := by
  induction m with
  | nil => simp [SeenMap.set, SeenMap.find]
  | cons p m ih =>
    obtain ⟨a, b⟩ := p
    by_cases h : a = k
    · subst h
      by_cases h' : a = k' <;> simp [SeenMap.set, SeenMap.find, h']
    · by_cases h' : a = k'
      · have hkk : ¬ k = k' := fun e => h (by rw [h', e])
        have hkk' : ¬ k' = k := fun e => hkk e.symm
        subst h'
        simp [SeenMap.set, SeenMap.find, hkk, hkk']
      · simp [SeenMap.set, SeenMap.find, h, h', ih]

theorem SeenMap.mem_set (m : SeenMap) (k : String) (v : Reminder) (p : String × Reminder)
    (h : p ∈ m.set k v) : p = (k, v) ∨ p ∈ m := by
  induction m with
  | nil => simpa [SeenMap.set] using h
  | cons q m ih =>
    obtain ⟨a, b⟩ := q
    by_cases hk : a = k
    · simp only [SeenMap.set, if_pos hk, List.mem_cons] at h
      rcases h with h | h
      · exact Or.inl h
      · exact Or.inr (List.mem_cons_of_mem _ h)
    · simp only [SeenMap.set, if_neg hk, List.mem_cons] at h
      rcases h with h | h
      · exact Or.inr (by simp [h])
      · rcases ih h with h | h
        · exact Or.inl h
        · exact Or.inr (List.mem_cons_of_mem _ h)

theorem SeenMap.keys_set (m : SeenMap) (k : String) (v : Reminder) :
    (m.set k v).map Prod.fst =
      if k ∈ m.map Prod.fst then m.map Prod.fst else m.map Prod.fst ++ [k] := by
  induction m with
  | nil => simp [SeenMap.set]
  | cons q m ih =>
    obtain ⟨a, b⟩ := q
    by_cases hk : a = k
    · simp [SeenMap.set, hk]
    · have hk' : ¬ k = a := fun e => hk e.symm
      by_cases hm : k ∈ m.map Prod.fst
      · simp only [SeenMap.set, if_neg hk, List.map_cons, ih, if_pos hm]
        simp [hk', hm]
      · simp only [SeenMap.set, if_neg hk, List.map_cons, ih, if_neg hm]
        simp [hk', hm]

theorem SeenMap.wf_set (m : SeenMap) (k : String) (v : Reminder) (hm : m.WF) (hv : v.ID = k) :
    (m.set k v).WF := by
  refine ⟨?_, ?_⟩
  · rw [SeenMap.keys_set]
    by_cases hk : k ∈ m.map Prod.fst
    · simpa [hk] using hm.1
    · rw [if_neg hk]
      exact List.Nodup.append hm.1 (List.nodup_singleton k) (by simpa using hk)
  · intro p hp
    rcases SeenMap.mem_set m k v p hp with h | h
    · rw [h]; exact hv
    · exact hm.2 p h

theorem SeenMap.wf_nil : SeenMap.WF [] := by
  simp [SeenMap.WF]

theorem SeenMap.wf_foldl (rs : List Reminder) (m : SeenMap) (hm : m.WF) :
    (rs.foldl (fun seen r => seen.set r.ID r) m).WF := by
  induction rs generalizing m with
  | nil => simpa using hm
  | cons r rs ih => exact ih _ (SeenMap.wf_set m r.ID r hm rfl)

theorem SeenMap.mem_of_find (m : SeenMap) (k : String) (v : Reminder) (h : m.find k = some v) :
    (k, v) ∈ m := by
  induction m with
  | nil => simp [SeenMap.find] at h
  | cons q m ih =>
    obtain ⟨a, b⟩ := q
    by_cases hk : a = k
    · simp only [SeenMap.find, if_pos hk, Option.some.injEq] at h
      simp [hk, h]
    · simp only [SeenMap.find, if_neg hk] at h
      exact List.mem_cons_of_mem _ (ih h)

theorem SeenMap.find_of_mem (m : SeenMap) (k : String) (v : Reminder)
    (hm : (m.map Prod.fst).Nodup) (h : (k, v) ∈ m) : m.find k = some v := by
  induction m with
  | nil => simp at h
  | cons q m ih =>
    obtain ⟨a, b⟩ := q
    simp only [List.map_cons, List.nodup_cons] at hm
    simp only [List.mem_cons, Prod.mk.injEq] at h
    rcases h with ⟨h1, h2⟩ | h
    · simp [SeenMap.find, h1, h2]
    · have hne : ¬ a = k := by
        intro e
        apply hm.1
        rw [e]
        exact List.mem_map_of_mem Prod.fst h
      simp only [SeenMap.find, if_neg hne]
      exact ih hm.2 h

theorem lastWithID_mem (id : String) (rs : List Reminder) (r : Reminder)
    (h : lastWithID id rs = some r) : r ∈ rs ∧ r.ID = id := by
  induction rs with
  | nil => simp [lastWithID] at h
  | cons x rs ih =>
    simp only [lastWithID] at h
    cases hl : lastWithID id rs with
    | some y =>
      rw [hl] at h
      simp only [Option.some.injEq] at h
      subst h
      exact ⟨List.mem_cons_of_mem _ (ih hl).1, (ih hl).2⟩
    | none =>
      rw [hl] at h
      by_cases hx : x.ID = id
      · simp only [if_pos hx, Option.some.injEq] at h
        subst h
        exact ⟨by simp, hx⟩
      · simp [hx] at h

theorem lastWithID_eq_none (id : String) (rs : List Reminder) :
    lastWithID id rs = none ↔ ∀ r ∈ rs, r.ID ≠ id := by
  induction rs with
  | nil => simp [lastWithID]
  | cons x rs ih =>
    cases hl : lastWithID id rs with
    | some y =>
      have := lastWithID_mem id rs y hl
      simp only [lastWithID, hl, List.mem_cons]
      constructor
      · intro h; cases h
      · intro h; exact absurd this.2 (h y (Or.inr this.1))
    | none =>
      have hrs := ih.mp hl
      by_cases hx : x.ID = id
      · simp only [lastWithID, hl, if_pos hx, List.mem_cons]
        constructor
        · intro h; cases h
        · intro h; exact absurd hx (h x (Or.inl rfl))
      · simp only [lastWithID, hl, if_neg hx, List.mem_cons, true_iff]
        intro r hr
        rcases hr with hr | hr
        · rw [hr]; exact hx
        · exact hrs r hr

theorem lastWithID_append_singleton (id : String) (rs : List Reminder) (r : Reminder) :
    lastWithID id (rs ++ [r]) = if r.ID = id then some r else lastWithID id rs := by
  induction rs with
  | nil => simp [lastWithID]
  | cons x rs ih =>
    by_cases hr : r.ID = id
    · simp [lastWithID, ih, hr]
    · simp [lastWithID, ih, hr]

theorem find_foldl (rs : List Reminder) (m : SeenMap) (id : String) :
    (rs.foldl (fun seen r => seen.set r.ID r) m).find id =
      match lastWithID id rs with
      | some x => some x
      | none => m.find id := by
  induction rs generalizing m with
  | nil => simp [lastWithID]
  | cons r rs ih =>
    simp only [List.foldl_cons, ih, lastWithID]
    cases hl : lastWithID id rs with
    | some y => simp
    | none =>
      by_cases hr : r.ID = id <;> simp [SeenMap.find_set, hr]

theorem find_reconcile (rs : List Reminder) (id : String) :
    (reconcile rs).find id = lastWithID id rs := by
  unfold reconcile
  rw [find_foldl]
  cases lastWithID id rs <;> simp [SeenMap.find]

theorem reconcile_wf (rs : List Reminder) : (reconcile rs).WF :=
  SeenMap.wf_foldl rs [] SeenMap.wf_nil

theorem mem_reconcile_iff (rs : List Reminder) (v : Reminder) :
    v ∈ (reconcile rs).map Prod.snd ↔ lastWithID v.ID rs = some v := by
  have hwf := reconcile_wf rs
  constructor
  · intro h
    obtain ⟨p, hp, hv⟩ := List.mem_map.mp h
    obtain ⟨k, w⟩ := p
    simp only at hv
    subst hv
    have hk : w.ID = k := hwf.2 (k, w) hp
    rw [← find_reconcile, hk]
    exact SeenMap.find_of_mem _ k w hwf.1 hp
  · intro h
    rw [← find_reconcile] at h
    exact List.mem_map.mpr ⟨(v.ID, v), SeenMap.mem_of_find _ _ _ h, rfl⟩

theorem ids_reconcile (rs : List Reminder) :
    ((reconcile rs).map Prod.snd).map Reminder.ID = (reconcile rs).map Prod.fst := by
  have hwf := reconcile_wf rs
  rw [List.map_map]
  apply List.map_congr_left
  intro p hp
  exact hwf.2 p hp

theorem nodup_ids_reconcile (rs : List Reminder) :
    (((reconcile rs).map Prod.snd).map Reminder.ID).Nodup := by
  rw [ids_reconcile]
  exact (reconcile_wf rs).1

theorem foldl_set_fresh (rs : List Reminder) (m : SeenMap)
    (h : (m.map Prod.fst ++ rs.map Reminder.ID).Nodup) :
    rs.foldl (fun seen r => seen.set r.ID r) m = m ++ rs.map fun r => (r.ID, r) := by
  induction rs generalizing m with
  | nil => simp
  | cons r rs ih =>
    have hfresh : r.ID ∉ m.map Prod.fst := by
      intro hmem
      have := List.nodup_append.mp h
      exact this.2.2 hmem (by simp)
    have hset : m.set r.ID r = m ++ [(r.ID, r)] := by
      clear h ih
      induction m with
      | nil => simp [SeenMap.set]
      | cons q m ihm =>
        obtain ⟨a, b⟩ := q
        simp only [List.map_cons, List.mem_cons, not_or] at hfresh
        have hne : ¬ a = r.ID := fun e => hfresh.1 e.symm
        simp [SeenMap.set, hne, ihm hfresh.2]
    simp only [List.foldl_cons, hset]
    rw [ih]
    · simp
    · simpa using h

theorem reconcile_nodup (rs : List Reminder) (h : (rs.map Reminder.ID).Nodup) :
    (reconcile rs).map Prod.snd = rs := by
  unfold reconcile
  rw [foldl_set_fresh rs [] (by simpa using h)]
  simp [Function.comp_def]

/-! ## `readAll` -/

theorem foldl_readStep (lib : Lib) (toks : List (List Char)) (m : SeenMap) :
    toks.foldl (readStep lib) m =
      (decoded lib toks).foldl (fun seen r => seen.set r.ID r) m := by
  induction toks generalizing m with
  | nil => simp [decoded]
  | cons t toks ih =>
    simp only [List.foldl_cons, ih, decoded]
    by_cases ht : TrimSpace t = []
    · simp [readStep, decodeLine, ht]
    · cases hu : lib.unmarshal (TrimSpace t) <;>
        simp [readStep, decodeLine, ht, hu]

theorem MapOrder.range_nil (ord : MapOrder) : ord.range [] = [] :=
  List.Perm.eq_nil (ord.perm [])

theorem readAll_missing (lib : Lib) (ord : MapOrder) (fault : Fault) (d : Disk)
    (h : d.file = none) : readAll lib ord fault d = .ok [] := by
  simp [readAll, h]

theorem readAll_present (lib : Lib) (ord : MapOrder) (fault : Fault) (d : Disk)
    (data : List Char) (h : d.file = some data) (hs : (scan data).2 = false)
    (ho : fault ≠ .openFails) (hr : fault ≠ .readFails) :
    readAll lib ord fault d = .ok (ord.range (liveSet lib d)) := by
  simp [readAll, liveSet, h, hs, ho, hr, foldl_readStep, reconcile]

theorem readAll_ok (lib : Lib) (ord : MapOrder) (fault : Fault) (d : Disk)
    (live : List Reminder) (h : readAll lib ord fault d = .ok live) :
    live = ord.range (liveSet lib d) := by
  cases hf : d.file with
  | none =>
    rw [readAll_missing lib ord fault d hf] at h
    simp only [Except.ok.injEq] at h
    simp [liveSet, hf, MapOrder.range_nil, ← h]
  | some data =>
    by_cases ho : fault = .openFails
    · simp [readAll, hf, ho] at h
    · by_cases hs : ((scan data).2 || decide (fault = .readFails)) = true
      · simp only [readAll, hf, if_neg ho, hs] at h
        simp at h
      · simp only [Bool.or_eq_true, decide_eq_true_eq, not_or, Bool.not_eq_true] at hs
        rw [readAll_present lib ord fault d data hf hs.1 ho hs.2] at h
        simp only [Except.ok.injEq] at h
        exact h.symm

theorem readAll_ok_scan (lib : Lib) (ord : MapOrder) (fault : Fault) (d : Disk)
    (live : List Reminder) (data : List Char) (h : readAll lib ord fault d = .ok live)
    (hf : d.file = some data) : (scan data).2 = false := by
  by_cases ho : fault = .openFails
  · simp [readAll, hf, ho] at h
  · cases hs : (scan data).2 with
    | false => rfl
    | true => simp [readAll, hf, ho, hs] at h

theorem live_perm (lib : Lib) (ord : MapOrder) (fault : Fault) (d : Disk)
    (live : List Reminder) (h : readAll lib ord fault d = .ok live) :
    live.Perm (liveSet lib d) := by
  rw [readAll_ok lib ord fault d live h]
  exact ord.perm _

theorem liveSet_nodup_ids (lib : Lib) (d : Disk) : ((liveSet lib d).map Reminder.ID).Nodup := by
  unfold liveSet
  cases d.file with
  | none => simp
  | some data => exact nodup_ids_reconcile _

theorem live_nodup_ids (lib : Lib) (ord : MapOrder) (fault : Fault) (d : Disk)
    (live : List Reminder) (h : readAll lib ord fault d = .ok live) :
    (live.map Reminder.ID).Nodup :=
  ((live_perm lib ord fault d live h).map Reminder.ID).nodup_iff.mpr (liveSet_nodup_ids lib d)

theorem findByID_eq_none (id : String) (l : List Reminder) :
    findByID id l = none ↔ ∀ r ∈ l, r.ID ≠ id := by
  induction l with
  | nil => simp [findByID]
  | cons x l ih =>
    by_cases hx : x.ID = id
    · simp [findByID, hx]
    · simp [findByID, hx, ih]

theorem findByID_some (id : String) (l : List Reminder) (r : Reminder)
    (h : findByID id l = some r) : r ∈ l ∧ r.ID = id := by
  induction l with
  | nil => simp [findByID] at h
  | cons x l ih =>
    by_cases hx : x.ID = id
    · simp only [findByID, if_pos hx, Option.some.injEq] at h
      subst h
      exact ⟨by simp, hx⟩
    · simp only [findByID, if_neg hx] at h
      exact ⟨List.mem_cons_of_mem _ (ih h).1, (ih h).2⟩

theorem findByID_of_mem (l : List Reminder) (r : Reminder) (hn : (l.map Reminder.ID).Nodup)
    (h : r ∈ l) : findByID r.ID l = some r := by
  induction l with
  | nil => simp at h
  | cons x l ih =>
    simp only [List.map_cons, List.nodup_cons] at hn
    simp only [List.mem_cons] at h
    rcases h with h | h
    · simp [findByID, h]
    · have hne : ¬ x.ID = r.ID := by
        intro e
        apply hn.1
        rw [e]
        exact List.mem_map_of_mem Reminder.ID h
      simp only [findByID, if_neg hne]
      exact ih hn.2 h

theorem updateLoop_found (x : Reminder) (l : List Reminder) :
    (updateLoop x l).2 = true ↔ ∃ r ∈ l, r.ID = x.ID := by
  induction l with
  | nil => simp [updateLoop]
  | cons y l ih =>
    by_cases hy : y.ID = x.ID
    · simp [updateLoop, hy]
    · simp [updateLoop, hy, ih]

theorem updateLoop_map (x : Reminder) (l : List Reminder) (hn : (l.map Reminder.ID).Nodup) :
    (updateLoop x l).1 = l.map fun r => if r.ID = x.ID then x else r := by
  induction l with
  | nil => simp [updateLoop]
  | cons y l ih =>
    simp only [List.map_cons, List.nodup_cons] at hn
    by_cases hy : y.ID = x.ID
    · simp only [updateLoop, if_pos hy, List.map_cons, List.cons.injEq, true_and]
      symm
      calc l.map (fun r => if r.ID = x.ID then x else r) = l.map id := by
            apply List.map_congr_left
            intro r hr
            have : ¬ r.ID = x.ID := by
              intro e
              apply hn.1
              rw [hy, ← e]
              exact List.mem_map_of_mem Reminder.ID hr
            simp [this]
        _ = l := by simp
    · simp [updateLoop, hy, ih hn.2]

theorem deleteLoop_fst (id : String) (l : List Reminder) :
    (deleteLoop id l).1 = l.filter fun r => decide (r.ID ≠ id) := by
  induction l with
  | nil => simp [deleteLoop]
  | cons y l ih =>
    by_cases hy : y.ID = id
    · simp [deleteLoop, hy, ih]
    · simp [deleteLoop, hy, ih]

theorem deleteLoop_found (id : String) (l : List Reminder) :
    (deleteLoop id l).2 = true ↔ ∃ r ∈ l, r.ID = id := by
  induction l with
  | nil => simp [deleteLoop]
  | cons y l ih =>
    by_cases hy : y.ID = id
    · simp [deleteLoop, hy]
    · simp [deleteLoop, hy, ih]

theorem completeLoop_eq (id : String) (now : Time) (l : List Reminder) :
    completeLoop id now l =
      match findByID id l with
      | none => none
      | some r => some (updateLoop (r.Complete now) l).1 := by
  induction l with
  | nil => simp [completeLoop, findByID]
  | cons y l ih =>
    by_cases hy : y.ID = id
    · simp [completeLoop, findByID, updateLoop, hy, Reminder.Complete]
    · have hid : ∀ r, findByID id l = some r → (r.Complete now).ID = id := fun r hr =>
        (findByID_some id l r hr).2
      simp only [completeLoop, findByID, if_neg hy, ih]
      cases hf : findByID id l with
      | none => simp
      | some r =>
        have hne : ¬ y.ID = (r.Complete now).ID := by rw [hid r hf]; exact hy
        simp [updateLoop, hne]

/-! ## `writeAll` and `appendReminder` -/

theorem writeLoop_ok (lib : Lib) (fault : Fault) (rs : List Reminder) (i : Nat)
    (acc content : List Char) (h : writeLoop lib fault rs i acc = .ok content) :
    content = acc ++ compacted lib rs ∧ ∀ r ∈ rs, lib.marshal r ≠ none := by
  induction rs generalizing i acc with
  | nil =>
    simp only [writeLoop, Except.ok.injEq] at h
    simp [compacted, ← h]
  | cons r rs ih =>
    cases hm : lib.marshal r with
    | none => simp [writeLoop, hm] at h
    | some data =>
      simp only [writeLoop, hm] at h
      split at h
      · cases h
      · obtain ⟨h1, h2⟩ := ih _ _ h
        refine ⟨?_, ?_⟩
        · rw [h1]
          simp [compacted, lineOf, hm]
        · intro x hx
          simp only [List.mem_cons] at hx
          rcases hx with hx | hx
          · rw [hx, hm]; simp
          · exact h2 x hx

theorem writeAll_ok (lib : Lib) (fault : Fault) (d d' : Disk) (rs : List Reminder)
    (h : writeAll lib fault d rs = (.ok (), d')) :
    d' = { file := some (compacted lib rs), tmp := none } ∧ ∀ r ∈ rs, lib.marshal r ≠ none := by
  unfold writeAll at h
  split at h
  · simp at h
  · cases hw : writeLoop lib fault rs 0 [] with
    | error e => simp [hw] at h
    | ok content =>
      obtain ⟨h1, h2⟩ := writeLoop_ok lib fault rs 0 [] content hw
      simp only [hw] at h
      split at h
      · simp at h
      · split at h
        · simp at h
        · simp only [Prod.mk.injEq, true_and] at h
          exact ⟨by rw [← h, h1]; simp, h2⟩

theorem writeAll_error (lib : Lib) (fault : Fault) (d : Disk) (rs : List Reminder)
    (e : StoreErr) (h : (writeAll lib fault d rs).1 = .error e) :
    (writeAll lib fault d rs).2.file = d.file ∧
      (fault = .createFails → (writeAll lib fault d rs).2 = d) ∧
      (fault ≠ .createFails → (writeAll lib fault d rs).2.tmp = none) := by
  unfold writeAll at h ⊢
  by_cases hc : fault = .createFails
  · simp [hc]
  · simp only [if_neg hc] at h ⊢
    cases hw : writeLoop lib fault rs 0 [] with
    | error e' => simp [hc]
    | ok content =>
      simp only [hw] at h ⊢
      by_cases h1 : fault = .closeFails
      · simp [h1]
      · by_cases h2 : fault = .renameFails
        · simp [h2]
        · simp [h1, h2] at h

theorem Add_ok (lib : Lib) (fault : Fault) (d d' : Disk) (r : Reminder)
    (h : Store.Add lib fault d r = (.ok (), d')) :
    lib.marshal r ≠ none ∧ d' = { d with file := some (d.file.getD [] ++ lineOf lib r) } := by
  unfold Store.Add appendReminder at h
  split at h
  · simp at h
  · cases hm : lib.marshal r with
    | none => simp [hm] at h
    | some data =>
      simp only [hm] at h
      split at h
      · simp at h
      · simp only [Prod.mk.injEq, true_and] at h
        exact ⟨by simp, by rw [← h]; simp [lineOf, hm]⟩

/-! ## Reading back what was written -/

theorem storable_spec (lib : Lib) (r : Reminder) (h : storable lib r = true) :
    ∃ data, lib.marshal r = some data ∧ '\n' ∉ data ∧ byteLen data < MaxScanTokenSize ∧
      decodeLine lib (dropCR data) = some r := by
  unfold storable at h
  cases hm : lib.marshal r with
  | none => simp [hm] at h
  | some data =>
    simp only [hm, Bool.and_eq_true, Bool.not_eq_true', decide_eq_true_eq] at h
    refine ⟨data, rfl, ?_, h.1.2, h.2⟩
    intro hmem
    have := h.1.1
    simp [List.contains_iff_exists_mem_beq, hmem] at this

theorem lineOf_storable (lib : Lib) (r : Reminder) (data : List Char)
    (hm : lib.marshal r = some data) : lineOf lib r = data ++ ['\n'] := by
  simp [lineOf, hm]

theorem decoded_append (lib : Lib) (a b : List (List Char)) :
    decoded lib (a ++ b) = decoded lib a ++ decoded lib b := by
  simp [decoded]

theorem scan_append_line (p data : List Char) (hp : terminated p = true)
    (hs : (scan p).2 = false) (hn : '\n' ∉ data) (hl : byteLen data < MaxScanTokenSize) :
    scan (p ++ (data ++ ['\n'])) = ((scan p).1 ++ [dropCR data], false) := by
  have h1 : rawLines (data ++ ['\n']) = [data] := by
    have := rawLines_line data [] hn
    simpa [rawLines] using this
  have h2 : scanTokens [data] = ([dropCR data], false) :=
    scanTokens_short [data] (by simpa using hl)
  unfold scan at hs ⊢
  rw [rawLines_append p _ hp, h1, scanTokens_append _ _ hs, h2]

theorem terminated_append_line (p data : List Char) : terminated (p ++ (data ++ ['\n'])) = true := by
  simp [terminated, ← List.append_assoc, List.getLast?_append]

theorem scan_append_storable (lib : Lib) (p : List Char) (r : Reminder)
    (hp : terminated p = true) (hs : (scan p).2 = false) (hr : storable lib r = true) :
    (scan (p ++ lineOf lib r)).2 = false ∧
      decoded lib (scan (p ++ lineOf lib r)).1 = decoded lib (scan p).1 ++ [r] ∧
      terminated (p ++ lineOf lib r) = true := by
  obtain ⟨data, hm, hn, hl, hd⟩ := storable_spec lib r hr
  rw [lineOf_storable lib r data hm, scan_append_line p data hp hs hn hl]
  refine ⟨rfl, ?_, terminated_append_line p data⟩
  simp [decoded, hd]

theorem scan_compacted (lib : Lib) (rs : List Reminder) (h : ∀ r ∈ rs, storable lib r = true) :
    (scan (compacted lib rs)).2 = false ∧ decoded lib (scan (compacted lib rs)).1 = rs ∧
      terminated (compacted lib rs) = true := by
  induction rs using List.reverseRecOn with
  | nil => simp [compacted, scan, rawLines, scanTokens, decoded, terminated]
  | append_singleton rs r ih =>
    have hrs : ∀ x ∈ rs, storable lib x = true := fun x hx => h x (by simp [hx])
    have hr : storable lib r = true := h r (by simp)
    obtain ⟨h1, h2, h3⟩ := ih hrs
    have hc : compacted lib (rs ++ [r]) = compacted lib rs ++ lineOf lib r := by
      simp [compacted]
    rw [hc]
    obtain ⟨g1, g2, g3⟩ := scan_append_storable lib (compacted lib rs) r h3 h1 hr
    exact ⟨g1, by rw [g2, h2], g3⟩

theorem liveSet_compacted (lib : Lib) (rs : List Reminder) (t : Option (List Char))
    (h : ∀ r ∈ rs, storable lib r = true) (hn : (rs.map Reminder.ID).Nodup) :
    liveSet lib { file := some (compacted lib rs), tmp := t } = rs := by
  simp only [liveSet, (scan_compacted lib rs h).2.1]
  exact reconcile_nodup rs hn

theorem readAll_compacted (lib : Lib) (ord : MapOrder) (rs : List Reminder)
    (t : Option (List Char)) (h : ∀ r ∈ rs, storable lib r = true)
    (hn : (rs.map Reminder.ID).Nodup) :
    readAll lib ord .noFault { file := some (compacted lib rs), tmp := t } = .ok (ord.range rs) := by
  rw [readAll_present lib ord .noFault _ (compacted lib rs) rfl (scan_compacted lib rs h).1
    (by simp) (by simp), liveSet_compacted lib rs t h hn]

theorem Get_of_live (lib : Lib) (ord : MapOrder) (fault : Fault) (d : Disk)
    (live : List Reminder) (r : Reminder) (h : readAll lib ord fault d = .ok live)
    (hr : r ∈ live) : Store.Get lib ord fault d r.ID = .ok r := by
  simp [Store.Get, h, findByID_of_mem live r (live_nodup_ids lib ord fault d live h) hr]

theorem Get_notFound (lib : Lib) (ord : MapOrder) (fault : Fault) (d : Disk)
    (live : List Reminder) (id : String) (h : readAll lib ord fault d = .ok live) :
    Store.Get lib ord fault d id = .error .ErrNotFound ↔ ∀ r ∈ live, r.ID ≠ id := by
  rw [← findByID_eq_none]
  cases hf : findByID id live <;> simp [Store.Get, h, hf]

theorem scanTokens_ok_iff (ls : List (List Char)) :
    (scanTokens ls).2 = false ↔ ∀ l ∈ ls, byteLen l < MaxScanTokenSize := by
  induction ls with
  | nil => simp [scanTokens]
  | cons l ls ih =>
    by_cases hl : MaxScanTokenSize ≤ byteLen l
    · simp only [scanTokens, if_pos hl, List.mem_cons]
      constructor
      · intro h; cases h
      · intro h; exact absurd (h l (Or.inl rfl)) (Nat.not_lt.mpr hl)
    · simp only [scanTokens, if_neg hl, ih, List.mem_cons]
      constructor
      · intro h x hx
        rcases hx with hx | hx
        · rw [hx]; exact Nat.not_le.mp hl
        · exact h x hx
      · intro h x hx
        exact h x (Or.inr hx)

theorem faithful_spec (lib : Lib) (r : Reminder) (h : faithful lib r = true) :
    ∃ data, lib.marshal r = some data ∧ '\n' ∉ data ∧ decodeLine lib (dropCR data) = some r := by
  unfold faithful at h
  cases hm : lib.marshal r with
  | none => simp [hm] at h
  | some data =>
    simp only [hm, Bool.and_eq_true, Bool.not_eq_true', decide_eq_true_eq] at h
    refine ⟨data, rfl, ?_, h.2⟩
    intro hmem
    have := h.1
    simp [List.contains_iff_exists_mem_beq, hmem] at this

theorem storable_of_faithful (lib : Lib) (r : Reminder) (data : List Char)
    (h : faithful lib r = true) (hm : lib.marshal r = some data)
    (hl : byteLen data < MaxScanTokenSize) : storable lib r = true := by
  unfold faithful at h
  unfold storable
  simp only [hm] at h ⊢
  simp only [Bool.and_eq_true, Bool.not_eq_true', decide_eq_true_eq] at h ⊢
  exact ⟨⟨h.1, hl⟩, h.2⟩

theorem faithful_of_storable (lib : Lib) (r : Reminder) (h : storable lib r = true) :
    faithful lib r = true := by
  unfold storable at h
  unfold faithful
  cases hm : lib.marshal r with
  | none => simp [hm] at h
  | some data =>
    simp only [hm, Bool.and_eq_true, Bool.not_eq_true', decide_eq_true_eq] at h ⊢
    exact ⟨h.1.1, h.2⟩

theorem storable_of_readable_append (lib : Lib) (p : List Char) (r : Reminder)
    (hp : terminated p = true) (hr : faithful lib r = true)
    (hs : (scan (p ++ lineOf lib r)).2 = false) :
    (scan p).2 = false ∧ storable lib r = true := by
  obtain ⟨data, hm, hn, _⟩ := faithful_spec lib r hr
  have h1 : rawLines (data ++ ['\n']) = [data] := by
    have := rawLines_line data [] hn
    simpa [rawLines] using this
  rw [lineOf_storable lib r data hm] at hs
  unfold scan at hs ⊢
  rw [rawLines_append p _ hp, h1, scanTokens_ok_iff] at hs
  refine ⟨?_, ?_⟩
  · rw [scanTokens_ok_iff]
    intro l hl
    exact hs l (by simp [hl])
  · exact storable_of_faithful lib r data hr hm (hs data (by simp))

theorem storable_of_readable_compacted (lib : Lib) (rs : List Reminder)
    (h : ∀ r ∈ rs, faithful lib r = true) (hs : (scan (compacted lib rs)).2 = false) :
    ∀ r ∈ rs, storable lib r = true := by
  induction rs using List.reverseRecOn with
  | nil => simp
  | append_singleton rs r ih =>
    have hc : compacted lib (rs ++ [r]) = compacted lib rs ++ lineOf lib r := by
      simp [compacted]
    have hterm : terminated (compacted lib rs) = true := by
      clear ih hs hc
      induction rs using List.reverseRecOn with
      | nil => simp [compacted, terminated]
      | append_singleton rs' r' _ =>
        have : compacted lib (rs' ++ [r']) = compacted lib rs' ++ lineOf lib r' := by
          simp [compacted]
        rw [this]
        exact terminated_append_line _ _
    rw [hc] at hs
    obtain ⟨g1, g2⟩ := storable_of_readable_append lib (compacted lib rs) r hterm
      (h r (by simp)) hs
    intro x hx
    simp only [List.mem_append, List.mem_singleton] at hx
    rcases hx with hx | hx
    · exact ih (fun y hy => h y (by simp [hy])) g1 x hx
    · rw [hx]; exact g2

theorem filter_id_singleton (l : List Reminder) (r : Reminder) (hn : (l.map Reminder.ID).Nodup)
    (h : r ∈ l) : l.filter (fun x => decide (x.ID = r.ID)) = [r] := by
  induction l with
  | nil => simp at h
  | cons x l ih =>
    simp only [List.map_cons, List.nodup_cons] at hn
    simp only [List.mem_cons] at h
    rcases h with h | h
    · subst h
      have : ∀ y ∈ l, ¬ y.ID = r.ID := by
        intro y hy e
        apply hn.1
        rw [← e]
        exact List.mem_map_of_mem Reminder.ID hy
      have hnil : l.filter (fun x => decide (x.ID = r.ID)) = [] := by
        rw [List.filter_eq_nil_iff]
        intro y hy
        simpa using this y hy
      simp [List.filter_cons, hnil]
    · have hne : ¬ x.ID = r.ID := by
        intro e
        apply hn.1
        rw [e]
        exact List.mem_map_of_mem Reminder.ID h
      simp [List.filter_cons, hne, ih hn.2 h]

theorem liveSet_eq (lib : Lib) (d : Disk) :
    liveSet lib d = (reconcile (decodedLog lib d)).map Prod.snd := by
  unfold liveSet decodedLog
  cases d.file <;> simp [reconcile]

theorem mem_liveSet_iff (lib : Lib) (d : Disk) (r : Reminder) :
    r ∈ liveSet lib d ↔ lastWithID r.ID (decodedLog lib d) = some r := by
  rw [liveSet_eq, mem_reconcile_iff]

theorem mem_live_iff (lib : Lib) (ord : MapOrder) (fault : Fault) (d : Disk)
    (live : List Reminder) (h : readAll lib ord fault d = .ok live) (r : Reminder) :
    r ∈ live ↔ lastWithID r.ID (decodedLog lib d) = some r := by
  rw [(live_perm lib ord fault d live h).mem_iff, mem_liveSet_iff]

theorem readAll_of_readable (lib : Lib) (ord : MapOrder) (d : Disk) (h : readable d = true) :
    readAll lib ord .noFault d = .ok (ord.range (liveSet lib d)) := by
  cases hf : d.file with
  | none => simp [readAll_missing lib ord .noFault d hf, liveSet, hf, MapOrder.range_nil]
  | some data =>
    have hs : (scan data).2 = false := by simpa [readable, hf] using h
    exact readAll_present lib ord .noFault d data hf hs (by simp) (by simp)

/-- Round trip through an append, on a log whose last line is terminated: when the library
encodes the record faithfully and the scanner reports no error afterwards, `Get` returns the
record that `Add` stored. -/
theorem Add_Get_roundtrip (lib : Lib) (ord : MapOrder) (fault : Fault) (d d' : Disk)
    (r : Reminder) (hadd : Store.Add lib fault d r = (.ok (), d'))
    (hterm : terminated (d.file.getD []) = true) (hr : faithful lib r = true)
    (hread : readable d' = true) : Store.Get lib ord .noFault d' r.ID = .ok r := by
  obtain ⟨_, hd'⟩ := Add_ok lib fault d d' r hadd
  have hs : (scan (d.file.getD [] ++ lineOf lib r)).2 = false := by
    simpa [readable, hd'] using hread
  obtain ⟨g1, g2⟩ := storable_of_readable_append lib _ r hterm hr hs
  obtain ⟨_, k2, _⟩ := scan_append_storable lib _ r hterm g1 g2
  have hall := readAll_of_readable lib ord d' hread
  apply Get_of_live lib ord .noFault d' _ r hall
  rw [(ord.perm _).mem_iff, mem_liveSet_iff]
  have : decodedLog lib d' = decoded lib (scan (d.file.getD [])).1 ++ [r] := by
    simp [decodedLog, hd', k2]
  rw [this, lastWithID_append_singleton]
  simp

theorem decodedLog_nil_of_liveSet_nil (lib : Lib) (d : Disk) (h : liveSet lib d = []) :
    decodedLog lib d = [] := by
  cases hd : decodedLog lib d with
  | nil => rfl
  | cons x xs =>
    exfalso
    cases hl : lastWithID x.ID (decodedLog lib d) with
    | none =>
      have := (lastWithID_eq_none x.ID _).mp hl x (by simp [hd])
      exact this rfl
    | some y =>
      have hy := lastWithID_mem x.ID _ y hl
      have : y ∈ liveSet lib d := by
        rw [mem_liveSet_iff, hy.2]
        exact hl
      simp [h] at this

/-! ## The claims -/

/-- C1 (the failing input). The log ends in a line whose write was cut short. `Add` of
`payRent` succeeds and appends the line of the record right after the torn bytes, the
library encodes the record faithfully and the scanner reports no error; yet `Get` of the id
returns `ErrNotFound` under every map order: the record just added is not read back. -/
theorem C1_add_after_torn_line_is_lost :
    Store.Add goLib .noFault { file := some tornLog, tmp := none } payRent =
        (.ok (), { file := some (tornLog ++ lineOf goLib payRent), tmp := none }) ∧
      faithful goLib payRent = true ∧
      readable { file := some (tornLog ++ lineOf goLib payRent), tmp := none } = true ∧
      ∀ ord : MapOrder,
        Store.Get goLib ord .noFault
          { file := some (tornLog ++ lineOf goLib payRent), tmp := none } payRent.ID =
            .error .ErrNotFound := by
  refine ⟨by rfl, by rfl, by rfl, ?_⟩
  intro ord
  have hr : readable { file := some (tornLog ++ lineOf goLib payRent), tmp := none } = true := by
    rfl
  have hl : liveSet goLib { file := some (tornLog ++ lineOf goLib payRent), tmp := none } = [] := by
    rfl
  simp [Store.Get, readAll_of_readable goLib ord _ hr, hl, MapOrder.range_nil, findByID]

/-- C2. Last write wins. Whenever `readAll` returns a live set: every id carried by some
well-formed line has exactly one live record, the record of the last well-formed line with
that id; the live set holds no other record. In particular, after two successful `Add`s of
records with the same id, the second encoded faithfully and read back without scanner error,
exactly one live record carries the id, the later one; it is the only live record when the
store held none before, its log ended in a terminated line and the first record is encoded
faithfully too. -/
theorem C2_last_write_wins (lib : Lib) (ord : MapOrder) (fault : Fault) (d : Disk)
    (live : List Reminder) (h : readAll lib ord fault d = .ok live) :
    (∀ id, (∃ x ∈ decodedLog lib d, x.ID = id) →
        ∃ r, lastWithID id (decodedLog lib d) = some r ∧
          live.filter (fun x => decide (x.ID = id)) = [r]) ∧
      (∀ r ∈ live, lastWithID r.ID (decodedLog lib d) = some r) ∧
      (∀ (r1 r2 : Reminder) (d1 d2 : Disk) (ord' : MapOrder),
        r1.ID = r2.ID → faithful lib r2 = true →
        Store.Add lib .noFault d r1 = (.ok (), d1) →
        Store.Add lib .noFault d1 r2 = (.ok (), d2) →
        readable d2 = true →
        ∃ live2, readAll lib ord' .noFault d2 = .ok live2 ∧
          live2.filter (fun x => decide (x.ID = r2.ID)) = [r2] ∧
          (live = [] → terminated (d.file.getD []) = true → faithful lib r1 = true →
            live2 = [r2])) := by
  have hnd := live_nodup_ids lib ord fault d live h
  refine ⟨?_, ?_, ?_⟩
  · intro id hid
    cases hl : lastWithID id (decodedLog lib d) with
    | none =>
      obtain ⟨x, hx, hxid⟩ := hid
      exact absurd hxid ((lastWithID_eq_none id _).mp hl x hx)
    | some r =>
      have hr := lastWithID_mem id _ r hl
      have hmem : r ∈ live := by
        rw [mem_live_iff lib ord fault d live h, hr.2]
        exact hl
      refine ⟨r, rfl, ?_⟩
      have := filter_id_singleton live r hnd hmem
      rw [hr.2] at this
      exact this
  · intro r hr
    exact (mem_live_iff lib ord fault d live h r).mp hr
  · intro r1 r2 d1 d2 ord' hid hf2 ha1 ha2 hread
    obtain ⟨hm1, hd1⟩ := Add_ok lib .noFault d d1 r1 ha1
    obtain ⟨_, hd2⟩ := Add_ok lib .noFault d1 d2 r2 ha2
    obtain ⟨data1, hdata1⟩ := Option.ne_none_iff_exists'.mp hm1
    have hfile1 : d1.file.getD [] = d.file.getD [] ++ lineOf lib r1 := by simp [hd1]
    have hterm1 : terminated (d1.file.getD []) = true := by
      rw [hfile1, lineOf_storable lib r1 data1 hdata1]
      exact terminated_append_line _ _
    have hfile2 : d2.file = some (d1.file.getD [] ++ lineOf lib r2) := by simp [hd2]
    have hs2 : (scan (d1.file.getD [] ++ lineOf lib r2)).2 = false := by
      simpa [readable, hd2] using hread
    obtain ⟨g1, g2⟩ := storable_of_readable_append lib _ r2 hterm1 hf2 hs2
    obtain ⟨_, e2, _⟩ := scan_append_storable lib _ r2 hterm1 g1 g2
    have hdec : decodedLog lib d2 = decoded lib (scan (d1.file.getD [])).1 ++ [r2] := by
      simp only [decodedLog, hfile2, e2]
    have hall := readAll_of_readable lib ord' d2 hread
    have hmem : r2 ∈ ord'.range (liveSet lib d2) := by
      rw [(ord'.perm _).mem_iff, mem_liveSet_iff, hdec, lastWithID_append_singleton]
      simp
    refine ⟨_, hall, filter_id_singleton _ r2 (live_nodup_ids lib ord' .noFault d2 _ hall) hmem, ?_⟩
    intro hlive hterm hf1
    rw [hfile1] at g1
    obtain ⟨k1, k2⟩ := storable_of_readable_append lib _ r1 hterm hf1 g1
    obtain ⟨_, e1, _⟩ := scan_append_storable lib _ r1 hterm k1 k2
    have hls : liveSet lib d = [] := by
      have := (live_perm lib ord fault d live h).symm
      rw [hlive] at this
      exact List.Perm.eq_nil this
    have hdl := decodedLog_nil_of_liveSet_nil lib d hls
    have hd0 : decoded lib (scan (d.file.getD [])).1 = [] := by
      unfold decodedLog at hdl
      cases hf : d.file with
      | none => simp [scan, rawLines, scanTokens, decoded]
      | some data => simpa [hf] using hdl
    have hl2 : liveSet lib d2 = [r2] := by
      rw [liveSet_eq, hdec, hfile1, e1, hd0]
      simp [reconcile, SeenMap.set, hid]
    rw [hl2]
    exact List.perm_singleton.mp (ord'.perm [r2])

/-- C2 (witness). A log that holds `payRent`, a malformed line, `callBank`, a blank line and
a later version of `payRent`: the live set is the later version and `callBank`. -/
theorem C2_last_write_wins_witness :
    readAll goLib MapOrder.insertion .noFault { file := some replayedLog, tmp := none } =
        .ok [payRentV2, callBank] ∧
      ∀ r ∈ [payRentV2, callBank],
        lastWithID r.ID (decodedLog goLib { file := some replayedLog, tmp := none }) = some r :=
  ⟨by rfl,
    (C2_last_write_wins goLib MapOrder.insertion .noFault { file := some replayedLog, tmp := none }
      [payRentV2, callBank] (by rfl)).2.1⟩

theorem readAll_unreadable (lib : Lib) (ord : MapOrder) (fault : Fault) (d : Disk)
    (data : List Char) (hf : d.file = some data) (hs : (scan data).2 = true)
    (ho : fault ≠ .openFails) : readAll lib ord fault d = .error (.wrapped "reading file") := by
  simp [readAll, hf, hs, ho]

theorem List_unreadable (lib : Lib) (ord : MapOrder) (fault : Fault) (d : Disk)
    (data : List Char) (f : Option ListFilter) (hf : d.file = some data)
    (hs : (scan data).2 = true) (ho : fault ≠ .openFails) :
    Store.List lib ord fault d f = .error (.wrapped "reading file") := by
  simp [Store.List, readAll_unreadable lib ord fault d data hf hs ho]

theorem scan_blockedLog : (scan blockedLog).2 = true := by
  have hn : '\n' ∉ (goLib.marshal payRent).getD [] := by decide
  have hx : '\n' ∉ longLine := by
    intro h
    have := List.eq_of_mem_replicate h
    exact absurd this (by decide)
  have hlen : MaxScanTokenSize ≤ byteLen longLine := by
    unfold longLine
    rw [byteLen_replicate_ascii _ 'x' (by decide)]
  unfold scan blockedLog lineOf
  rw [List.append_assoc, List.singleton_append, rawLines_line _ _ hn, rawLines_line _ _ hx]
  exact scanTokens_long [_] _ longLine hlen

/-- C3 (the failing input). Two well-formed lines with distinct ids are listed when they
stand alone; with one line of `MaxScanTokenSize` bytes between them, `List(nil)` fails with
the wrapped read error under every map order, and neither record is returned. -/
theorem C3_overlong_line_blocks_the_read :
    Store.List goLib MapOrder.insertion .noFault
        { file := some (lineOf goLib payRent ++ lineOf goLib callBank), tmp := none } none =
        .ok [payRent, callBank] ∧
      ∀ ord : MapOrder,
        Store.List goLib ord .noFault { file := some blockedLog, tmp := none } none =
          .error (.wrapped "reading file") := by
  refine ⟨by rfl, ?_⟩
  intro ord
  exact List_unreadable goLib ord .noFault _ blockedLog none rfl scan_blockedLog (by simp)

theorem writeLoop_ne_notFound (lib : Lib) (fault : Fault) (rs : List Reminder) (i : Nat)
    (acc : List Char) : writeLoop lib fault rs i acc ≠ .error .ErrNotFound := by
  induction rs generalizing i acc with
  | nil => simp [writeLoop]
  | cons r rs ih =>
    cases hm : lib.marshal r with
    | none => simp [writeLoop, hm]
    | some data =>
      simp only [writeLoop, hm]
      split
      · simp
      · exact ih _ _

theorem writeAll_ne_notFound (lib : Lib) (fault : Fault) (d : Disk) (rs : List Reminder) :
    (writeAll lib fault d rs).1 ≠ .error .ErrNotFound := by
  unfold writeAll
  split
  · simp
  · cases hw : writeLoop lib fault rs 0 [] with
    | error e =>
      have := writeLoop_ne_notFound lib fault rs 0 []
      rw [hw] at this
      simpa using this
    | ok content =>
      simp only
      split
      · simp
      · split <;> simp

theorem completeLoop_eq_none (id : String) (now : Time) (l : List Reminder) :
    completeLoop id now l = none ↔ ∀ r ∈ l, r.ID ≠ id := by
  rw [completeLoop_eq, ← findByID_eq_none]
  cases findByID id l <;> simp

theorem Complete_notFound (lib : Lib) (ord : MapOrder) (fault : Fault) (now : Time) (d : Disk)
    (live : List Reminder) (id : String) (h : readAll lib ord fault d = .ok live) :
    (Store.Complete lib ord fault now d id).1 = .error .ErrNotFound ↔ ∀ x ∈ live, x.ID ≠ id := by
  rw [← completeLoop_eq_none id now]
  simp only [Store.Complete, h]
  cases hf : completeLoop id now live with
  | some l => simpa using writeAll_ne_notFound lib fault d _
  | none => simp

theorem readAll_rewritten (lib : Lib) (ord : MapOrder) (rs : List Reminder) (d : Disk)
    (hd : d = { file := some (compacted lib rs), tmp := none })
    (hf : ∀ x ∈ rs, faithful lib x = true) (hn : (rs.map Reminder.ID).Nodup)
    (hread : readable d = true) : readAll lib ord .noFault d = .ok (ord.range rs) := by
  subst hd
  have hs : (scan (compacted lib rs)).2 = false := by simpa [readable] using hread
  exact readAll_compacted lib ord rs none (storable_of_readable_compacted lib rs hf hs) hn

theorem Get_rewritten (lib : Lib) (ord : MapOrder) (rs : List Reminder) (d : Disk)
    (hd : d = { file := some (compacted lib rs), tmp := none })
    (hf : ∀ x ∈ rs, faithful lib x = true) (hn : (rs.map Reminder.ID).Nodup)
    (hread : readable d = true) (x : Reminder) (hx : x ∈ rs) :
    Store.Get lib ord .noFault d x.ID = .ok x :=
  Get_of_live lib ord .noFault d _ x (readAll_rewritten lib ord rs d hd hf hn hread)
    ((ord.perm rs).mem_iff.mpr hx)

theorem ids_map_replace (l : List Reminder) (r : Reminder) :
    (l.map fun x => if x.ID = r.ID then r else x).map Reminder.ID = l.map Reminder.ID := by
  rw [List.map_map]
  apply List.map_congr_left
  intro x _
  by_cases hx : x.ID = r.ID <;> simp [hx]

/-- What `Update` guarantees when the rewritten log can be read back. After a successful
`Update(r)` (so the id of `r` was live), when the library encodes `r` and the other live
records faithfully and the scanner reports no error on the rewritten log: `Get` of the id
returns `r` itself, the live ids are the same as before, and `Get` of every other live id
returns the record it held before. -/
theorem Update_replaces_wholesale (lib : Lib) (ord ord' : MapOrder) (fault : Fault)
    (d d' : Disk) (live : List Reminder) (r : Reminder)
    (h : readAll lib ord fault d = .ok live)
    (hu : Store.Update lib ord fault d r = (.ok (), d'))
    (hr : faithful lib r = true)
    (hs : ∀ x ∈ live, x.ID ≠ r.ID → faithful lib x = true)
    (hread : readable d' = true) :
    (∃ x ∈ live, x.ID = r.ID) ∧
      Store.Get lib ord' .noFault d' r.ID = .ok r ∧
      (∃ live', readAll lib ord' .noFault d' = .ok live' ∧
        (live'.map Reminder.ID).Perm (live.map Reminder.ID)) ∧
      (∀ x ∈ live, x.ID ≠ r.ID → Store.Get lib ord' .noFault d' x.ID = .ok x) := by
  have hnd := live_nodup_ids lib ord fault d live h
  simp only [Store.Update, h] at hu
  cases hfound : (updateLoop r live).2 with
  | false => simp [hfound] at hu
  | true =>
    simp only [hfound, if_true] at hu
    have hex := (updateLoop_found r live).mp hfound
    obtain ⟨hd', _⟩ := writeAll_ok lib fault d d' _ hu
    rw [updateLoop_map r live hnd] at hd'
    have hids := ids_map_replace live r
    have hn : ((live.map fun x => if x.ID = r.ID then r else x).map Reminder.ID).Nodup := by
      rw [hids]; exact hnd
    have hf : ∀ y ∈ live.map (fun x => if x.ID = r.ID then r else x), faithful lib y = true := by
      intro y hy
      obtain ⟨x, hx, hxy⟩ := List.mem_map.mp hy
      by_cases hxr : x.ID = r.ID
      · simp only [hxr, if_true] at hxy
        rw [← hxy]; exact hr
      · simp only [hxr, if_false] at hxy
        rw [← hxy]; exact hs x hx hxr
    refine ⟨hex, ?_, ?_, ?_⟩
    · obtain ⟨x, hx, hxr⟩ := hex
      apply Get_rewritten lib ord' _ d' hd' hf hn hread r
      exact List.mem_map.mpr ⟨x, hx, by simp [hxr]⟩
    · refine ⟨_, readAll_rewritten lib ord' _ d' hd' hf hn hread, ?_⟩
      rw [← hids]
      exact (ord'.perm _).map Reminder.ID
    · intro x hx hxr
      apply Get_rewritten lib ord' _ d' hd' hf hn hread x
      exact List.mem_map.mpr ⟨x, hx, by simp [hxr]⟩

theorem writeAll_error_cases (lib : Lib) (fault : Fault) (d : Disk) (rs : List Reminder)
    (e : StoreErr) (h : (writeAll lib fault d rs).1 = .error e) :
    (writeAll lib fault d rs).2.file = d.file ∧
      ((writeAll lib fault d rs).2 = d ∨ (writeAll lib fault d rs).2.tmp = none) := by
  obtain ⟨h1, h2, h3⟩ := writeAll_error lib fault d rs e h
  refine ⟨h1, ?_⟩
  by_cases hc : fault = .createFails
  · exact Or.inl (h2 hc)
  · exact Or.inr (h3 hc)

/-- C6. Atomicity of the compacting rewrite. Whatever I/O step fails: when `writeAll`
returns an error the log is what it was before, the disk is untouched if creating the
temporary file failed, and the temporary file is gone otherwise; hence when `Update`,
`Delete` or `Complete` returns any error (`ErrNotFound`, a read error, or a failure while
creating, writing, closing or renaming the temporary file) the log is what it was before the
call, and either nothing on disk changed or the temporary file has been removed. -/
theorem C6_failed_rewrite_is_atomic (lib : Lib) (ord : MapOrder) (fault : Fault) (now : Time)
    (d : Disk) :
    (∀ (rs : List Reminder) (e : StoreErr), (writeAll lib fault d rs).1 = .error e →
        (writeAll lib fault d rs).2.file = d.file ∧
        (fault = .createFails → (writeAll lib fault d rs).2 = d) ∧
        (fault ≠ .createFails → (writeAll lib fault d rs).2.tmp = none)) ∧
      (∀ (r : Reminder) (e : StoreErr), (Store.Update lib ord fault d r).1 = .error e →
        (Store.Update lib ord fault d r).2.file = d.file ∧
        ((Store.Update lib ord fault d r).2 = d ∨ (Store.Update lib ord fault d r).2.tmp = none)) ∧
      (∀ (id : String) (e : StoreErr), (Store.Delete lib ord fault d id).1 = .error e →
        (Store.Delete lib ord fault d id).2.file = d.file ∧
        ((Store.Delete lib ord fault d id).2 = d ∨ (Store.Delete lib ord fault d id).2.tmp = none)) ∧
      (∀ (id : String) (e : StoreErr), (Store.Complete lib ord fault now d id).1 = .error e →
        (Store.Complete lib ord fault now d id).2.file = d.file ∧
        ((Store.Complete lib ord fault now d id).2 = d ∨
          (Store.Complete lib ord fault now d id).2.tmp = none)) := by
  refine ⟨fun rs e h => writeAll_error lib fault d rs e h, ?_, ?_, ?_⟩
  · intro r e
    unfold Store.Update
    cases hall : readAll lib ord fault d with
    | error e' => simp
    | ok live =>
      cases hf : (updateLoop r live).2 with
      | false => simp [hf]
      | true =>
        simp only [hf, if_true]
        exact writeAll_error_cases lib fault d _ e
  · intro id e
    unfold Store.Delete
    cases hall : readAll lib ord fault d with
    | error e' => simp
    | ok live =>
      cases hf : (deleteLoop id live).2 with
      | false => simp [hf]
      | true =>
        simp only [hf, if_true]
        exact writeAll_error_cases lib fault d _ e
  · intro id e
    unfold Store.Complete
    cases hall : readAll lib ord fault d with
    | error e' => simp
    | ok live =>
      cases hf : completeLoop id now live with
      | none => simp [hf]
      | some l =>
        simp only [hf]
        exact writeAll_error_cases lib fault d _ e

/-- C6 (witness). On the replayed log with a stale temporary file, `Update` of a live record
whose rename fails returns the wrapped error, leaves the log as it was and removes the
temporary file. -/
theorem C6_failed_rewrite_is_atomic_witness :
    (Store.Update goLib MapOrder.insertion .renameFails
        { file := some replayedLog, tmp := some tornLog } callBankV2).1 =
        .error (.wrapped "renaming temp file") ∧
      (Store.Update goLib MapOrder.insertion .renameFails
        { file := some replayedLog, tmp := some tornLog } callBankV2).2.file =
        some replayedLog ∧
      (Store.Update goLib MapOrder.insertion .renameFails
        { file := some replayedLog, tmp := some tornLog } callBankV2).2.tmp = none :=
  have h : (Store.Update goLib MapOrder.insertion .renameFails
      { file := some replayedLog, tmp := some tornLog } callBankV2).1 =
      .error (.wrapped "renaming temp file") := by rfl
  ⟨h, ((C6_failed_rewrite_is_atomic goLib MapOrder.insertion .renameFails 0
      { file := some replayedLog, tmp := some tornLog }).2.1 callBankV2 _ h).1, by rfl⟩

theorem ids_filter_nodup (l : List Reminder) (p : Reminder → Bool)
    (hn : (l.map Reminder.ID).Nodup) : ((l.filter p).map Reminder.ID).Nodup :=
  List.Nodup.sublist ((List.filter_sublist l).map Reminder.ID) hn

/-- What `Delete` guarantees when the rewritten log can be read back. After a successful
`Delete(id)` (so the id was live, whatever superseded versions the log held), when the library
encodes the remaining live records faithfully and the scanner reports no error on the
rewritten log: `Get(id)` returns `ErrNotFound`, a second `Delete(id)` returns `ErrNotFound`
and leaves the disk as it is, and `Get` of every other live id returns the record it held
before. -/
theorem Delete_idempotent_absence (lib : Lib) (ord ord' : MapOrder) (fault : Fault)
    (d d' : Disk) (live : List Reminder) (id : String)
    (h : readAll lib ord fault d = .ok live)
    (hdel : Store.Delete lib ord fault d id = (.ok (), d'))
    (hs : ∀ x ∈ live, x.ID ≠ id → faithful lib x = true)
    (hread : readable d' = true) :
    (∃ x ∈ live, x.ID = id) ∧
      Store.Get lib ord' .noFault d' id = .error .ErrNotFound ∧
      Store.Delete lib ord' .noFault d' id = (.error .ErrNotFound, d') ∧
      (∀ x ∈ live, x.ID ≠ id → Store.Get lib ord' .noFault d' x.ID = .ok x) := by
  have hnd := live_nodup_ids lib ord fault d live h
  simp only [Store.Delete, h] at hdel
  cases hfound : (deleteLoop id live).2 with
  | false => simp [hfound] at hdel
  | true =>
    simp only [hfound, if_true] at hdel
    obtain ⟨hd', _⟩ := writeAll_ok lib fault d d' _ hdel
    rw [deleteLoop_fst] at hd'
    have hn := ids_filter_nodup live (fun r => decide (r.ID ≠ id)) hnd
    have hf : ∀ y ∈ live.filter (fun r => decide (r.ID ≠ id)), faithful lib y = true := by
      intro y hy
      have := List.mem_filter.mp hy
      exact hs y this.1 (by simpa using this.2)
    have hall := readAll_rewritten lib ord' _ d' hd' hf hn hread
    have hgone : ∀ x ∈ ord'.range (live.filter fun r => decide (r.ID ≠ id)), x.ID ≠ id := by
      intro x hx
      have := List.mem_filter.mp ((ord'.perm _).mem_iff.mp hx)
      simpa using this.2
    refine ⟨(deleteLoop_found id live).mp hfound, ?_, ?_, ?_⟩
    · exact (Get_notFound lib ord' .noFault d' _ id hall).mpr hgone
    · have hnf : (deleteLoop id (ord'.range (live.filter fun r => decide (r.ID ≠ id)))).2 = false := by
        cases hb : (deleteLoop id (ord'.range (live.filter fun r => decide (r.ID ≠ id)))).2 with
        | false => rfl
        | true =>
          obtain ⟨x, hx, hxid⟩ := (deleteLoop_found id _).mp hb
          exact absurd hxid (hgone x hx)
      simp only [Store.Delete, hall, hnf]
      simp
    · intro x hx hxid
      apply Get_rewritten lib ord' _ d' hd' hf hn hread x
      exact List.mem_filter.mpr ⟨hx, by simpa using hxid⟩

theorem readAll_error_ord (lib : Lib) (ord1 ord2 : MapOrder) (fault : Fault) (d : Disk)
    (e : StoreErr) (h : readAll lib ord1 fault d = .error e) :
    readAll lib ord2 fault d = .error e := by
  cases hf : d.file with
  | none => simp [readAll, hf] at h
  | some data =>
    by_cases ho : fault = .openFails
    · simp only [readAll, hf, if_pos ho] at h ⊢
      exact h
    · by_cases hs : ((scan data).2 || decide (fault = .readFails)) = true
      · simp only [readAll, hf, if_neg ho, hs, if_true] at h ⊢
        exact h
      · simp [readAll, hf, ho, hs] at h

theorem readAll_ok_ord (lib : Lib) (ord1 ord2 : MapOrder) (fault : Fault) (d : Disk)
    (live : List Reminder) (h : readAll lib ord1 fault d = .ok live) :
    readAll lib ord2 fault d = .ok (ord2.range (liveSet lib d)) := by
  cases h2 : readAll lib ord2 fault d with
  | error e =>
    rw [readAll_error_ord lib ord2 ord1 fault d e h2] at h
    cases h
  | ok live2 => rw [readAll_ok lib ord2 fault d live2 h2]

theorem eq_of_same_id (l : List Reminder) (a b : Reminder) (hn : (l.map Reminder.ID).Nodup)
    (ha : a ∈ l) (hb : b ∈ l) (hid : a.ID = b.ID) : a = b := by
  have h1 := findByID_of_mem l a hn ha
  have h2 := findByID_of_mem l b hn hb
  rw [hid, h2] at h1
  exact (Option.some.inj h1).symm

theorem Update_ok (lib : Lib) (ord : MapOrder) (fault : Fault) (d d' : Disk)
    (live : List Reminder) (r : Reminder) (h : readAll lib ord fault d = .ok live)
    (hu : Store.Update lib ord fault d r = (.ok (), d')) :
    (∃ x ∈ live, x.ID = r.ID) ∧
      d' = { file := some (compacted lib (live.map fun x => if x.ID = r.ID then r else x)),
             tmp := none } := by
  have hnd := live_nodup_ids lib ord fault d live h
  simp only [Store.Update, h] at hu
  cases hfound : (updateLoop r live).2 with
  | false => simp [hfound] at hu
  | true =>
    simp only [hfound, if_true] at hu
    obtain ⟨hd', _⟩ := writeAll_ok lib fault d d' _ hu
    rw [updateLoop_map r live hnd] at hd'
    exact ⟨(updateLoop_found r live).mp hfound, hd'⟩

theorem Complete_ok (lib : Lib) (ord : MapOrder) (fault : Fault) (now : Time) (d d' : Disk)
    (live : List Reminder) (id : String) (h : readAll lib ord fault d = .ok live)
    (hc : Store.Complete lib ord fault now d id = (.ok (), d')) :
    ∃ r ∈ live, r.ID = id ∧
      d' = { file := some (compacted lib
               (live.map fun x => if x.ID = id then r.Complete now else x)),
             tmp := none } := by
  have hnd := live_nodup_ids lib ord fault d live h
  simp only [Store.Complete, h, completeLoop_eq] at hc
  cases hf : findByID id live with
  | none => simp [hf] at hc
  | some r =>
    simp only [hf] at hc
    obtain ⟨hd', _⟩ := writeAll_ok lib fault d d' _ hc
    have hr := findByID_some id live r hf
    rw [updateLoop_map _ live hnd] at hd'
    have hid : (r.Complete now).ID = id := hr.2
    rw [hid] at hd'
    exact ⟨r, hr.1, hr.2, hd'⟩

theorem Complete_eq_Get_Update (lib : Lib) (ord : MapOrder) (fault : Fault) (now : Time)
    (d : Disk) (id : String) :
    Store.Complete lib ord fault now d id =
      match Store.Get lib ord fault d id with
      | .ok r => Store.Update lib ord fault d (r.Complete now)
      | .error e => (.error e, d) := by
  cases hall : readAll lib ord fault d with
  | error e => simp [Store.Complete, Store.Get, hall]
  | ok live =>
    simp only [Store.Complete, Store.Get, Store.Update, hall, completeLoop_eq]
    cases hf : findByID id live with
    | none => simp
    | some r =>
      have hr := findByID_some id live r hf
      have hfound : (updateLoop (r.Complete now) live).2 = true :=
        (updateLoop_found _ live).mpr ⟨r, hr.1, rfl⟩
      simp [hfound]

/-- `Store.Complete(id)` as fetch, mutate, store. (1) Under the same map order, fault
and clock reading, `Complete(id)` returns the same result and leaves the same disk as `Get(id)`
followed by `Update` of the entity's `Complete` applied to the record. (2) Under any map
orders, `Complete` returns `ErrNotFound` exactly when `Get` does. (3) Under any map orders,
when both sequences succeed, the library encodes the rewritten records faithfully and the
scanner reports no error afterwards: the live sets after the two sequences hold the same
records, and `Get(id)` afterwards returns the prior record with `Completed = true`,
`CompletedAt` and `UpdatedAt` at the completion instant and every other field unchanged. -/
theorem Complete_is_get_mutate_update (lib : Lib) (fault : Fault) (now : Time) (d : Disk)
    (id : String) :
    (∀ ord : MapOrder,
        Store.Complete lib ord fault now d id =
          match Store.Get lib ord fault d id with
          | .ok r => Store.Update lib ord fault d (r.Complete now)
          | .error e => (.error e, d)) ∧
      (∀ ord1 ord2 : MapOrder,
        (Store.Complete lib ord1 fault now d id).1 = .error .ErrNotFound ↔
          Store.Get lib ord2 fault d id = .error .ErrNotFound) ∧
      (∀ (ord1 ord2 ord3 ord4 : MapOrder) (r : Reminder) (d1 d2 : Disk),
        Store.Complete lib ord1 .noFault now d id = (.ok (), d1) →
        Store.Get lib ord2 .noFault d id = .ok r →
        Store.Update lib ord3 .noFault d (r.Complete now) = (.ok (), d2) →
        faithful lib (r.Complete now) = true →
        (∀ x ∈ liveSet lib d, x.ID ≠ id → faithful lib x = true) →
        readable d1 = true → readable d2 = true →
        (liveSet lib d1).Perm (liveSet lib d2) ∧
          ∃ c, Store.Get lib ord4 .noFault d1 id = .ok c ∧ c = r.Complete now ∧
            c.Completed = true ∧ c.CompletedAt = some now ∧ c.UpdatedAt = now ∧
            c.ID = r.ID ∧ c.Title = r.Title ∧ c.Due = r.Due ∧ c.Notes = r.Notes ∧
            c.Links = r.Links ∧ c.Tags = r.Tags ∧ c.Priority = r.Priority ∧
            c.CreatedAt = r.CreatedAt) := by
  refine ⟨fun ord => Complete_eq_Get_Update lib ord fault now d id, ?_, ?_⟩
  · intro ord1 ord2
    cases h1 : readAll lib ord1 fault d with
    | error e =>
      have h2 := readAll_error_ord lib ord1 ord2 fault d e h1
      simp [Store.Complete, Store.Get, h1, h2]
    | ok live1 =>
      have h2 := readAll_ok_ord lib ord1 ord2 fault d live1 h1
      rw [(Complete_notFound lib ord1 fault now d live1 id h1),
        Get_notFound lib ord2 fault d _ id h2]
      have p1 := live_perm lib ord1 fault d live1 h1
      have p2 := ord2.perm (liveSet lib d)
      constructor
      · intro h x hx
        exact h x (p1.mem_iff.mpr (p2.mem_iff.mp hx))
      · intro h x hx
        exact h x (p2.mem_iff.mpr (p1.mem_iff.mp hx))
  · intro ord1 ord2 ord3 ord4 r d1 d2 hc hg hu hfr hfs hr1 hr2
    -- the three reads succeed and return permutations of the live set
    have hall1 : ∃ live1, readAll lib ord1 .noFault d = .ok live1 := by
      cases h : readAll lib ord1 .noFault d with
      | error e => simp [Store.Complete, h] at hc
      | ok live1 => exact ⟨live1, rfl⟩
    obtain ⟨live1, h1⟩ := hall1
    have h2 := readAll_ok_ord lib ord1 ord2 .noFault d live1 h1
    have h3 := readAll_ok_ord lib ord1 ord3 .noFault d live1 h1
    have p1 := live_perm lib ord1 .noFault d live1 h1
    have p3 := ord3.perm (liveSet lib d)
    have hS := liveSet_nodup_ids lib d
    -- the record fetched by `Get`
    have hrmem : r ∈ liveSet lib d ∧ r.ID = id := by
      simp only [Store.Get, h2] at hg
      cases hf : findByID id (ord2.range (liveSet lib d)) with
      | none => simp [hf] at hg
      | some r' =>
        simp only [hf, Except.ok.injEq] at hg
        subst hg
        have := findByID_some id _ r' hf
        exact ⟨(ord2.perm _).mem_iff.mp this.1, this.2⟩
    obtain ⟨r1, hr1mem, hr1id, hd1⟩ := Complete_ok lib ord1 .noFault now d d1 live1 id h1 hc
    have hrr : r1 = r :=
      eq_of_same_id (liveSet lib d) r1 r hS (p1.mem_iff.mp hr1mem) hrmem.1
        (by rw [hr1id, hrmem.2])
    subst hrr
    obtain ⟨_, hd2⟩ := Update_ok lib ord3 .noFault d d2 _ (r1.Complete now) h3 hu
    have hcid : (r1.Complete now).ID = id := hr1id
    rw [hcid] at hd2
    -- the rewritten lists
    have hfaith : ∀ l : List Reminder, (∀ x ∈ l, x ∈ liveSet lib d) →
        ∀ y ∈ l.map (fun x => if x.ID = id then r1.Complete now else x),
          faithful lib y = true := by
      intro l hl y hy
      obtain ⟨x, hx, hxy⟩ := List.mem_map.mp hy
      by_cases hxr : x.ID = id
      · simp only [hxr, if_true] at hxy
        rw [← hxy]; exact hfr
      · simp only [hxr, if_false] at hxy
        rw [← hxy]; exact hfs x (hl x hx) hxr
    have hids : ∀ l : List Reminder,
        (l.map fun x => if x.ID = id then r1.Complete now else x).map Reminder.ID =
          l.map Reminder.ID := by
      intro l
      have := ids_map_replace l (r1.Complete now)
      rw [hcid] at this
      exact this
    have hn1 : ((live1.map fun x => if x.ID = id then r1.Complete now else x).map
        Reminder.ID).Nodup := by
      rw [hids]; exact live_nodup_ids lib ord1 .noFault d live1 h1
    have hn3 : (((ord3.range (liveSet lib d)).map fun x =>
        if x.ID = id then r1.Complete now else x).map Reminder.ID).Nodup := by
      rw [hids]; exact live_nodup_ids lib ord3 .noFault d _ h3
    have hf1 := hfaith live1 (fun x hx => p1.mem_iff.mp hx)
    have hf3 := hfaith (ord3.range (liveSet lib d)) (fun x hx => p3.mem_iff.mp hx)
    have hs1 : (scan (compacted lib
        (live1.map fun x => if x.ID = id then r1.Complete now else x))).2 = false := by
      simpa [readable, hd1] using hr1
    have hs3 : (scan (compacted lib ((ord3.range (liveSet lib d)).map fun x =>
        if x.ID = id then r1.Complete now else x))).2 = false := by
      simpa [readable, hd2] using hr2
    have hl1 : liveSet lib d1 = live1.map fun x => if x.ID = id then r1.Complete now else x := by
      rw [hd1]
      exact liveSet_compacted lib _ none (storable_of_readable_compacted lib _ hf1 hs1) hn1
    have hl2 : liveSet lib d2 =
        (ord3.range (liveSet lib d)).map fun x => if x.ID = id then r1.Complete now else x := by
      rw [hd2]
      exact liveSet_compacted lib _ none (storable_of_readable_compacted lib _ hf3 hs3) hn3
    refine ⟨?_, r1.Complete now, ?_, rfl, rfl, rfl, rfl, rfl, rfl, rfl, rfl, rfl, rfl, rfl, rfl⟩
    · rw [hl1, hl2]
      exact (p1.trans p3.symm).map _
    · have := Get_rewritten lib ord4 _ d1 hd1 hf1 hn1 hr1 (r1.Complete now)
        (List.mem_map.mpr ⟨r1, hr1mem, by simp [hr1id]⟩)
      rw [hcid] at this
      exact this

/-- C10. Tag predicate. For a filter with a non-empty tag list: when no other constraint of
the filter excludes the record (the filter with its tag list emptied accepts it),
`matchesFilter` accepts the record if and only if some tag of the record equals some tag of
the filter under `strings.EqualFold`; and a record with no tags is never accepted. -/
theorem C10_tag_predicate (lib : Lib) (r : Reminder) (f : ListFilter) (ht : f.Tags ≠ []) :
    (matchesFilter lib r { f with Tags := [] } = true →
        (matchesFilter lib r f = true ↔
          ∃ t ∈ r.Tags, ∃ ft ∈ f.Tags, lib.equalFold t ft = true)) ∧
      (r.Tags = [] → matchesFilter lib r f = false) := by
  have hlen : 0 < f.Tags.length := List.length_pos.mpr ht
  refine ⟨?_, ?_⟩
  · intro ho
    have hany : (f.Tags.any fun filterTag =>
        r.Tags.any fun reminderTag => lib.equalFold reminderTag filterTag) = true ↔
        ∃ t ∈ r.Tags, ∃ ft ∈ f.Tags, lib.equalFold t ft = true := by
      simp only [List.any_eq_true]
      constructor
      · rintro ⟨ft, hft, t, ht', he⟩
        exact ⟨t, ht', ft, hft, he⟩
      · rintro ⟨t, ht', ft, hft, he⟩
        exact ⟨ft, hft, t, ht', he⟩
    rw [← hany]
    cases ha : (f.Tags.any fun filterTag =>
        r.Tags.any fun reminderTag => lib.equalFold reminderTag filterTag) with
    | false => simp [matchesFilter, hlen, ha]
    | true =>
      simp only [matchesFilter, ha, Bool.not_true, Bool.and_false] at ho ⊢
      simpa using ho
  · intro hr
    simp [matchesFilter, hlen, hr, ht]

/-- C10 (witness). `callBank` is tagged `work`; the filter `{Tags: ["WORK", "home"]}`
accepts it, by its first tag. -/
theorem C10_tag_predicate_witness :
    matchesFilter goLib callBank workOrHome = true ↔
      ∃ t ∈ callBank.Tags, ∃ ft ∈ workOrHome.Tags, goLib.equalFold t ft = true :=
  (C10_tag_predicate goLib callBank workOrHome (by decide)).1 (by rfl)

/-- C11 (counterexample). `payRent` is due at instant `1705276800`. The filter whose only
constraint is `DueAfter` at that very instant accepts it although its due date is not after
the bound, and the filter whose only constraint is `DueBefore` at that instant accepts it
although its due date is not before the bound. -/
theorem C11_bounds_accept_equality :
    payRent.Due = some 1705276800 ∧
      ¬ (matchesFilter goLib payRent (dueAfterOnly (some 1705276800)) = true ↔
          (1705276800 : Time) > 1705276800) ∧
      ¬ (matchesFilter goLib payRent (dueBeforeOnly (some 1705276800)) = true ↔
          (1705276800 : Time) < 1705276800) := by
  refine ⟨rfl, ?_, ?_⟩ <;> decide

/-- C11 (amended). For a reminder with due date `d`: the filter whose only constraint is
`DueBefore = t` accepts it when `d` is before `t` and rejects it when `d` is after `t`; the
filter whose only constraint is `DueAfter = t` accepts it if and only if `d` is not before
`t`, the case `d = t` being accepted. -/
theorem C11_due_bounds (lib : Lib) (r : Reminder) (d t : Time) (hd : r.Due = some d) :
    (d < t → matchesFilter lib r (dueBeforeOnly (some t)) = true) ∧
      (d > t → matchesFilter lib r (dueBeforeOnly (some t)) = false) ∧
      (matchesFilter lib r (dueAfterOnly (some t)) = true ↔ t ≤ d) := by
  refine ⟨?_, ?_, ?_⟩
  · intro h
    have : ¬ t < d := not_lt.mpr (le_of_lt h)
    simp [matchesFilter, dueBeforeOnly, hd, this]
  · intro h
    simp [matchesFilter, dueBeforeOnly, hd, h]
  · simp [matchesFilter, dueAfterOnly, hd]

/-- C11 (witness). `payRent`, due at `1705276800`, and the bound one second earlier. -/
theorem C11_due_bounds_witness :
    ((1705276800 : Time) < 1705276799 →
        matchesFilter goLib payRent (dueBeforeOnly (some 1705276799)) = true) ∧
      ((1705276800 : Time) > 1705276799 →
        matchesFilter goLib payRent (dueBeforeOnly (some 1705276799)) = false) ∧
      (matchesFilter goLib payRent (dueAfterOnly (some 1705276799)) = true ↔
        (1705276799 : Time) ≤ 1705276800) :=
  C11_due_bounds goLib payRent 1705276800 1705276799 rfl

/-- The chain of early returns of `matchesFilter` as one conjunction. -/
theorem matchesFilter_eq (lib : Lib) (r : Reminder) (f : ListFilter) :
    matchesFilter lib r f =
      (!(!f.IncludeCompleted && r.Completed) &&
        !(decide (f.Tags.length > 0) &&
          !(f.Tags.any fun filterTag =>
            r.Tags.any fun reminderTag => lib.equalFold reminderTag filterTag)) &&
        !(match f.DueBefore, r.Due with
          | some before, some due => decide (due > before)
          | _, _ => false) &&
        !(match f.DueAfter, r.Due with
          | some after, some due => decide (due < after)
          | _, _ => false) &&
        !(decide (f.Search ≠ "") &&
          (!Contains (lib.toLower r.Title) (lib.toLower f.Search) &&
            !Contains (lib.toLower r.Notes) (lib.toLower f.Search)))) := by
  unfold matchesFilter
  split_ifs with h1 h2 h3 h4 h5
  · rw [h1]; rfl
  · rw [Bool.eq_false_iff.mpr h1, h2]; rfl
  · rw [Bool.eq_false_iff.mpr h1, Bool.eq_false_iff.mpr h2, h3]; rfl
  · rw [Bool.eq_false_iff.mpr h1, Bool.eq_false_iff.mpr h2, Bool.eq_false_iff.mpr h3, h4]; rfl
  · rw [Bool.eq_false_iff.mpr h1, Bool.eq_false_iff.mpr h2, Bool.eq_false_iff.mpr h3,
      Bool.eq_false_iff.mpr h4, h5]; rfl
  · rw [Bool.eq_false_iff.mpr h1, Bool.eq_false_iff.mpr h2, Bool.eq_false_iff.mpr h3,
      Bool.eq_false_iff.mpr h4, Bool.eq_false_iff.mpr h5]; rfl

/-- C12. Filter composition. `matchesFilter` on a filter is the conjunction of
`matchesFilter` on the five filters that each keep one of its constraints; and a filter
that keeps an absent constraint (empty tag list, nil bound, empty search string) accepts
every record. -/
theorem C12_filter_composition (lib : Lib) (f : ListFilter) :
    (∀ r : Reminder, matchesFilter lib r f =
        (matchesFilter lib r (completedOnly f.IncludeCompleted) &&
          matchesFilter lib r (tagsOnly f.Tags) &&
          matchesFilter lib r (dueBeforeOnly f.DueBefore) &&
          matchesFilter lib r (dueAfterOnly f.DueAfter) &&
          matchesFilter lib r (searchOnly f.Search))) ∧
      (∀ r : Reminder, matchesFilter lib r (tagsOnly []) = true) ∧
      (∀ r : Reminder, matchesFilter lib r (dueBeforeOnly none) = true) ∧
      (∀ r : Reminder, matchesFilter lib r (dueAfterOnly none) = true) ∧
      (∀ r : Reminder, matchesFilter lib r (searchOnly "") = true) := by
  refine ⟨?_, ?_, ?_, ?_, ?_⟩
  · intro r
    have e1 : matchesFilter lib r (completedOnly f.IncludeCompleted) =
        !(!f.IncludeCompleted && r.Completed) := by
      rw [matchesFilter_eq]; simp [completedOnly]
    have e2 : matchesFilter lib r (tagsOnly f.Tags) =
        !(decide (f.Tags.length > 0) &&
          !(f.Tags.any fun filterTag =>
            r.Tags.any fun reminderTag => lib.equalFold reminderTag filterTag)) := by
      rw [matchesFilter_eq]; simp [tagsOnly]
    have e3 : matchesFilter lib r (dueBeforeOnly f.DueBefore) =
        !(match f.DueBefore, r.Due with
          | some before, some due => decide (due > before)
          | _, _ => false) := by
      rw [matchesFilter_eq]; simp [dueBeforeOnly]
    have e4 : matchesFilter lib r (dueAfterOnly f.DueAfter) =
        !(match f.DueAfter, r.Due with
          | some after, some due => decide (due < after)
          | _, _ => false) := by
      rw [matchesFilter_eq]; simp [dueAfterOnly]
    have e5 : matchesFilter lib r (searchOnly f.Search) =
        !(decide (f.Search ≠ "") &&
          (!Contains (lib.toLower r.Title) (lib.toLower f.Search) &&
            !Contains (lib.toLower r.Notes) (lib.toLower f.Search))) := by
      rw [matchesFilter_eq]; simp [searchOnly]
    rw [e1, e2, e3, e4, e5, matchesFilter_eq]
  · intro r; simp [matchesFilter, tagsOnly]
  · intro r; simp [matchesFilter, dueBeforeOnly]
  · intro r; simp [matchesFilter, dueAfterOnly]
  · intro r; simp [matchesFilter, searchOnly]

theorem byteLen_append (a b : List Char) : byteLen (a ++ b) = byteLen a + byteLen b := by
  simp [byteLen]

/-- C13. Append-only `Add`. After a successful `Add(r)` the log is the prior content (empty
when the file did not exist) followed by the serialization of `r` and one line feed, and
nothing else on disk changed: the prior content is a prefix of the new content, which is
longer by the length of the serialization plus one; the appended text is exactly one line
whenever the serialization holds no line feed. -/
theorem C13_add_appends_one_line (lib : Lib) (fault : Fault) (d d' : Disk) (r : Reminder)
    (hadd : Store.Add lib fault d r = (.ok (), d')) :
    ∃ data, lib.marshal r = some data ∧
      d'.file = some (d.file.getD [] ++ (data ++ ['\n'])) ∧
      (∀ c, d.file = some c → d'.file = some (c ++ (data ++ ['\n']))) ∧
      d'.tmp = d.tmp ∧
      d.file.getD [] <+: d'.file.getD [] ∧
      byteLen (d'.file.getD []) = byteLen (d.file.getD []) + byteLen data + 1 ∧
      ('\n' ∉ data → rawLines (data ++ ['\n']) = [data]) := by
  obtain ⟨hm, hd'⟩ := Add_ok lib fault d d' r hadd
  obtain ⟨data, hdata⟩ := Option.ne_none_iff_exists'.mp hm
  have hfile : d'.file = some (d.file.getD [] ++ (data ++ ['\n'])) := by
    rw [hd', lineOf_storable lib r data hdata]
  refine ⟨data, hdata, hfile, ?_, by rw [hd'], ?_, ?_, ?_⟩
  · intro c hc
    rw [hfile, hc]; rfl
  · rw [hfile]
    exact List.prefix_append _ _
  · rw [hfile]
    simp only [Option.getD_some, byteLen_append]
    have : byteLen ['\n'] = 1 := by decide
    omega
  · intro hn
    have := rawLines_line data [] hn
    simpa [rawLines] using this

/-- C13 (witness). `Add` of `callBank` on the torn log: the torn bytes stay in front, the
line of `callBank` follows. -/
theorem C13_add_appends_one_line_witness :
    ∃ data, goLib.marshal callBank = some data ∧
      (Store.Add goLib .noFault { file := some tornLog, tmp := none } callBank).2.file =
        some (tornLog ++ (data ++ ['\n'])) :=
  have h := C13_add_appends_one_line goLib .noFault { file := some tornLog, tmp := none }
    (Store.Add goLib .noFault { file := some tornLog, tmp := none } callBank).2 callBank
    (by rfl)
  h.imp fun _ hd => ⟨hd.1, hd.2.1⟩

/-! ### The shape of a compacted log -/

theorem compacted_eq (lib : Lib) (rs : List Reminder) :
    compacted lib rs =
      ((rs.map fun x => (lib.marshal x).getD []).map fun l => l ++ ['\n']).flatten := by
  simp only [compacted, List.map_map]
  rfl

theorem compacted_shape (lib : Lib) (rs : List Reminder)
    (hf : ∀ x ∈ rs, faithful lib x = true) :
    rawLines (compacted lib rs) = rs.map (fun x => (lib.marshal x).getD []) ∧
      compacted lib rs = ((rawLines (compacted lib rs)).map fun l => l ++ ['\n']).flatten ∧
      (rawLines (compacted lib rs)).map (fun l => decodeLine lib (dropCR l)) = rs.map some := by
  have hlines : rawLines (compacted lib rs) = rs.map (fun x => (lib.marshal x).getD []) := by
    rw [compacted_eq]
    apply rawLines_lines
    intro l hl
    obtain ⟨x, hx, hxl⟩ := List.mem_map.mp hl
    obtain ⟨data, hm, hn, _⟩ := faithful_spec lib x (hf x hx)
    rw [← hxl, hm]
    exact hn
  refine ⟨hlines, ?_, ?_⟩
  · rw [hlines]
    exact compacted_eq lib rs
  · rw [hlines, List.map_map]
    apply List.map_congr_left
    intro x hx
    obtain ⟨data, hm, _, hdec⟩ := faithful_spec lib x (hf x hx)
    simp [hm, hdec]

theorem Delete_ok (lib : Lib) (ord : MapOrder) (fault : Fault) (d d' : Disk)
    (live : List Reminder) (id : String) (h : readAll lib ord fault d = .ok live)
    (hdel : Store.Delete lib ord fault d id = (.ok (), d')) :
    (∃ x ∈ live, x.ID = id) ∧
      d' = { file := some (compacted lib (live.filter fun r => decide (r.ID ≠ id))),
             tmp := none } := by
  simp only [Store.Delete, h] at hdel
  cases hfound : (deleteLoop id live).2 with
  | false => simp [hfound] at hdel
  | true =>
    simp only [hfound, if_true] at hdel
    obtain ⟨hd', _⟩ := writeAll_ok lib fault d d' _ hdel
    rw [deleteLoop_fst] at hd'
    exact ⟨(deleteLoop_found id live).mp hfound, hd'⟩

theorem isCompactionOf_compacted (lib : Lib) (rs : List Reminder) (d : Disk)
    (hd : d = { file := some (compacted lib rs), tmp := none })
    (hf : ∀ x ∈ rs, faithful lib x = true) (hn : (rs.map Reminder.ID).Nodup) :
    isCompactionOf lib rs d := by
  obtain ⟨s1, s2, s3⟩ := compacted_shape lib rs hf
  have hdec : decoded lib ((rawLines (compacted lib rs)).map dropCR) = rs := by
    unfold decoded
    rw [List.filterMap_map]
    have h3 : (rawLines (compacted lib rs)).map (decodeLine lib ∘ dropCR) = rs.map some := s3
    rw [← List.filterMap_eq_map] at h3
    have h4 := congrArg (List.filterMap id) h3
    simpa [List.filterMap_filterMap] using h4
  refine ⟨compacted lib rs, by rw [hd], by rw [hd], s2, ?_, s3, hn, ?_⟩
  · rw [s1, List.length_map]
  · rw [hdec]
    exact reconcile_nodup rs hn

/-- The records of a compaction are the live set the store reads back: when the disk holds
the compaction of `rs` and the scanner reports no error on it, `readAll` returns `rs` in the
order of the map. -/
theorem readAll_of_isCompactionOf (lib : Lib) (ord : MapOrder) (rs : List Reminder) (d : Disk)
    (h : isCompactionOf lib rs d) (hread : readable d = true) :
    readAll lib ord .noFault d = .ok (ord.range rs) := by
  obtain ⟨content, hf, _, _, _, _, _, hrec⟩ := h
  have hs : (scan content).2 = false := by simpa [readable, hf] using hread
  have htok : (scan content).1 = (rawLines content).map dropCR := by
    unfold scan at hs ⊢
    rw [scanTokens_short _ ((scanTokens_ok_iff _).mp hs)]
  have hl : liveSet lib d = rs := by
    simp only [liveSet, hf, htok]
    exact hrec
  rw [readAll_of_readable lib ord d hread, hl]

/-- C14. Compaction output. Let `live` be the live set before the call, and let the library
encode faithfully the live records, the record given to `Update` and the live records once
completed. A successful `Update(r)` leaves the compaction of `live` with the record of the id
of `r` replaced by `r`; a successful `Delete(id)` leaves the compaction of `live` without
the record of `id`; a successful `Complete(id)` leaves the compaction of `live` with the
record of `id` completed. In each case (`isCompactionOf`) the temporary file is gone and the
log is exactly one newline-terminated line per record of that new live set, in order: the
number of lines is its size, the i-th line parses as its i-th record, no two of its records
carry the same id, and reconciling the records of the lines gives it back, so no malformed or
superseded line remains. -/
theorem C14_compaction_output (lib : Lib) (ord : MapOrder) (fault : Fault) (now : Time)
    (d d' : Disk) (live : List Reminder) (r : Reminder) (id : String)
    (h : readAll lib ord fault d = .ok live)
    (hlive : ∀ x ∈ live, faithful lib x = true) (hr : faithful lib r = true)
    (hc : ∀ x ∈ live, faithful lib (x.Complete now) = true) :
    (Store.Update lib ord fault d r = (.ok (), d') →
        isCompactionOf lib (live.map fun x => if x.ID = r.ID then r else x) d') ∧
      (Store.Delete lib ord fault d id = (.ok (), d') →
        isCompactionOf lib (live.filter fun x => decide (x.ID ≠ id)) d') ∧
      (Store.Complete lib ord fault now d id = (.ok (), d') →
        isCompactionOf lib (live.map fun x => if x.ID = id then x.Complete now else x) d') := by
  have hnd := live_nodup_ids lib ord fault d live h
  refine ⟨?_, ?_, ?_⟩
  · intro hu
    obtain ⟨_, hd'⟩ := Update_ok lib ord fault d d' live r h hu
    apply isCompactionOf_compacted lib _ d' hd' _ (by rw [ids_map_replace]; exact hnd)
    intro y hy
    obtain ⟨x, hx, hxy⟩ := List.mem_map.mp hy
    by_cases hxr : x.ID = r.ID
    · simp only [hxr, if_true] at hxy
      rw [← hxy]; exact hr
    · simp only [hxr, if_false] at hxy
      rw [← hxy]; exact hlive x hx
  · intro hdel
    obtain ⟨_, hd'⟩ := Delete_ok lib ord fault d d' live id h hdel
    apply isCompactionOf_compacted lib _ d' hd' _ (ids_filter_nodup live _ hnd)
    intro y hy
    exact hlive y (List.mem_filter.mp hy).1
  · intro hco
    obtain ⟨r0, hr0, hr0id, hd'⟩ := Complete_ok lib ord fault now d d' live id h hco
    have hmap : (live.map fun x => if x.ID = id then r0.Complete now else x) =
        live.map fun x => if x.ID = id then x.Complete now else x := by
      apply List.map_congr_left
      intro x hx
      by_cases hxid : x.ID = id
      · have : x = r0 := eq_of_same_id live x r0 hnd hx hr0 (by rw [hxid, hr0id])
        rw [this]
      · simp only [hxid, if_false]
    rw [hmap] at hd'
    have hids : (live.map fun x => if x.ID = id then x.Complete now else x).map Reminder.ID =
        live.map Reminder.ID := by
      rw [List.map_map]
      apply List.map_congr_left
      intro x _
      by_cases hxid : x.ID = id
      · simp only [Function.comp, hxid, if_true]
        exact hxid
      · simp only [Function.comp, hxid, if_false]
    apply isCompactionOf_compacted lib _ d' hd' _ (by rw [hids]; exact hnd)
    intro y hy
    obtain ⟨x, hx, hxy⟩ := List.mem_map.mp hy
    by_cases hxid : x.ID = id
    · simp only [hxid, if_true] at hxy
      rw [← hxy]; exact hc x hx
    · simp only [hxid, if_false] at hxy
      rw [← hxy]; exact hlive x hx

/-- C14 (witness). The replayed log holds two versions of `payRent`, a malformed line, a
blank line and `callBank`; its live set is the later `payRent` and `callBank`. `Delete` of the
id of `payRent` leaves the compaction of the live set without that record: one line, which
parses as `callBank`. -/
theorem C14_compaction_output_witness :
    isCompactionOf goLib ([payRentV2, callBank].filter fun x => decide (x.ID ≠ payRent.ID))
        (Store.Delete goLib MapOrder.insertion .noFault { file := some replayedLog, tmp := none }
          payRent.ID).2 ∧
      ([payRentV2, callBank].filter fun x => decide (x.ID ≠ payRent.ID)) = [callBank] :=
  ⟨(C14_compaction_output goLib MapOrder.insertion .noFault 0
      { file := some replayedLog, tmp := none } _ [payRentV2, callBank] callBankV2 payRent.ID
      (by rfl) (by decide) (by rfl) (by decide)).2.1 (by rfl), by decide⟩

/-! ## Decimal and hexadecimal digits -/

theorem digitChar_toNat (k : Nat) (hk : k < 10) : (digitChar k).toNat = 48 + k := by
  interval_cases k <;> rfl

theorem digitChar_isDigit (k : Nat) (hk : k < 10) : (digitChar k).isDigit = true := by
  interval_cases k <;> rfl

theorem digitChar_ne_dash (k : Nat) (hk : k < 10) : digitChar k ≠ '-' := by
  interval_cases k <;> decide

theorem decimalFuel_fuel (f1 f2 n : Nat) (h1 : n < f1) (h2 : n < f2) :
    decimalFuel f1 n = decimalFuel f2 n := by
  induction f1 generalizing f2 n with
  | zero => omega
  | succ f1 ih =>
    cases f2 with
    | zero => omega
    | succ f2 =>
      by_cases hn : n < 10
      · simp [decimalFuel, hn]
      · simp only [decimalFuel, if_neg hn]
        rw [ih f2 (n / 10) (by omega) (by omega)]

theorem decimal_eq (n : Nat) :
    decimal n = if n < 10 then [digitChar n] else decimal (n / 10) ++ [digitChar (n % 10)] := by
  by_cases hn : n < 10
  · simp [decimal, decimalFuel, hn]
  · rw [if_neg hn]
    show decimalFuel (n + 1) n = decimalFuel (n / 10 + 1) (n / 10) ++ [digitChar (n % 10)]
    rw [decimalFuel, if_neg hn, decimalFuel_fuel n (n / 10 + 1) (n / 10) (by omega) (by omega)]

theorem decimal_small (n : Nat) (hn : n < 10) : decimal n = [digitChar n] := by
  rw [decimal_eq, if_pos hn]

theorem decimal_large (n : Nat) (hn : ¬ n < 10) :
    decimal n = decimal (n / 10) ++ [digitChar (n % 10)] := by
  rw [decimal_eq, if_neg hn]

theorem decimal_ne_nil (n : Nat) : decimal n ≠ [] := by
  by_cases hn : n < 10
  · simp [decimal_small n hn]
  · simp [decimal_large n hn]

theorem decimal_digits (n : Nat) : ∀ c ∈ decimal n, ∃ k, k < 10 ∧ c = digitChar k := by
  induction n using Nat.strong_induction_on with
  | _ n ih =>
    intro c hc
    by_cases hn : n < 10
    · rw [decimal_small n hn] at hc
      exact ⟨n, hn, by simpa using hc⟩
    · rw [decimal_large n hn, List.mem_append, List.mem_singleton] at hc
      rcases hc with hc | hc
      · exact ih (n / 10) (by omega) c hc
      · exact ⟨n % 10, by omega, hc⟩

theorem decimalValue_append (l : List Char) (c : Char) :
    decimalValue (l ++ [c]) = 10 * decimalValue l + (c.toNat - 48) := by
  simp [decimalValue, List.foldl_append]

theorem decimalValue_decimal (n : Nat) : decimalValue (decimal n) = n := by
  induction n using Nat.strong_induction_on with
  | _ n ih =>
    by_cases hn : n < 10
    · rw [decimal_small n hn]
      simp [decimalValue, digitChar_toNat n hn]
    · rw [decimal_large n hn, decimalValue_append, ih (n / 10) (by omega),
        digitChar_toNat (n % 10) (by omega)]
      omega

theorem decimal_injective (n1 n2 : Nat) (h : decimal n1 = decimal n2) : n1 = n2 := by
  rw [← decimalValue_decimal n1, ← decimalValue_decimal n2, h]

theorem dash_not_mem_decimal (n : Nat) : '-' ∉ decimal n := by
  intro h
  obtain ⟨k, hk, hc⟩ := decimal_digits n '-' h
  exact digitChar_ne_dash k hk hc.symm

theorem hexChar_mem (k : Nat) (hk : k < 16) : hexChar k ∈ "0123456789abcdef".toList := by
  interval_cases k <;> decide

theorem hexChar_ne_dash (k : Nat) (hk : k < 16) : hexChar k ≠ '-' := by
  interval_cases k <;> decide

theorem hexChar_injective (a b : Nat) (ha : a < 16) (hb : b < 16) (h : hexChar a = hexChar b) :
    a = b := by
  interval_cases a <;> interval_cases b <;> first | rfl | (exact absurd h (by decide))

theorem hexByte_injective (a b : Fin 256) (h : hexByte a = hexByte b) : a = b := by
  simp only [hexByte, List.cons.injEq, and_true] at h
  have h1 := hexChar_injective _ _ (by omega) (by omega) h.1
  have h2 := hexChar_injective _ _ (by omega) (by omega) h.2
  apply Fin.ext
  omega

theorem EncodeToString_bytes (b : RandomBytes) :
    EncodeToString b.toList =
      [hexChar (b.b0.val / 16), hexChar (b.b0.val % 16), hexChar (b.b1.val / 16),
        hexChar (b.b1.val % 16), hexChar (b.b2.val / 16), hexChar (b.b2.val % 16),
        hexChar (b.b3.val / 16), hexChar (b.b3.val % 16)] := by
  rfl

theorem mem_EncodeToString (b : RandomBytes) :
    ∀ c ∈ EncodeToString b.toList, ∃ k, k < 16 ∧ c = hexChar k := by
  intro c hc
  rw [EncodeToString_bytes] at hc
  simp only [List.mem_cons, List.mem_singleton, List.not_mem_nil, or_false] at hc
  rcases hc with h | h | h | h | h | h | h | h
  · exact ⟨_, by omega, h⟩
  · exact ⟨_, by omega, h⟩
  · exact ⟨_, by omega, h⟩
  · exact ⟨_, by omega, h⟩
  · exact ⟨_, by omega, h⟩
  · exact ⟨_, by omega, h⟩
  · exact ⟨_, by omega, h⟩
  · exact ⟨_, by omega, h⟩

theorem dash_not_mem_EncodeToString (b : RandomBytes) : '-' ∉ EncodeToString b.toList := by
  intro h
  obtain ⟨k, hk, hc⟩ := mem_EncodeToString b '-' h
  exact hexChar_ne_dash k hk hc.symm

theorem EncodeToString_injective (b b' : RandomBytes)
    (h : EncodeToString b.toList = EncodeToString b'.toList) : b = b' := by
  rw [EncodeToString_bytes, EncodeToString_bytes] at h
  simp only [List.cons.injEq, and_true] at h
  obtain ⟨h0, h1, h2, h3, h4, h5, h6, h7⟩ := h
  have e0 : b.b0 = b'.b0 := hexByte_injective _ _ (by simp [hexByte, h0, h1])
  have e1 : b.b1 = b'.b1 := hexByte_injective _ _ (by simp [hexByte, h2, h3])
  have e2 : b.b2 = b'.b2 := hexByte_injective _ _ (by simp [hexByte, h4, h5])
  have e3 : b.b3 = b'.b3 := hexByte_injective _ _ (by simp [hexByte, h6, h7])
  cases b
  cases b'
  simp_all

/-! ## Splitting at a separator -/

theorem Split_no_sep (sep : Char) (l : List Char) (h : sep ∉ l) : Split sep l = [l] := by
  induction l with
  | nil => rfl
  | cons c l ih =>
    have hc : ¬ c = sep := fun e => h (by simp [e])
    have hl : sep ∉ l := fun e => h (by simp [e])
    simp [Split, hc, ih hl]

theorem Split_at_sep (sep : Char) (a b : List Char) (h : sep ∉ a) :
    Split sep (a ++ sep :: b) = a :: Split sep b := by
  induction a with
  | nil => simp [Split]
  | cons c a ih =>
    have hc : ¬ c = sep := fun e => h (by simp [e])
    have ha : sep ∉ a := fun e => h (by simp [e])
    simp [Split, hc, ih ha]

theorem append_sep_injective (sep : Char) (a b x y : List Char) (ha : sep ∉ a) (hb : sep ∉ b)
    (h : a ++ sep :: x = b ++ sep :: y) : a = b ∧ x = y := by
  have hs : Split sep (a ++ sep :: x) = Split sep (b ++ sep :: y) := by rw [h]
  rw [Split_at_sep sep a x ha, Split_at_sep sep b y hb] at hs
  simp only [List.cons.injEq] at hs
  have hab := hs.1
  subst hab
  exact ⟨rfl, by simpa using h⟩

/-! ## The order on identifiers -/

theorem lexLess_iff_lt (a b : List Char) : lexLess a b = true ↔ List.lt a b := by
  induction a generalizing b with
  | nil =>
    cases b with
    | nil => simp only [lexLess]; constructor <;> intro h <;> cases h
    | cons y ys => simp only [lexLess, true_iff]; exact List.lt.nil _ _
  | cons x xs ih =>
    cases b with
    | nil => simp only [lexLess]; constructor <;> intro h <;> cases h
    | cons y ys =>
      simp only [lexLess]
      by_cases h1 : x.toNat < y.toNat
      · simp only [h1, if_true, true_iff]
        exact List.lt.head _ _ h1
      · by_cases h2 : y.toNat < x.toNat
        · simp only [h1, h2, if_true, if_false]
          constructor
          · intro h; cases h
          · intro h
            cases h with
            | head _ _ h => exact absurd h h1
            | tail _ h _ => exact absurd h2 h
        · simp only [h1, h2, if_false, ih]
          constructor
          · intro h; exact List.lt.tail h1 h2 h
          · intro h
            cases h with
            | head _ _ h => exact absurd h h1
            | tail _ _ h => exact h

/-- The order `lexLess` on the characters is the order `<` of strings. -/
theorem lexLess_iff_string_lt (a b : String) : lexLess a.toList b.toList = true ↔ a < b := by
  rw [String.lt_iff_toList_lt, lexLess_iff_lt]
  exact List.lt_iff_lex_lt _ _

theorem lexLess_append (a b x y : List Char) (hlen : a.length = b.length)
    (h : lexLess a b = true) : lexLess (a ++ x) (b ++ y) = true := by
  induction a generalizing b with
  | nil =>
    cases b with
    | nil => simp [lexLess] at h
    | cons _ _ => simp at hlen
  | cons c a ih =>
    cases b with
    | nil => simp at hlen
    | cons e b =>
      simp only [List.length_cons, Nat.add_right_cancel_iff] at hlen
      simp only [lexLess, List.cons_append] at h ⊢
      by_cases h1 : c.toNat < e.toNat
      · simp [h1]
      · by_cases h2 : e.toNat < c.toNat
        · simp [h1, h2] at h
        · simp only [h1, h2, if_false] at h ⊢
          exact ih b hlen h

theorem lexLess_common_prefix (a x y : List Char) (c e : Char) (h : c.toNat < e.toNat) :
    lexLess (a ++ c :: x) (a ++ e :: y) = true := by
  induction a with
  | nil => simp [lexLess, h]
  | cons z a ih => simp [lexLess, ih]

theorem decimal_length_large (n : Nat) (hn : ¬ n < 10) : 2 ≤ (decimal n).length := by
  rw [decimal_large n hn, List.length_append, List.length_singleton]
  have := List.length_pos.mpr (decimal_ne_nil (n / 10))
  omega

theorem lexLess_decimal (n1 n2 : Nat) (hlt : n1 < n2)
    (hlen : (decimal n1).length = (decimal n2).length) :
    lexLess (decimal n1) (decimal n2) = true := by
  induction n1 using Nat.strong_induction_on generalizing n2 with
  | _ n1 ih =>
    by_cases h1 : n1 < 10
    · by_cases h2 : n2 < 10
      · rw [decimal_small n1 h1, decimal_small n2 h2]
        simp [lexLess, digitChar_toNat n1 h1, digitChar_toNat n2 h2, hlt]
      · have := decimal_length_large n2 h2
        rw [decimal_small n1 h1] at hlen
        simp at hlen
        omega
    · have h2 : ¬ n2 < 10 := by omega
      rw [decimal_large n1 h1, decimal_large n2 h2] at hlen ⊢
      simp only [List.length_append, List.length_singleton, Nat.add_right_cancel_iff] at hlen
      by_cases hq : n1 / 10 < n2 / 10
      · exact lexLess_append _ _ _ _ hlen (ih (n1 / 10) (by omega) (n2 / 10) hq hlen)
      · have heq : n1 / 10 = n2 / 10 := by omega
        rw [heq]
        apply lexLess_common_prefix
        rw [digitChar_toNat _ (by omega), digitChar_toNat _ (by omega)]
        omega

/-! ## Claims on the entity and the identifier -/

theorem Complete_then_Get (lib : Lib) (ord ord' : MapOrder) (fault : Fault) (now : Time)
    (d d' : Disk) (live : List Reminder) (id : String)
    (h : readAll lib ord fault d = .ok live)
    (hc : Store.Complete lib ord fault now d id = (.ok (), d'))
    (hs : ∀ x ∈ live, x.ID ≠ id → faithful lib x = true)
    (hdone : ∀ x ∈ live, x.ID = id → faithful lib (x.Complete now) = true)
    (hread : readable d' = true) :
    ∃ r ∈ live, r.ID = id ∧ Store.Get lib ord' .noFault d' id = .ok (r.Complete now) := by
  obtain ⟨r0, hr0, hr0id, hd'⟩ := Complete_ok lib ord fault now d d' live id h hc
  have hcid : (r0.Complete now).ID = id := hr0id
  have hids := ids_map_replace live (r0.Complete now)
  rw [hcid] at hids
  have hn : ((live.map fun x => if x.ID = id then r0.Complete now else x).map
      Reminder.ID).Nodup := by
    rw [hids]; exact live_nodup_ids lib ord fault d live h
  have hf : ∀ y ∈ live.map (fun x => if x.ID = id then r0.Complete now else x),
      faithful lib y = true := by
    intro y hy
    obtain ⟨x, hx, hxy⟩ := List.mem_map.mp hy
    by_cases hxr : x.ID = id
    · simp only [hxr, if_true] at hxy
      rw [← hxy]; exact hdone r0 hr0 hr0id
    · simp only [hxr, if_false] at hxy
      rw [← hxy]; exact hs x hx hxr
  refine ⟨r0, hr0, hr0id, ?_⟩
  have := Get_rewritten lib ord' _ d' hd' hf hn hread (r0.Complete now)
    (List.mem_map.mpr ⟨r0, hr0, by simp [hr0id]⟩)
  rw [hcid] at this
  exact this

/-- C15 (counterexample). `callBankDone` was completed at instant `1700001000`. The entity's
`Complete` at the later instant `1700002000` replaces its `CompletedAt`, and so does
`Store.Complete` on its id in a store that holds it: `Get` afterwards returns the later
instant. -/
theorem C15_second_complete_restamps :
    callBankDone.Completed = true ∧ callBankDone.CompletedAt = some 1700001000 ∧
      (callBankDone.Complete 1700002000).CompletedAt ≠ callBankDone.CompletedAt ∧
      (Store.Complete goLib MapOrder.insertion .noFault 1700002000
          { file := some (compacted goLib [callBankDone]), tmp := none } callBankDone.ID).1 =
        .ok () ∧
      (Store.Get goLib MapOrder.insertion .noFault
          (Store.Complete goLib MapOrder.insertion .noFault 1700002000
            { file := some (compacted goLib [callBankDone]), tmp := none } callBankDone.ID).2
          callBankDone.ID).map (fun r => r.CompletedAt) = .ok (some 1700002000) := by
  refine ⟨rfl, rfl, by decide, by rfl, by rfl⟩

/-- C15 (amended). `CompletedAt` holds the instant of the latest completion. The entity's
`Complete` at instant `now` leaves `Completed = true`, `CompletedAt = now` and
`UpdatedAt = now` whether or not the reminder was completed before, so on a completed
reminder `CompletedAt` keeps its value only when `now` is that value; and after a successful
`Store.Complete(id)` at `now`, for records the library encodes faithfully and a log read back
without scanner error, `Get(id)` returns the prior record with `CompletedAt = now`. -/
theorem C15_complete_stamps_latest (lib : Lib) (now : Time) :
    (∀ r : Reminder, (r.Complete now).Completed = true ∧
        (r.Complete now).CompletedAt = some now ∧ (r.Complete now).UpdatedAt = now ∧
        (∀ first : Time, r.CompletedAt = some first →
          ((r.Complete now).CompletedAt = r.CompletedAt ↔ now = first))) ∧
      (∀ (ord ord' : MapOrder) (fault : Fault) (d d' : Disk) (live : List Reminder)
        (id : String),
        readAll lib ord fault d = .ok live →
        Store.Complete lib ord fault now d id = (.ok (), d') →
        (∀ x ∈ live, x.ID ≠ id → faithful lib x = true) →
        (∀ x ∈ live, x.ID = id → faithful lib (x.Complete now) = true) →
        readable d' = true →
        ∃ r ∈ live, r.ID = id ∧ Store.Get lib ord' .noFault d' id = .ok (r.Complete now) ∧
          (r.Complete now).CompletedAt = some now) := by
  refine ⟨?_, ?_⟩
  · intro r
    refine ⟨rfl, rfl, rfl, ?_⟩
    intro first hfirst
    rw [hfirst]
    simp [Reminder.Complete]
  · intro ord ord' fault d d' live id h hc hs hdone hread
    obtain ⟨r, hr, hrid, hget⟩ :=
      Complete_then_Get lib ord ord' fault now d d' live id h hc hs hdone hread
    exact ⟨r, hr, hrid, hget, rfl⟩

/-- C15 (witness). A store that holds `callBankDone`, completed at `1700001000`: after
`Store.Complete` of its id at `1700002000`, `Get` returns it with the later instant. -/
theorem C15_complete_stamps_latest_witness :
    ∃ r ∈ [callBankDone], r.ID = callBankDone.ID ∧
      Store.Get goLib MapOrder.reversed .noFault
        { file := some (compacted goLib [callBankDone.Complete 1700002000]), tmp := none }
        callBankDone.ID = .ok (r.Complete 1700002000) ∧
      (r.Complete 1700002000).CompletedAt = some 1700002000 :=
  (C15_complete_stamps_latest goLib 1700002000).2 MapOrder.insertion MapOrder.reversed .noFault
    { file := some (compacted goLib [callBankDone]), tmp := none }
    { file := some (compacted goLib [callBankDone.Complete 1700002000]), tmp := none }
    [callBankDone] callBankDone.ID (by rfl) (by rfl) (by decide) (by decide) (by rfl)

theorem apply_frame (m : Mutation) (now : Time) (r : Reminder) :
    (m.apply now r).UpdatedAt = now ∧ (m.apply now r).ID = r.ID ∧
      (m.apply now r).CreatedAt = r.CreatedAt := by
  cases m <;> exact ⟨rfl, rfl, rfl⟩

theorem apply_completion (m : Mutation) (now : Time) (r : Reminder)
    (h : r.CompletedAt ≠ none ↔ r.Completed = true) :
    (m.apply now r).CompletedAt ≠ none ↔ (m.apply now r).Completed = true := by
  cases m with
  | Complete => simp [Mutation.apply, Reminder.Complete]
  | AddLink link => exact h
  | AddTag tag => exact h
  | SetDue due => exact h
  | SetNotes notes => exact h
  | SetPriority priority => exact h

theorem runMutations_cons (r : Reminder) (m : Mutation) (t : Time)
    (calls : List (Mutation × Time)) :
    runMutations r ((m, t) :: calls) = runMutations (m.apply t r) calls := rfl

/-- C16. Completion invariant. `CompletedAt` is non-nil if and only if `Completed` is true:
for the result of `NewReminder`, after every mutator applied to a reminder for which it
holds, and hence for every reminder reached from the constructor through any sequence of
mutators. -/
theorem C16_completion_invariant :
    (∀ (title : String) (now : Time) (timestamp : Int) (randomBytes : RandomBytes),
        (NewReminder title now timestamp randomBytes).CompletedAt ≠ none ↔
          (NewReminder title now timestamp randomBytes).Completed = true) ∧
      (∀ (m : Mutation) (now : Time) (r : Reminder),
        (r.CompletedAt ≠ none ↔ r.Completed = true) →
        ((m.apply now r).CompletedAt ≠ none ↔ (m.apply now r).Completed = true)) ∧
      (∀ (title : String) (now : Time) (timestamp : Int) (randomBytes : RandomBytes)
        (calls : List (Mutation × Time)),
        (runMutations (NewReminder title now timestamp randomBytes) calls).CompletedAt ≠ none ↔
          (runMutations (NewReminder title now timestamp randomBytes) calls).Completed =
            true) := by
  have hnew : ∀ (title : String) (now : Time) (timestamp : Int) (randomBytes : RandomBytes),
      (NewReminder title now timestamp randomBytes).CompletedAt ≠ none ↔
        (NewReminder title now timestamp randomBytes).Completed = true := by
    intro title now timestamp randomBytes
    simp [NewReminder]
  have hrun : ∀ (calls : List (Mutation × Time)) (r : Reminder),
      (r.CompletedAt ≠ none ↔ r.Completed = true) →
      ((runMutations r calls).CompletedAt ≠ none ↔ (runMutations r calls).Completed = true) := by
    intro calls
    induction calls with
    | nil => intro r h; exact h
    | cons c calls ih =>
      intro r h
      obtain ⟨m, t⟩ := c
      rw [runMutations_cons]
      exact ih _ (apply_completion m t r h)
  exact ⟨hnew, apply_completion, fun title now timestamp randomBytes calls =>
    hrun calls _ (hnew title now timestamp randomBytes)⟩

/-- C16 (witness). `busyReminder` was completed on the way: it has a completion instant. -/
theorem C16_completion_invariant_witness :
    busyReminder.CompletedAt ≠ none ↔ busyReminder.Completed = true :=
  C16_completion_invariant.2.2 "Water plants" 1700000000 1700000000000 sampleBytes
    [(.AddTag "home", 1700000005), (.SetDue 1700086400, 1700000005),
      (.Complete, 1700000060), (.SetNotes "done early", 1700000090)]

theorem runMutations_timestamps (calls : List (Mutation × Time)) (r : Reminder) (t0 : Time)
    (h0 : r.CreatedAt ≤ t0) (hup : r.CreatedAt ≤ r.UpdatedAt)
    (hchain : List.Chain (fun a b : Time => a ≤ b) t0 (calls.map Prod.snd)) :
    (runMutations r calls).CreatedAt = r.CreatedAt ∧ (runMutations r calls).ID = r.ID ∧
      (runMutations r calls).CreatedAt ≤ (runMutations r calls).UpdatedAt := by
  induction calls generalizing r t0 with
  | nil => exact ⟨rfl, rfl, hup⟩
  | cons c calls ih =>
    obtain ⟨m, t⟩ := c
    simp only [List.map_cons, List.chain_cons] at hchain
    obtain ⟨f1, f2, f3⟩ := apply_frame m t r
    rw [runMutations_cons]
    have ht : r.CreatedAt ≤ t := le_trans h0 hchain.1
    obtain ⟨g1, g2, g3⟩ := ih (m.apply t r) t (by rw [f3]; exact ht)
      (by rw [f3, f1]; exact ht) hchain.2
    exact ⟨by rw [g1, f3], by rw [g2, f2], g3⟩

/-- C17. Timestamp invariant. Every mutator sets `UpdatedAt` to the clock reading of the
call and leaves `ID` and `CreatedAt` unchanged; hence, when the clock readings of the
constructor and of the successive mutator calls never decrease, every reminder reached from
`NewReminder` keeps the `ID` and `CreatedAt` of its construction and has
`CreatedAt ≤ UpdatedAt`. -/
theorem C17_timestamp_invariant :
    (∀ (m : Mutation) (now : Time) (r : Reminder),
        (m.apply now r).UpdatedAt = now ∧ (m.apply now r).ID = r.ID ∧
          (m.apply now r).CreatedAt = r.CreatedAt) ∧
      (∀ (title : String) (now : Time) (timestamp : Int) (randomBytes : RandomBytes)
        (calls : List (Mutation × Time)),
        List.Chain (fun a b : Time => a ≤ b) now (calls.map Prod.snd) →
        (runMutations (NewReminder title now timestamp randomBytes) calls).CreatedAt = now ∧
        (runMutations (NewReminder title now timestamp randomBytes) calls).ID =
          generateID timestamp randomBytes ∧
        (runMutations (NewReminder title now timestamp randomBytes) calls).CreatedAt ≤
          (runMutations (NewReminder title now timestamp randomBytes) calls).UpdatedAt) := by
  refine ⟨apply_frame, ?_⟩
  intro title now timestamp randomBytes calls hchain
  exact runMutations_timestamps calls (NewReminder title now timestamp randomBytes) now
    (le_refl _) (le_refl _) hchain

/-- C17 (witness). `busyReminder`: the clock readings `1700000000`, `1700000005`,
`1700000005`, `1700000060`, `1700000090` never decrease. -/
theorem C17_timestamp_invariant_witness :
    busyReminder.CreatedAt = 1700000000 ∧
      busyReminder.ID = generateID 1700000000000 sampleBytes ∧
      busyReminder.CreatedAt ≤ busyReminder.UpdatedAt :=
  C17_timestamp_invariant.2 "Water plants" 1700000000 1700000000000 sampleBytes
    [(.AddTag "home", 1700000005), (.SetDue 1700086400, 1700000005),
      (.Complete, 1700000060), (.SetNotes "done early", 1700000090)] (by simp)

/-- C18 (counterexample). The log holds one line, the empty JSON object. The line parses
as a record, the zero `Reminder`, whose id is empty: under every map order `List(nil)`
returns that record and `Get("")` returns it as well. -/
theorem C18_empty_object_is_live :
    Reminder.zero.ID = "" ∧
      ∀ ord : MapOrder,
        Store.List goLib ord .noFault { file := some emptyObjectLog, tmp := none } none =
            .ok [Reminder.zero] ∧
          Store.Get goLib ord .noFault { file := some emptyObjectLog, tmp := none } "" =
            .ok Reminder.zero := by
  refine ⟨rfl, ?_⟩
  intro ord
  have hr : readable { file := some emptyObjectLog, tmp := none } = true := by rfl
  have hl : liveSet goLib { file := some emptyObjectLog, tmp := none } = [Reminder.zero] := by
    rfl
  have hall := readAll_of_readable goLib ord _ hr
  rw [hl, List.perm_singleton.mp (ord.perm [Reminder.zero])] at hall
  constructor
  · simp [Store.List, hall]
  · simp only [Store.Get, hall]
    rfl

/-- C18 (amended). Whenever `readAll` returns the live set, every record returned by `List`
(with or without a filter) or by `Get` is the record of a well-formed line of the log; so
when no well-formed line of the log yields a record with an empty id, every record returned
has a non-empty id, and `Get` returns a record with the id asked for. -/
theorem C18_live_ids_come_from_lines (lib : Lib) (ord : MapOrder) (fault : Fault) (d : Disk)
    (live : List Reminder) (h : readAll lib ord fault d = .ok live)
    (hne : ∀ x ∈ decodedLog lib d, x.ID ≠ "") :
    (∀ (f : Option ListFilter) (res : List Reminder),
        Store.List lib ord fault d f = .ok res →
        ∀ r ∈ res, r ∈ decodedLog lib d ∧ r.ID ≠ "") ∧
      (∀ (id : String) (r : Reminder), Store.Get lib ord fault d id = .ok r →
        r ∈ decodedLog lib d ∧ r.ID = id ∧ r.ID ≠ "") := by
  have hmem : ∀ r ∈ live, r ∈ decodedLog lib d := fun r hr =>
    (lastWithID_mem r.ID _ r ((mem_live_iff lib ord fault d live h r).mp hr)).1
  refine ⟨?_, ?_⟩
  · intro f res hres r hr
    have hrl : r ∈ live := by
      cases f with
      | none =>
        simp only [Store.List, h, Except.ok.injEq] at hres
        rw [hres]; exact hr
      | some f =>
        simp only [Store.List, h, Except.ok.injEq] at hres
        rw [← hres] at hr
        exact (List.mem_filter.mp hr).1
    exact ⟨hmem r hrl, hne r (hmem r hrl)⟩
  · intro id r hget
    simp only [Store.Get, h] at hget
    cases hf : findByID id live with
    | none => simp [hf] at hget
    | some r' =>
      simp only [hf, Except.ok.injEq] at hget
      subst hget
      obtain ⟨g1, g2⟩ := findByID_some id live r' hf
      exact ⟨hmem r' g1, g2, hne r' (hmem r' g1)⟩

/-- C18 (witness). On the replayed log every well-formed line carries an id, and the
records `List(nil)` returns, `payRentV2` and `callBank`, have non-empty ids. -/
theorem C18_live_ids_come_from_lines_witness :
    (payRentV2 ∈ decodedLog goLib { file := some replayedLog, tmp := none } ∧
        payRentV2.ID ≠ "") ∧
      (callBank ∈ decodedLog goLib { file := some replayedLog, tmp := none } ∧
        callBank.ID ≠ "") :=
  have h := (C18_live_ids_come_from_lines goLib MapOrder.insertion .noFault
    { file := some replayedLog, tmp := none } [payRentV2, callBank] (by rfl) (by decide)).1
    none [payRentV2, callBank] (by rfl)
  ⟨h payRentV2 (by decide), h callBank (by decide)⟩

theorem generateID_toList (m : Int) (b : RandomBytes) (hm : 0 ≤ m) :
    (generateID m b).toList = decimal m.toNat ++ '-' :: EncodeToString b.toList := by
  have : ¬ m < 0 := not_lt.mpr hm
  simp [generateID, formatInt, this]

/-- C19. Identifier format. For a non-negative millisecond reading `m` and four random bytes
`b`, the id is the decimal digits of `m`, one `'-'`, and the eight characters that encode the
bytes, two per byte, high nibble first, in the lower-case table `0123456789abcdef`; it holds
exactly one `'-'`; splitting it at `'-'` gives exactly the two parts, the second of length 8;
and two ids are equal only if their readings and their bytes are equal. -/
theorem C19_identifier_format (m : Int) (b : RandomBytes) (hm : 0 ≤ m) :
    (generateID m b).toList = decimal m.toNat ++ '-' :: EncodeToString b.toList ∧
      ((decimalValue (decimal m.toNat) : Int) = m ∧
        ∀ c ∈ decimal m.toNat, c.isDigit = true) ∧
      (EncodeToString b.toList =
          [hexChar (b.b0.val / 16), hexChar (b.b0.val % 16), hexChar (b.b1.val / 16),
            hexChar (b.b1.val % 16), hexChar (b.b2.val / 16), hexChar (b.b2.val % 16),
            hexChar (b.b3.val / 16), hexChar (b.b3.val % 16)] ∧
        (EncodeToString b.toList).length = 8 ∧
        ∀ c ∈ EncodeToString b.toList, c ∈ "0123456789abcdef".toList) ∧
      (generateID m b).toList.count '-' = 1 ∧
      Split '-' (generateID m b).toList = [decimal m.toNat, EncodeToString b.toList] ∧
      (∀ (m' : Int) (b' : RandomBytes), 0 ≤ m' → generateID m b = generateID m' b' →
        m = m' ∧ b = b') := by
  have hd := dash_not_mem_decimal m.toNat
  have hx := dash_not_mem_EncodeToString b
  refine ⟨generateID_toList m b hm, ⟨?_, ?_⟩, ⟨EncodeToString_bytes b, ?_, ?_⟩, ?_, ?_, ?_⟩
  · rw [decimalValue_decimal]
    exact Int.toNat_of_nonneg hm
  · intro c hc
    obtain ⟨k, hk, hck⟩ := decimal_digits m.toNat c hc
    rw [hck]
    exact digitChar_isDigit k hk
  · rw [EncodeToString_bytes]; rfl
  · intro c hc
    obtain ⟨k, hk, hck⟩ := mem_EncodeToString b c hc
    rw [hck]
    exact hexChar_mem k hk
  · rw [generateID_toList m b hm, List.count_append, List.count_cons_self,
      List.count_eq_zero_of_not_mem hd, List.count_eq_zero_of_not_mem hx]
  · rw [generateID_toList m b hm, Split_at_sep '-' _ _ hd, Split_no_sep '-' _ hx]
  · intro m' b' hm' heq
    have hl : (generateID m b).toList = (generateID m' b').toList := by rw [heq]
    rw [generateID_toList m b hm, generateID_toList m' b' hm'] at hl
    obtain ⟨e1, e2⟩ := append_sep_injective '-' _ _ _ _ hd (dash_not_mem_decimal m'.toNat) hl
    have hn := decimal_injective _ _ e1
    refine ⟨?_, EncodeToString_injective b b' e2⟩
    rw [← Int.toNat_of_nonneg hm, ← Int.toNat_of_nonneg hm', hn]

/-- C19 (witness). The reading `1700000000000` and the bytes `0a 1b 2c 3d`. -/
theorem C19_identifier_format_witness :
    generateID 1700000000000 sampleBytes = "1700000000000-0a1b2c3d" ∧
      Split '-' (generateID 1700000000000 sampleBytes).toList =
        [decimal (1700000000000 : Int).toNat, EncodeToString sampleBytes.toList] :=
  ⟨by decide, (C19_identifier_format 1700000000000 sampleBytes (by decide)).2.2.2.2.1⟩

/-- C20 (counterexample). The readings `-2 < -1` (a clock set before 1970) have one decimal
digit each, yet the id minted at `-2` is not smaller than the id minted at `-1`: it is
greater. -/
theorem C20_negative_readings_reverse_the_order :
    (-2 : Int) < -1 ∧
      (decimal (Int.natAbs (-2))).length = (decimal (Int.natAbs (-1))).length ∧
      generateID (-2) zeroBytes = "-2-00000000" ∧ generateID (-1) zeroBytes = "-1-00000000" ∧
      ¬ (generateID (-2) zeroBytes < generateID (-1) zeroBytes) ∧
      generateID (-1) zeroBytes < generateID (-2) zeroBytes := by
  refine ⟨by decide, by decide, by decide, by decide, ?_, ?_⟩
  · rw [← lexLess_iff_string_lt]; decide
  · rw [← lexLess_iff_string_lt]; decide

/-- C20 (amended). Identifier ordering follows creation time for non-negative readings: for
millisecond readings `0 ≤ m1 < m2` with the same number of decimal digits and any random
bytes, the id minted at `m1` is strictly smaller than the id minted at `m2` in the order of
strings. -/
theorem C20_identifier_order (m1 m2 : Int) (b1 b2 : RandomBytes) (h0 : 0 ≤ m1)
    (hlt : m1 < m2) (hlen : (decimal m1.toNat).length = (decimal m2.toNat).length) :
    generateID m1 b1 < generateID m2 b2 := by
  have h2 : 0 ≤ m2 := le_trans h0 (le_of_lt hlt)
  have hn : m1.toNat < m2.toNat := by omega
  rw [← lexLess_iff_string_lt, generateID_toList m1 b1 h0, generateID_toList m2 b2 h2]
  exact lexLess_append _ _ _ _ hlen (lexLess_decimal _ _ hn hlen)

/-- C20 (witness). Two ids minted one millisecond apart, the earlier with the larger random
suffix. -/
theorem C20_identifier_order_witness :
    generateID 1700000000000 sampleBytes < generateID 1700000000001 zeroBytes :=
  C20_identifier_order 1700000000000 1700000000001 sampleBytes zeroBytes (by decide)
    (by decide) (by decide)

/-! ## Claims on the list command and on the Todoist filter -/

/-- What the filter of `rc list --today` lets through: a reminder that `matchesFilter`
accepts has no due date, or a due date from local midnight today up to and including the
midnight that ends the day. -/
theorem today_filter_accepts (lib : Lib) (flags : ListFlags) (today : Time)
    (addDate : Time → Int → Time) (r : Reminder) (hf : flags.listToday = true)
    (h : matchesFilter lib r (runListFilter flags today addDate) = true) :
    r.Due = none ∨ ∃ d, r.Due = some d ∧ today ≤ d ∧ d ≤ addDate today 1 := by
  cases hd : r.Due with
  | none => exact Or.inl rfl
  | some d =>
    right
    rw [matchesFilter_eq] at h
    simp only [runListFilter, hf, if_true, hd, Bool.and_eq_true, Bool.not_eq_true',
      decide_eq_false_iff_not, not_lt] at h
    exact ⟨d, rfl, h.1.2, h.1.1.2⟩

/-- C21 (the failing input). On January 15, 2024 (UTC) `rc list --today` builds the filter
with `DueAfter = 2024-01-15T00:00:00Z` and `DueBefore = 2024-01-16T00:00:00Z`. The local
store's `matchesFilter` accepts `callBank`, which has no due date at all, and
`dueNextMidnight`, which is due at the midnight that ends the day, not before it. -/
theorem C21_today_shows_undated_and_next_midnight :
    runListFilter todayFlags 1705276800 utcAddDate =
        { IncludeCompleted := false, Tags := [], DueBefore := some 1705363200,
          DueAfter := some 1705276800, Search := "" } ∧
      (callBank.Due = none ∧
        matchesFilter goLib callBank (runListFilter todayFlags 1705276800 utcAddDate) = true) ∧
      (dueNextMidnight.Due = some 1705363200 ∧ ¬ ((1705363200 : Time) < 1705363200) ∧
        matchesFilter goLib dueNextMidnight (runListFilter todayFlags 1705276800 utcAddDate) =
          true) := by
  refine ⟨by rfl, ⟨rfl, by rfl⟩, ⟨rfl, by decide, by rfl⟩⟩

theorem tagLoop_eq_any (p : String → Bool) (l : List String) (b : Bool) :
    l.foldl (fun hasTag ft => if p ft then true else hasTag) b = (b || l.any p) := by
  induction l generalizing b with
  | nil => simp
  | cons x l ih =>
    simp only [List.foldl_cons, ih, List.any_cons]
    cases hx : p x <;> cases b <;> simp

/-- Where the two stores agree: on a filter without due bounds, or on a reminder without due
date, when `strings.EqualFold` is symmetric, the Todoist store's `matchesFilter` returns
what the local store's returns. -/
theorem Todoist_matchesFilter_agrees (lib : Lib) (r : Reminder) (f : ListFilter)
    (hsym : ∀ a b, lib.equalFold a b = lib.equalFold b a)
    (hdue : r.Due = none ∨ (f.DueBefore = none ∧ f.DueAfter = none)) :
    Todoist.matchesFilter lib r (some f) = matchesFilter lib r f := by
  have htags : (f.Tags.foldl (fun hasTag ft =>
      if r.Tags.any (fun rt => lib.equalFold ft rt) then true else hasTag) false) =
      f.Tags.any fun filterTag =>
        r.Tags.any fun reminderTag => lib.equalFold reminderTag filterTag := by
    rw [tagLoop_eq_any]
    simp only [Bool.false_or]
    congr 1
    funext ft
    congr 1
    funext rt
    exact hsym ft rt
  have hb : (match f.DueBefore, r.Due with
      | some before, some due => decide (due > before)
      | _, _ => false) = false := by
    rcases hdue with h | h
    · rw [h]; cases f.DueBefore <;> rfl
    · rw [h.1]
  have ha : (match f.DueAfter, r.Due with
      | some after, some due => decide (due < after)
      | _, _ => false) = false := by
    rcases hdue with h | h
    · rw [h]; cases f.DueAfter <;> rfl
    · rw [h.2]
  rw [matchesFilter_eq, hb, ha]
  simp only [Todoist.matchesFilter, htags]
  split_ifs with h1 h2 h3
  · rw [h1]; rfl
  · rw [Bool.eq_false_iff.mpr h1, h2]; rfl
  · rw [Bool.eq_false_iff.mpr h1, Bool.eq_false_iff.mpr h2, h3]; rfl
  · rw [Bool.eq_false_iff.mpr h1, Bool.eq_false_iff.mpr h2, Bool.eq_false_iff.mpr h3]; rfl

/-- C22 (the failing input). `payRent` is due at `1705276800`; the filter has the single
constraint `DueBefore = 1705276799`, one second earlier. The local store's `matchesFilter`
rejects the reminder, the Todoist store's `matchesFilter` accepts it: the Todoist store
applies no due bound. -/
theorem C22_todoist_ignores_due_bounds :
    payRent.Due = some 1705276800 ∧
      matchesFilter goLib payRent (dueBeforeOnly (some 1705276799)) = false ∧
      Todoist.matchesFilter goLib payRent (some (dueBeforeOnly (some 1705276799))) = true ∧
      (∀ (lib : Lib) (r : Reminder) (d t : Time), r.Due = some d → t < d →
        matchesFilter lib r (dueBeforeOnly (some t)) = false ∧
          Todoist.matchesFilter lib r (some (dueBeforeOnly (some t))) = true) := by
  refine ⟨rfl, by rfl, by rfl, ?_⟩
  intro lib r d t hd hlt
  constructor
  · simp [matchesFilter, dueBeforeOnly, hd, hlt]
  · simp [Todoist.matchesFilter, dueBeforeOnly]

/-! ## Rewrites that leave an overlong line -/

/-! ### The codec on a record with long notes -/

theorem marshal_with_notes (r : Reminder) (h : r.Notes ≠ "") (due completedAt : Option (List Char))
    (createdAt updatedAt : List Char)
    (h1 : r.Due.mapM GoJSON.encodeTime = some due)
    (h2 : r.CompletedAt.mapM GoJSON.encodeTime = some completedAt)
    (h3 : GoJSON.encodeTime r.CreatedAt = some createdAt)
    (h4 : GoJSON.encodeTime r.UpdatedAt = some updatedAt) :
    GoJSON.marshal r =
      some (beforeNotes r due ++ ((r.Notes.toList.map GoJSON.encodeChar).flatten ++
        afterNotes r completedAt createdAt updatedAt)) := by
  unfold GoJSON.marshal
  rw [h1, h2, h3, h4]
  simp only [if_neg h]
  have hk : GoJSON.field "notes" (GoJSON.encodeString r.Notes) =
      ",\"notes\":\"".toList ++ ((r.Notes.toList.map GoJSON.encodeChar).flatten ++ ['"']) := by
    rfl
  rw [hk]
  simp only [beforeNotes, afterNotes, List.append_assoc, List.cons_append, List.nil_append,
    List.singleton_append]

theorem marshal_noted (X : List Char) (hX : X ≠ []) :
    GoJSON.marshal (noted X) =
      some (notedHead ++ ((X.map GoJSON.encodeChar).flatten ++ notedTail)) := by
  have hne : (noted X).Notes ≠ "" := by
    intro h
    apply hX
    have := congrArg String.data h
    simpa [noted] using this
  have ht : GoJSON.encodeTime 1700000001 = some "\"2023-11-14T22:13:21Z\"".toList := by rfl
  rw [marshal_with_notes (noted X) hne none none "\"2023-11-14T22:13:21Z\"".toList
    "\"2023-11-14T22:13:21Z\"".toList (by rfl) (by rfl) ht ht]
  rfl

theorem marshal_noted_done (X : List Char) (hX : X ≠ []) :
    GoJSON.marshal ((noted X).Complete 1700001000) =
      some (notedHead ++ ((X.map GoJSON.encodeChar).flatten ++ notedDoneTail)) := by
  have hne : ((noted X).Complete 1700001000).Notes ≠ "" := by
    intro h
    apply hX
    have := congrArg String.data h
    simpa [noted, Reminder.Complete] using this
  have ht : GoJSON.encodeTime 1700000001 = some "\"2023-11-14T22:13:21Z\"".toList := by rfl
  have ht2 : GoJSON.encodeTime 1700001000 = some "\"2023-11-14T22:30:00Z\"".toList := by rfl
  rw [marshal_with_notes ((noted X).Complete 1700001000) hne none
    (some "\"2023-11-14T22:30:00Z\"".toList) "\"2023-11-14T22:13:21Z\"".toList
    "\"2023-11-14T22:30:00Z\"".toList (by rfl) (by rfl) ht ht2]
  rfl

theorem parseStringBody_plain (X rest : List Char)
    (hX : ∀ c ∈ X, c ≠ '"' ∧ c ≠ '\\' ∧ ¬ c.toNat < 0x20) :
    GoJSON.parseStringBody (X ++ '"' :: rest) = some (X, rest) := by
  induction X with
  | nil => simp [GoJSON.parseStringBody]
  | cons c X ih =>
    obtain ⟨h1, h2, h3⟩ := hX c (by simp)
    have ih' := ih (fun x hx => hX x (by simp [hx]))
    rw [List.cons_append]
    unfold GoJSON.parseStringBody
    split
    · rename_i heq; cases heq
    · rename_i heq
      simp only [List.cons.injEq] at heq
      exact absurd heq.1 h1
    · rename_i heq
      simp only [List.cons.injEq] at heq
      exact absurd heq.1 h2
    · rename_i heq
      simp only [List.cons.injEq] at heq
      exact absurd heq.1 h2
    · rename_i c' rest' _ _ _ heq
      simp only [List.cons.injEq] at heq
      obtain ⟨hc, hr⟩ := heq
      subst hc
      subst hr
      have hcond : ¬ (c.toNat < 0x20 ∨ c = '\\') := by
        rintro (h | h)
        · exact h3 h
        · exact h2 h
      rw [if_neg hcond, ih']

theorem parseMembers_to_notes (n : Nat) (acc : Reminder) (T : List Char) :
    GoJSON.parseMembers (n + 3) acc (notedHead.tail ++ T) =
      GoJSON.parseMembers (n + 1)
        { acc with ID := "1700000000001-00ff00ff", Title := "Call bank" }
        ("\"notes\":\"".toList ++ T) := by
  rfl

theorem parseMember_notes (acc : Reminder) (V : List Char) :
    GoJSON.parseMember acc ("\"notes\":\"".toList ++ V) =
      ((GoJSON.parseStringBody V).map fun p => (String.mk p.1, p.2)).map
        fun p => ({ acc with Notes := p.1 }, p.2) := by
  rfl

theorem parseMembers_notes (n : Nat) (acc : Reminder) (X T : List Char)
    (hX : ∀ c ∈ X, c ≠ '"' ∧ c ≠ '\\' ∧ ¬ c.toNat < 0x20) :
    GoJSON.parseMembers (n + 1) acc ("\"notes\":\"".toList ++ (X ++ '"' :: ',' :: T)) =
      GoJSON.parseMembers n { acc with Notes := String.mk X } T := by
  rw [GoJSON.parseMembers, parseMember_notes, parseStringBody_plain X _ hX]
  rfl

theorem parseMembers_after_notes (n : Nat) (acc : Reminder) :
    GoJSON.parseMembers (n + 4) acc (notedTail.drop 2) =
      some { acc with Tags := ["work"], Completed := false, CreatedAt := 1700000001,
                      UpdatedAt := 1700000001 } := by
  rfl

theorem parseMembers_after_notes_done (n : Nat) (acc : Reminder) :
    GoJSON.parseMembers (n + 5) acc (notedDoneTail.drop 2) =
      some { acc with Tags := ["work"], Completed := true, CompletedAt := some 1700001000,
                      CreatedAt := 1700000001, UpdatedAt := 1700001000 } := by
  rfl

theorem unmarshal_notedLine (X : List Char)
    (hX : ∀ c ∈ X, c ≠ '"' ∧ c ≠ '\\' ∧ ¬ c.toNat < 0x20) :
    GoJSON.unmarshal (notedLine X) = some (noted X) := by
  have h0 : GoJSON.unmarshal (notedLine X) =
      GoJSON.parseMembers (notedHead.tail ++ (X ++ notedTail)).length Reminder.zero
        (notedHead.tail ++ (X ++ notedTail)) := by
    rfl
  have hlen : (notedHead.tail ++ (X ++ notedTail)).length = (X.length + 159 + 4) + 1 + 3 := by
    have e1 : notedHead.tail.length = 59 := by rfl
    have e2 : notedTail.length = 108 := by rfl
    simp only [List.length_append, e1, e2]
    omega
  have htail : notedTail = '"' :: ',' :: notedTail.drop 2 := by rfl
  rw [h0, hlen, parseMembers_to_notes, htail, parseMembers_notes _ _ X _ hX,
    parseMembers_after_notes]
  rfl

/-! ### The read after a rewrite that leaves an overlong line -/

theorem terminated_compacted (lib : Lib) (rs : List Reminder) :
    terminated (compacted lib rs) = true := by
  induction rs using List.reverseRecOn with
  | nil => simp [compacted, terminated]
  | append_singleton rs r _ =>
    have : compacted lib (rs ++ [r]) = compacted lib rs ++ ((lib.marshal r).getD [] ++ ['\n']) := by
      simp [compacted, lineOf]
    rw [this]
    exact terminated_append_line _ _

theorem scan_compacted_long (lib : Lib) (rs : List Reminder) (x : Reminder) (data : List Char)
    (hx : x ∈ rs) (hm : lib.marshal x = some data) (hn : '\n' ∉ data)
    (hl : MaxScanTokenSize ≤ byteLen data) : (scan (compacted lib rs)).2 = true := by
  obtain ⟨a, b, hab⟩ := List.append_of_mem hx
  have hc : compacted lib rs = compacted lib a ++ (data ++ '\n' :: compacted lib b) := by
    rw [hab]
    simp [compacted, lineOf, hm]
  unfold scan
  rw [hc, rawLines_append _ _ (terminated_compacted lib a), rawLines_line data _ hn]
  exact scanTokens_long _ _ data hl

theorem Get_unreadable (lib : Lib) (ord : MapOrder) (fault : Fault) (d : Disk)
    (data : List Char) (id : String) (hf : d.file = some data) (hs : (scan data).2 = true)
    (ho : fault ≠ .openFails) : Store.Get lib ord fault d id = .error (.wrapped "reading file") := by
  simp [Store.Get, readAll_unreadable lib ord fault d data hf hs ho]

theorem writeLoop_noFault (lib : Lib) (rs : List Reminder) (i : Nat) (acc : List Char)
    (h : ∀ x ∈ rs, lib.marshal x ≠ none) :
    writeLoop lib .noFault rs i acc = .ok (acc ++ compacted lib rs) := by
  induction rs generalizing i acc with
  | nil => simp [writeLoop, compacted]
  | cons r rs ih =>
    obtain ⟨data, hdata⟩ := Option.ne_none_iff_exists'.mp (h r (by simp))
    have hrs : ∀ x ∈ rs, lib.marshal x ≠ none := fun x hx => h x (by simp [hx])
    simp only [writeLoop, hdata]
    rw [if_neg (by simp), ih _ _ hrs]
    simp [compacted, lineOf, hdata]

theorem writeAll_noFault (lib : Lib) (d : Disk) (rs : List Reminder)
    (h : ∀ x ∈ rs, lib.marshal x ≠ none) :
    writeAll lib .noFault d rs = (.ok (), { file := some (compacted lib rs), tmp := none }) := by
  unfold writeAll
  rw [if_neg (by simp), writeLoop_noFault lib rs 0 [] h]
  simp

/-- The failure that a rewrite can cause, for every library: when a compacted log holds a
record whose line has no line feed and is of `MaxScanTokenSize` bytes or more, `Get` of any id
returns the wrapped read error. -/
theorem Get_after_long_rewrite (lib : Lib) (ord : MapOrder) (rs : List Reminder) (x : Reminder)
    (data : List Char) (t : Option (List Char)) (id : String) (hx : x ∈ rs)
    (hm : lib.marshal x = some data) (hn : '\n' ∉ data)
    (hl : MaxScanTokenSize ≤ byteLen data) :
    Store.Get lib ord .noFault { file := some (compacted lib rs), tmp := t } id =
      .error (.wrapped "reading file") :=
  Get_unreadable lib ord .noFault _ (compacted lib rs) id rfl
    (scan_compacted_long lib rs x data hx hm hn hl) (by simp)

theorem flatten_map_replicate (f : Char → List Char) (n : Nat) (c : Char) :
    byteLen ((List.replicate n c).map f).flatten = n * byteLen (f c) := by
  induction n with
  | zero => simp [byteLen]
  | succ n ih =>
    rw [List.replicate_succ, List.map_cons, List.flatten_cons, byteLen_append, ih]
    ring

theorem not_mem_flatten_map_replicate (f : Char → List Char) (n : Nat) (c a : Char)
    (h : a ∉ f c) : a ∉ ((List.replicate n c).map f).flatten := by
  intro hmem
  obtain ⟨l, hl, hal⟩ := List.mem_flatten.mp hmem
  obtain ⟨y, hy, hyl⟩ := List.mem_map.mp hl
  rw [List.eq_of_mem_replicate hy] at hyl
  rw [← hyl] at hal
  exact h hal

theorem TrimSpace_of_ends (a z : Char) (m : List Char) (ha : isSpace a = false)
    (hz : isSpace z = false) : TrimSpace (a :: (m ++ [z])) = a :: (m ++ [z]) := by
  unfold TrimSpace
  have h1 : (a :: (m ++ [z])).dropWhile isSpace = a :: (m ++ [z]) := by
    simp [List.dropWhile, ha]
  rw [h1]
  have h2 : (a :: (m ++ [z])).reverse = z :: (a :: m).reverse := by simp
  rw [h2]
  have h3 : (z :: (a :: m).reverse).dropWhile isSpace = z :: (a :: m).reverse := by
    simp [List.dropWhile, hz]
  rw [h3]
  simp

theorem dropCR_of_last (m : List Char) (z : Char) (hz : z ≠ '\r') :
    dropCR (m ++ [z]) = m ++ [z] := by
  unfold dropCR
  rw [if_neg]
  simp [List.getLast?_append, hz]

theorem notedLine_ends (X : List Char) :
    notedLine X = '\x7b' :: ((notedHead.tail ++ (X ++ notedTail.dropLast)) ++ ['\x7d']) := by
  have h1 : notedHead = '\x7b' :: notedHead.tail := by rfl
  have h2 : notedTail = notedTail.dropLast ++ ['\x7d'] := by rfl
  unfold notedLine
  conv_lhs => rw [h1, h2]
  simp

theorem decodeLine_notedLine (X : List Char)
    (hX : ∀ c ∈ X, c ≠ '"' ∧ c ≠ '\\' ∧ ¬ c.toNat < 0x20) :
    decodeLine goLib (dropCR (notedLine X)) = some (noted X) := by
  have hd : dropCR (notedLine X) = notedLine X := by
    rw [notedLine_ends, ← List.cons_append]
    exact dropCR_of_last _ _ (by decide)
  have ht : TrimSpace (notedLine X) = notedLine X := by
    rw [notedLine_ends]
    exact TrimSpace_of_ends _ _ _ (by decide) (by decide)
  have hne : notedLine X ≠ [] := by rw [notedLine_ends]; simp
  unfold decodeLine
  rw [hd, ht, if_neg hne]
  exact unmarshal_notedLine X hX

theorem byteLen_notedLine (X : List Char) : byteLen (notedLine X) = byteLen X + 168 := by
  have e1 : byteLen notedHead = 60 := by rfl
  have e2 : byteLen notedTail = 108 := by rfl
  unfold notedLine
  rw [byteLen_append, byteLen_append, e1, e2]
  omega

theorem not_mem_notedLine (X : List Char) (h : '\n' ∉ X) : '\n' ∉ notedLine X := by
  unfold notedLine
  simp only [List.mem_append, not_or]
  exact ⟨by decide, h, by decide⟩

theorem Update_noFault (lib : Lib) (ord : MapOrder) (d : Disk) (live : List Reminder)
    (r : Reminder) (h : readAll lib ord .noFault d = .ok live) (hfound : ∃ x ∈ live, x.ID = r.ID)
    (hm : ∀ y ∈ live.map (fun x => if x.ID = r.ID then r else x), lib.marshal y ≠ none) :
    Store.Update lib ord .noFault d r =
      (.ok (), { file := some (compacted lib (live.map fun x => if x.ID = r.ID then r else x)),
                 tmp := none }) := by
  have hnd := live_nodup_ids lib ord .noFault d live h
  have h2 : (updateLoop r live).2 = true := (updateLoop_found r live).mpr hfound
  simp only [Store.Update, h, h2, if_true, updateLoop_map r live hnd]
  exact writeAll_noFault lib d _ hm

theorem Delete_noFault (lib : Lib) (ord : MapOrder) (d : Disk) (live : List Reminder)
    (id : String) (h : readAll lib ord .noFault d = .ok live) (hfound : ∃ x ∈ live, x.ID = id)
    (hm : ∀ y ∈ live.filter (fun x => decide (x.ID ≠ id)), lib.marshal y ≠ none) :
    Store.Delete lib ord .noFault d id =
      (.ok (), { file := some (compacted lib (live.filter fun x => decide (x.ID ≠ id))),
                 tmp := none }) := by
  have h2 : (deleteLoop id live).2 = true := (deleteLoop_found id live).mpr hfound
  simp only [Store.Delete, h, h2, if_true, deleteLoop_fst]
  exact writeAll_noFault lib d _ hm

theorem Complete_noFault (lib : Lib) (ord : MapOrder) (now : Time) (d : Disk)
    (live : List Reminder) (r : Reminder) (h : readAll lib ord .noFault d = .ok live)
    (hr : r ∈ live)
    (hm : ∀ y ∈ live.map (fun x => if x.ID = r.ID then r.Complete now else x),
      lib.marshal y ≠ none) :
    Store.Complete lib ord .noFault now d r.ID =
      (.ok (), { file := some (compacted lib
                   (live.map fun x => if x.ID = r.ID then r.Complete now else x)),
                 tmp := none }) := by
  have hnd := live_nodup_ids lib ord .noFault d live h
  have hf := findByID_of_mem live r hnd hr
  have hu := updateLoop_map (r.Complete now) live hnd
  have hid : (r.Complete now).ID = r.ID := rfl
  rw [hid] at hu
  simp only [Store.Complete, h, completeLoop_eq, hf, hu]
  exact writeAll_noFault lib d _ hm

theorem Delete_unreadable (lib : Lib) (ord : MapOrder) (fault : Fault) (d : Disk)
    (data : List Char) (id : String) (hf : d.file = some data) (hs : (scan data).2 = true)
    (ho : fault ≠ .openFails) :
    Store.Delete lib ord fault d id = (.error (.wrapped "reading file"), d) := by
  simp [Store.Delete, readAll_unreadable lib ord fault d data hf hs ho]

theorem filter_of_perm_pair (l : List Reminder) (a b : Reminder) (hp : l.Perm [a, b])
    (hab : a.ID ≠ b.ID) : l.filter (fun x => decide (x.ID ≠ b.ID)) = [a] := by
  have h := hp.filter (fun x => decide (x.ID ≠ b.ID))
  have hf : [a, b].filter (fun x => decide (x.ID ≠ b.ID)) = [a] := by
    simp [List.filter_cons, hab]
  rw [hf] at h
  exact List.perm_singleton.mp h

/-- The failure after `Update`, for every library: when `Update(r)` succeeds and the line of
`r` has no line feed and is of `MaxScanTokenSize` bytes or more, `Get` of any id on the
rewritten log returns the wrapped read error. -/
theorem Update_long_line_blocks_get (lib : Lib) (ord ord' : MapOrder) (fault : Fault)
    (d d' : Disk) (live : List Reminder) (r : Reminder) (data : List Char) (id : String)
    (h : readAll lib ord fault d = .ok live)
    (hu : Store.Update lib ord fault d r = (.ok (), d'))
    (hm : lib.marshal r = some data) (hn : '\n' ∉ data)
    (hl : MaxScanTokenSize ≤ byteLen data) :
    Store.Get lib ord' .noFault d' id = .error (.wrapped "reading file") := by
  obtain ⟨⟨x, hx, hxr⟩, hd'⟩ := Update_ok lib ord fault d d' live r h hu
  rw [hd']
  exact Get_after_long_rewrite lib ord' _ r data none id
    (List.mem_map.mpr ⟨x, hx, by simp [hxr]⟩) hm hn hl

/-- The failure after `Delete`, for every library: when `Delete(id)` succeeds and another live
record has a line, as `json.Marshal` writes it, without line feed and of `MaxScanTokenSize`
bytes or more, `Get` of any id on the rewritten log returns the wrapped read error; in
particular `Get(id)` does not return `ErrNotFound`. -/
theorem Delete_long_line_blocks_get (lib : Lib) (ord ord' : MapOrder) (fault : Fault)
    (d d' : Disk) (live : List Reminder) (x : Reminder) (data : List Char) (id id' : String)
    (h : readAll lib ord fault d = .ok live)
    (hdel : Store.Delete lib ord fault d id = (.ok (), d'))
    (hx : x ∈ live) (hxid : x.ID ≠ id)
    (hm : lib.marshal x = some data) (hn : '\n' ∉ data)
    (hl : MaxScanTokenSize ≤ byteLen data) :
    Store.Get lib ord' .noFault d' id' = .error (.wrapped "reading file") := by
  obtain ⟨_, hd'⟩ := Delete_ok lib ord fault d d' live id h hdel
  rw [hd']
  exact Get_after_long_rewrite lib ord' _ x data none id'
    (List.mem_filter.mpr ⟨hx, by simpa using hxid⟩) hm hn hl

/-- The failure after `Complete`, for every library: when `Complete(id)` succeeds on the live
record `r` and the line of the completed record has no line feed and is of
`MaxScanTokenSize` bytes or more, `Get` of any id on the rewritten log returns the wrapped
read error. -/
theorem Complete_long_line_blocks_get (lib : Lib) (ord ord' : MapOrder) (fault : Fault)
    (now : Time) (d d' : Disk) (live : List Reminder) (r : Reminder) (data : List Char)
    (id' : String) (h : readAll lib ord fault d = .ok live)
    (hc : Store.Complete lib ord fault now d r.ID = (.ok (), d'))
    (hr : r ∈ live) (hm : lib.marshal (r.Complete now) = some data) (hn : '\n' ∉ data)
    (hl : MaxScanTokenSize ≤ byteLen data) :
    Store.Get lib ord' .noFault d' id' = .error (.wrapped "reading file") := by
  obtain ⟨r0, hr0, hr0id, hd'⟩ := Complete_ok lib ord fault now d d' live r.ID h hc
  have hnd := live_nodup_ids lib ord fault d live h
  have hrr : r0 = r := eq_of_same_id live r0 r hnd hr0 hr hr0id
  subst hrr
  rw [hd']
  exact Get_after_long_rewrite lib ord' _ (r0.Complete now) data none id'
    (List.mem_map.mpr ⟨r0, hr0, by simp⟩) hm hn hl

/-! ### The store on the failing inputs -/

theorem plain_replicate (n : Nat) (c : Char) (h : c ≠ '"' ∧ c ≠ '\\' ∧ ¬ c.toNat < 0x20) :
    ∀ y ∈ List.replicate n c, y ≠ '"' ∧ y ≠ '\\' ∧ ¬ y.toNat < 0x20 := by
  intro y hy
  rw [List.eq_of_mem_replicate hy]
  exact h

theorem encode_replicate (n : Nat) (c : Char) (h : GoJSON.encodeChar c = [c]) :
    ((List.replicate n c).map GoJSON.encodeChar).flatten = List.replicate n c := by
  induction n with
  | zero => rfl
  | succ n ih => rw [List.replicate_succ, List.map_cons, List.flatten_cons, ih, h]; rfl

theorem marshal_noted_letters (n : Nat) (hn : 0 < n) :
    goLib.marshal (noted (List.replicate n 'x')) = some (notedLine (List.replicate n 'x')) := by
  have hne : List.replicate n 'x' ≠ [] := by
    intro h
    have := congrArg List.length h
    simp at this
    omega
  have hg : goLib.marshal = GoJSON.marshal := rfl
  rw [hg, marshal_noted _ hne, encode_replicate n 'x' (by decide)]
  rfl

theorem faithful_noted_letters (n : Nat) (hn : 0 < n) :
    faithful goLib (noted (List.replicate n 'x')) = true := by
  have hno : '\n' ∉ notedLine (List.replicate n 'x') :=
    not_mem_notedLine _ (fun h => absurd (List.eq_of_mem_replicate h) (by decide))
  unfold faithful
  rw [marshal_noted_letters n hn]
  simp only [Bool.and_eq_true, Bool.not_eq_true', decide_eq_true_eq]
  refine ⟨?_, decodeLine_notedLine _ (plain_replicate n 'x' (by decide))⟩
  cases hc : (notedLine (List.replicate n 'x')).contains '\n' with
  | false => rfl
  | true =>
    exact absurd (by simpa using hc) hno

theorem readAll_single (ord : MapOrder) (r : Reminder) (h : storable goLib r = true) :
    readAll goLib ord .noFault { file := some (lineOf goLib r), tmp := none } = .ok [r] := by
  have := readAll_compacted goLib ord [r] none (by simpa using h) (by simp)
  have hc : compacted goLib [r] = lineOf goLib r := by simp [compacted]
  rw [hc] at this
  rw [this, List.perm_singleton.mp (ord.perm [r])]

/-- C5 (the failing input). The log holds `callBank`. `Update` with a reminder of the same id
whose notes are `MaxScanTokenSize` letters succeeds, the library encodes that reminder
faithfully, and the log is rewritten to its one line; afterwards `Get` of the id returns the
wrapped read error under every map order, not the reminder given to `Update`. -/
theorem C5_update_with_long_notes_blocks_get :
    faithful goLib longNoted = true ∧
      ∀ ord ord' : MapOrder,
        readAll goLib ord .noFault { file := some (lineOf goLib callBank), tmp := none } =
          .ok [callBank] ∧
        Store.Update goLib ord .noFault { file := some (lineOf goLib callBank), tmp := none }
          longNoted = (.ok (), { file := some (lineOf goLib longNoted), tmp := none }) ∧
        Store.Get goLib ord' .noFault { file := some (lineOf goLib longNoted), tmp := none }
          longNoted.ID = .error (.wrapped "reading file") := by
  have hpos : 0 < MaxScanTokenSize := by decide
  have hm : goLib.marshal longNoted = some (notedLine (List.replicate MaxScanTokenSize 'x')) :=
    marshal_noted_letters MaxScanTokenSize hpos
  refine ⟨faithful_noted_letters MaxScanTokenSize hpos, ?_⟩
  intro ord ord'
  have hall := readAll_single ord callBank (by rfl)
  have hc : compacted goLib [longNoted] = lineOf goLib longNoted := by simp [compacted]
  have hid : callBank.ID = longNoted.ID := rfl
  have hmap : ([callBank].map fun x => if x.ID = longNoted.ID then longNoted else x) =
      [longNoted] := by
    rw [List.map_cons, List.map_nil, if_pos hid]
  refine ⟨hall, ?_, ?_⟩
  · rw [Update_noFault goLib ord _ [callBank] longNoted hall ⟨callBank, by simp, hid⟩
      (by rw [hmap]; simp [hm]), hmap, hc]
  · rw [← hc]
    apply Get_after_long_rewrite goLib ord' [longNoted] longNoted _ none _ (by simp) hm
    · exact not_mem_notedLine _ (fun h => absurd (List.eq_of_mem_replicate h) (by decide))
    · rw [byteLen_notedLine, byteLen_replicate_ascii _ 'x' (by decide)]
      omega

theorem readAll_angleLog (ord : MapOrder) :
    readAll goLib ord .noFault { file := some angleLog, tmp := none } =
      .ok (ord.range [angleNoted, payRent]) := by
  have hno : '\n' ∉ notedLine (List.replicate angleCount '<') :=
    not_mem_notedLine _ (fun h => absurd (List.eq_of_mem_replicate h) (by decide))
  have hlines : rawLines angleLog =
      [notedLine (List.replicate angleCount '<'), (goLib.marshal payRent).getD []] := by
    unfold angleLog
    rw [rawLines_line _ _ hno]
    rfl
  have hshort : ∀ l ∈ [notedLine (List.replicate angleCount '<'), (goLib.marshal payRent).getD []],
      byteLen l < MaxScanTokenSize := by
    intro l hl
    simp only [List.mem_cons, List.mem_singleton, List.not_mem_nil, or_false] at hl
    rcases hl with hl | hl
    · rw [hl, byteLen_notedLine, byteLen_replicate_ascii _ '<' (by decide)]
      decide
    · rw [hl]
      decide
  have hscan : scan angleLog =
      ([dropCR (notedLine (List.replicate angleCount '<')), dropCR ((goLib.marshal payRent).getD [])],
        false) := by
    unfold scan
    rw [hlines, scanTokens_short _ hshort]
    rfl
  have hp : decodeLine goLib (dropCR ((goLib.marshal payRent).getD [])) = some payRent := by rfl
  have hlive : liveSet goLib { file := some angleLog, tmp := none } = [angleNoted, payRent] := by
    have hA := decodeLine_notedLine _ (plain_replicate angleCount '<' (by decide))
    have hdec : decoded goLib (scan angleLog).1 = [angleNoted, payRent] := by
      rw [hscan]
      unfold decoded
      rw [List.filterMap_cons_some hA, List.filterMap_cons_some hp]
      rfl
    have hnd : ([angleNoted, payRent].map Reminder.ID).Nodup := by
      simp only [List.map_cons, List.map_nil, List.nodup_cons, List.mem_singleton,
        List.not_mem_nil, not_false_eq_true, List.nodup_nil, and_true]
      decide
    simp only [liveSet, hdec]
    exact reconcile_nodup _ hnd
  rw [readAll_present goLib ord .noFault _ angleLog rfl (by rw [hscan]) (by simp) (by simp), hlive]

theorem marshal_angleNoted :
    goLib.marshal angleNoted =
      some (notedHead ++
        (((List.replicate angleCount '<').map GoJSON.encodeChar).flatten ++ notedTail)) := by
  have hg : goLib.marshal = GoJSON.marshal := rfl
  have hne : List.replicate angleCount '<' ≠ [] := by
    intro h
    have := congrArg List.length h
    rw [List.length_replicate] at this
    exact absurd this (by decide)
  rw [hg]
  exact marshal_noted _ hne

/-- C7 (the failing input). The log holds two live records: `angleNoted`, whose line of 11168
bytes carries 11000 characters `<` as they are, and `payRent`; `Get` returns each of them.
`Delete` of the id of `payRent` succeeds and rewrites the log to the one line of `angleNoted`,
which `json.Marshal` writes with every `<` escaped, 66168 bytes. Afterwards, under every map
order, `Get` of the deleted id returns the wrapped read error, not `ErrNotFound`, a second
`Delete` returns the same read error, and `Get` of the id of `angleNoted` fails too. -/
theorem C7_delete_rewrite_blocks_get :
    ∀ ord ord' : MapOrder,
      Store.Get goLib ord .noFault { file := some angleLog, tmp := none } payRent.ID =
        .ok payRent ∧
      Store.Get goLib ord .noFault { file := some angleLog, tmp := none } angleNoted.ID =
        .ok angleNoted ∧
      Store.Delete goLib ord .noFault { file := some angleLog, tmp := none } payRent.ID =
        (.ok (), { file := some (lineOf goLib angleNoted), tmp := none }) ∧
      Store.Get goLib ord' .noFault { file := some (lineOf goLib angleNoted), tmp := none }
        payRent.ID = .error (.wrapped "reading file") ∧
      Store.Delete goLib ord' .noFault { file := some (lineOf goLib angleNoted), tmp := none }
        payRent.ID =
        (.error (.wrapped "reading file"),
          { file := some (lineOf goLib angleNoted), tmp := none }) ∧
      Store.Get goLib ord' .noFault { file := some (lineOf goLib angleNoted), tmp := none }
        angleNoted.ID = .error (.wrapped "reading file") := by
  intro ord ord'
  have hall := readAll_angleLog ord
  have hperm := ord.perm [angleNoted, payRent]
  have hc : compacted goLib [angleNoted] = lineOf goLib angleNoted := by simp [compacted]
  have hm := marshal_angleNoted
  have hscan : (scan (lineOf goLib angleNoted)).2 = true := by
    rw [← hc]
    apply scan_compacted_long goLib [angleNoted] angleNoted _ (by simp) hm
    · simp only [List.mem_append, not_or]
      exact ⟨by decide, not_mem_flatten_map_replicate _ _ _ _ (by decide), by decide⟩
    · rw [byteLen_append, byteLen_append, flatten_map_replicate]
      have e1 : byteLen notedHead = 60 := by rfl
      have e2 : byteLen notedTail = 108 := by rfl
      have e3 : byteLen (GoJSON.encodeChar '<') = 6 := by rfl
      rw [e1, e2, e3]
      decide
  have hget : ∀ id, Store.Get goLib ord' .noFault
      { file := some (lineOf goLib angleNoted), tmp := none } id =
        .error (.wrapped "reading file") :=
    fun id => Get_unreadable goLib ord' .noFault _ _ id rfl hscan (by simp)
  have hrest : (ord.range [angleNoted, payRent]).filter (fun x => decide (x.ID ≠ payRent.ID)) =
      [angleNoted] := filter_of_perm_pair _ angleNoted payRent hperm (by decide)
  refine ⟨?_, ?_, ?_, hget _, ?_, hget _⟩
  · exact Get_of_live goLib ord .noFault _ _ payRent hall
      (hperm.mem_iff.mpr (List.mem_cons_of_mem _ (List.mem_singleton.mpr rfl)))
  · exact Get_of_live goLib ord .noFault _ _ angleNoted hall
      (hperm.mem_iff.mpr (List.mem_cons_self _ _))
  · rw [Delete_noFault goLib ord _ _ payRent.ID hall
      ⟨payRent, hperm.mem_iff.mpr (List.mem_cons_of_mem _ (List.mem_singleton.mpr rfl)), rfl⟩
      (by rw [hrest]; simp [hm]), hrest, hc]
  · exact Delete_unreadable goLib ord' .noFault _ _ payRent.ID rfl hscan (by simp)

theorem unmarshal_notedDoneLine (X : List Char)
    (hX : ∀ c ∈ X, c ≠ '"' ∧ c ≠ '\\' ∧ ¬ c.toNat < 0x20) :
    GoJSON.unmarshal (notedDoneLine X) = some ((noted X).Complete 1700001000) := by
  have h0 : GoJSON.unmarshal (notedDoneLine X) =
      GoJSON.parseMembers (notedHead.tail ++ (X ++ notedDoneTail)).length Reminder.zero
        (notedHead.tail ++ (X ++ notedDoneTail)) := by
    rfl
  have hlen : (notedHead.tail ++ (X ++ notedDoneTail)).length =
      (X.length + 195 + 5) + 1 + 3 := by
    have e1 : notedHead.tail.length = 59 := by rfl
    have e2 : notedDoneTail.length = 145 := by rfl
    simp only [List.length_append, e1, e2]
    omega
  have htail : notedDoneTail = '"' :: ',' :: notedDoneTail.drop 2 := by rfl
  rw [h0, hlen, parseMembers_to_notes, htail, parseMembers_notes _ _ X _ hX,
    parseMembers_after_notes_done]
  rfl

theorem notedDoneLine_ends (X : List Char) :
    notedDoneLine X =
      '\x7b' :: ((notedHead.tail ++ (X ++ notedDoneTail.dropLast)) ++ ['\x7d']) := by
  have h1 : notedHead = '\x7b' :: notedHead.tail := by rfl
  have h2 : notedDoneTail = notedDoneTail.dropLast ++ ['\x7d'] := by rfl
  unfold notedDoneLine
  conv_lhs => rw [h1, h2]
  simp

theorem decodeLine_notedDoneLine (X : List Char)
    (hX : ∀ c ∈ X, c ≠ '"' ∧ c ≠ '\\' ∧ ¬ c.toNat < 0x20) :
    decodeLine goLib (dropCR (notedDoneLine X)) = some ((noted X).Complete 1700001000) := by
  have hd : dropCR (notedDoneLine X) = notedDoneLine X := by
    rw [notedDoneLine_ends, ← List.cons_append]
    exact dropCR_of_last _ _ (by decide)
  have ht : TrimSpace (notedDoneLine X) = notedDoneLine X := by
    rw [notedDoneLine_ends]
    exact TrimSpace_of_ends _ _ _ (by decide) (by decide)
  have hne : notedDoneLine X ≠ [] := by rw [notedDoneLine_ends]; simp
  unfold decodeLine
  rw [hd, ht, if_neg hne]
  exact unmarshal_notedDoneLine X hX

theorem byteLen_notedDoneLine (X : List Char) :
    byteLen (notedDoneLine X) = byteLen X + 205 := by
  have e1 : byteLen notedHead = 60 := by rfl
  have e2 : byteLen notedDoneTail = 145 := by rfl
  unfold notedDoneLine
  rw [byteLen_append, byteLen_append, e1, e2]
  omega

theorem not_mem_notedDoneLine (X : List Char) (h : '\n' ∉ X) : '\n' ∉ notedDoneLine X := by
  unfold notedDoneLine
  simp only [List.mem_append, not_or]
  exact ⟨by decide, h, by decide⟩

theorem marshal_noted_done_letters (n : Nat) (hn : 0 < n) :
    goLib.marshal ((noted (List.replicate n 'x')).Complete 1700001000) =
      some (notedDoneLine (List.replicate n 'x')) := by
  have hne : List.replicate n 'x' ≠ [] := by
    intro h
    have := congrArg List.length h
    simp at this
    omega
  have hg : goLib.marshal = GoJSON.marshal := rfl
  rw [hg, marshal_noted_done _ hne, encode_replicate n 'x' (by decide)]
  rfl

theorem faithful_noted_done_letters (n : Nat) (hn : 0 < n) :
    faithful goLib ((noted (List.replicate n 'x')).Complete 1700001000) = true := by
  have hno : '\n' ∉ notedDoneLine (List.replicate n 'x') :=
    not_mem_notedDoneLine _ (fun h => absurd (List.eq_of_mem_replicate h) (by decide))
  unfold faithful
  rw [marshal_noted_done_letters n hn]
  simp only [Bool.and_eq_true, Bool.not_eq_true', decide_eq_true_eq]
  refine ⟨?_, decodeLine_notedDoneLine _ (plain_replicate n 'x' (by decide))⟩
  cases hc : (notedDoneLine (List.replicate n 'x')).contains '\n' with
  | false => rfl
  | true =>
    exact absurd (by simpa using hc) hno

/-- C8 (the failing input). The log holds the one line of `nearNoted`, 65528 bytes long, and
`Get` returns the record. `Complete` of its id at instant `1700001000` succeeds, and so does
`Update` of the entity's `Complete` applied to that record: both leave the same log, the one
line of the completed record, which the library encodes faithfully in 65565 bytes. Afterwards
`Get` of the id returns the wrapped read error under every map order, not the completed
record. -/
theorem C8_complete_near_limit_blocks_get :
    faithful goLib (nearNoted.Complete 1700001000) = true ∧
      ∀ ord ord' : MapOrder,
        Store.Get goLib ord .noFault { file := some (lineOf goLib nearNoted), tmp := none }
          nearNoted.ID = .ok nearNoted ∧
        Store.Complete goLib ord .noFault 1700001000
          { file := some (lineOf goLib nearNoted), tmp := none } nearNoted.ID =
          (.ok (), { file := some (lineOf goLib (nearNoted.Complete 1700001000)), tmp := none }) ∧
        Store.Update goLib ord .noFault { file := some (lineOf goLib nearNoted), tmp := none }
          (nearNoted.Complete 1700001000) =
          (.ok (), { file := some (lineOf goLib (nearNoted.Complete 1700001000)), tmp := none }) ∧
        Store.Get goLib ord' .noFault
          { file := some (lineOf goLib (nearNoted.Complete 1700001000)), tmp := none }
          nearNoted.ID = .error (.wrapped "reading file") := by
  have hpos : 0 < nearCount := by decide
  have hm : goLib.marshal nearNoted = some (notedLine (List.replicate nearCount 'x')) :=
    marshal_noted_letters nearCount hpos
  have hmd : goLib.marshal (nearNoted.Complete 1700001000) =
      some (notedDoneLine (List.replicate nearCount 'x')) :=
    marshal_noted_done_letters nearCount hpos
  have hst : storable goLib nearNoted = true := by
    apply storable_of_faithful goLib nearNoted _ (faithful_noted_letters nearCount hpos) hm
    rw [byteLen_notedLine, byteLen_replicate_ascii _ 'x' (by decide)]
    decide
  refine ⟨faithful_noted_done_letters nearCount hpos, ?_⟩
  intro ord ord'
  have hall := readAll_single ord nearNoted hst
  have hc : compacted goLib [nearNoted.Complete 1700001000] =
      lineOf goLib (nearNoted.Complete 1700001000) := by simp [compacted]
  have hmap : ([nearNoted].map fun x =>
      if x.ID = nearNoted.ID then nearNoted.Complete 1700001000 else x) =
      [nearNoted.Complete 1700001000] := by
    rw [List.map_cons, List.map_nil, if_pos rfl]
  have hmem : nearNoted ∈ [nearNoted] := List.mem_singleton.mpr rfl
  refine ⟨Get_of_live goLib ord .noFault _ _ nearNoted hall hmem, ?_, ?_, ?_⟩
  · rw [Complete_noFault goLib ord 1700001000 _ [nearNoted] nearNoted hall hmem
      (by rw [hmap]; simp [hmd]), hmap, hc]
  · have hid : (nearNoted.Complete 1700001000).ID = nearNoted.ID := rfl
    have h := Update_noFault goLib ord _ [nearNoted] (nearNoted.Complete 1700001000) hall
      ⟨nearNoted, hmem, rfl⟩ (by rw [hid, hmap]; simp [hmd])
    rw [hid, hmap, hc] at h
    exact h
  · rw [← hc]
    apply Get_after_long_rewrite goLib ord' [nearNoted.Complete 1700001000]
      (nearNoted.Complete 1700001000) _ none _ (by simp) hmd
    · exact not_mem_notedDoneLine _ (fun h => absurd (List.eq_of_mem_replicate h) (by decide))
    · rw [byteLen_notedDoneLine, byteLen_replicate_ascii _ 'x' (by decide)]
      decide

end Recall
